import Mathlib

/-!
Verification development for the canvas-richtext editor core
(`docs/canvas-editor.umd.js`): a shallow embedding of the chain data model,
the normalize/layout pipeline, the edit/navigation operations, hit testing,
selection, and the snapshot-based undo/redo system, together with theorems
settling the specification claims.

JavaScript strings are modelled as lists of characters, pixel quantities as
rationals, the mutable `computed` bag as a record of optional rationals
(`none` models an absent/undefined field), and the canvas measuring context
as a record of functions keyed — as in the source — by the CSS font string.
Code paths that throw are modelled in the `Option` monad, and the one loop
in the source that can fail to terminate (the greedy wrap-splitting loop of
`recalcXPositions`) is given explicit fuel, with `none` modelling
divergence.
-/

/- Rational arithmetic is marked irreducible upstream; unseal it so that
concrete layout computations evaluate inside `decide`. -/
unseal Rat.mul Rat.add Rat.sub Rat.inv Rat.ofScientific

/-- JavaScript string, modelled as a list of characters. -/
abbrev Str := List Char

/-- `FontProperties` from the bundle: size, family, weight, style, the four
formatting flags, and color (the bundled class carries color; equality is
field-wise). -/
structure FontProperties where
  size : ℚ
  family : String
  weight : String
  style : String
  underline : Bool
  strikethrough : Bool
  superscript : Bool
  subscript : Bool
  color : String
deriving DecidableEq, Repr

namespace FontProperties

/-- `toFontString()`: the CSS font string used to key text measurement. -/
def toFontString (f : FontProperties) : String :=
  f.style ++ " " ++ f.weight ++ " " ++ toString f.size ++ "px " ++ f.family

/-- `doPropertiesMatch(other)`: field-wise equality of every property. -/
def doPropertiesMatch (a b : FontProperties) : Bool :=
  a.size == b.size && a.family == b.family && a.weight == b.weight &&
  a.style == b.style && a.underline == b.underline &&
  a.strikethrough == b.strikethrough && a.superscript == b.superscript &&
  a.subscript == b.subscript && a.color == b.color

/-- `clone()`: in the value semantics of the embedding a clone is the same
value (the source clones to avoid aliasing of mutable objects). -/
def clone (f : FontProperties) : FontProperties := f

theorem doPropertiesMatch_iff (a b : FontProperties) :
    a.doPropertiesMatch b = true ↔ a = b := by
  cases a; cases b
  simp only [doPropertiesMatch, Bool.and_eq_true, beq_iff_eq, FontProperties.mk.injEq]
  tauto

end FontProperties

/-- The mutable `computed` layout record attached to every chain link.
`none` models a field that is absent from the JavaScript object. -/
structure Computed where
  posX : Option ℚ := none
  posY : Option ℚ := none
  lineHeight : Option ℚ := none
  ascent : Option ℚ := none
  descent : Option ℚ := none
  height : Option ℚ := none
deriving DecidableEq, Repr

/-- The chain link variants: `TextLink`, `CursorLink`, `NewlineLink`
(a user newline) and `VirtualNewlineLink` (a layout-induced wrap). -/
inductive ChainItem where
  | textLink (text : Str) (font : FontProperties) (computed : Computed)
  | cursorLink (computed : Computed)
  | newlineLink (computed : Computed)
  | virtualNewlineLink (computed : Computed)
deriving DecidableEq, Repr

namespace ChainItem

def isCursor : ChainItem → Bool
  | cursorLink _ => true
  | _ => false

def isText : ChainItem → Bool
  | textLink _ _ _ => true
  | _ => false

def isNewline : ChainItem → Bool
  | newlineLink _ => true
  | _ => false

def isVirtualNewline : ChainItem → Bool
  | virtualNewlineLink _ => true
  | _ => false

def getComputed : ChainItem → Computed
  | textLink _ _ c => c
  | cursorLink c => c
  | newlineLink c => c
  | virtualNewlineLink c => c

end ChainItem

/-- The measuring context (`ctx`): width, ascent and descent of a text under
a CSS font string.  `measureText` in the source saves the context font, sets
it from the link's font properties and measures, so measurement depends on
the font only through `toFontString`. -/
structure Ctx where
  widthFn : String → Str → ℚ
  ascentFn : String → Str → ℚ
  descentFn : String → Str → ℚ

/-- `TextLink.measureText(ctx).width` (with an optional text override). -/
def measureTextWidth (ctx : Ctx) (f : FontProperties) (s : Str) : ℚ :=
  ctx.widthFn f.toFontString s

/-- `measureText(...).actualBoundingBoxAscent`. -/
def measureTextAscent (ctx : Ctx) (f : FontProperties) (s : Str) : ℚ :=
  ctx.ascentFn f.toFontString s

/-- `measureText(...).actualBoundingBoxDescent`. -/
def measureTextDescent (ctx : Ctx) (f : FontProperties) (s : Str) : ℚ :=
  ctx.descentFn f.toFontString s

/-- The `Chain` state: items, wrap width, current font, selection bounds,
sticky vertical-navigation column, and the measuring context it owns. -/
structure Chain where
  items : List ChainItem
  widthPixels : ℚ
  currentFontProperties : FontProperties
  selectionStart : Option ℕ
  selectionEnd : Option ℕ
  targetCursorX : Option ℚ
  ctx : Ctx

/-- The chain constructor: a fresh chain holds a single `CursorLink` and no
selection; `targetCursorX` is not yet set. -/
def Chain.mk0 (widthPixels : ℚ) (ctx : Ctx) (defaultFontProperties : FontProperties) : Chain :=
  { items := [ChainItem.cursorLink {}]
    widthPixels := widthPixels
    currentFontProperties := defaultFontProperties
    selectionStart := none
    selectionEnd := none
    targetCursorX := none
    ctx := ctx }

/-- `cursorIdx()`: index of the first `CursorLink`; `none` models the thrown
error when no cursor is present. -/
def cursorIdx : List ChainItem → Option ℕ
  | [] => none
  | it :: rest => if it.isCursor then some 0 else (cursorIdx rest).map (· + 1)

/-- `clearComputed()`: reset every item's computed record. -/
def clearComputed (items : List ChainItem) : List ChainItem :=
  items.map fun it =>
    match it with
    | .textLink s f _ => .textLink s f {}
    | .cursorLink _ => .cursorLink {}
    | .newlineLink _ => .newlineLink {}
    | .virtualNewlineLink _ => .virtualNewlineLink {}

/-- `removeVirtualNewlines()`. -/
def removeVirtualNewlines (items : List ChainItem) : List ChainItem :=
  items.filter fun it => !it.isVirtualNewline

/-- `joinAdjacentTextLinks()`: merge adjacent `TextLink`s whose font
properties match, concatenating text (the earlier link keeps its computed
record and absorbs the later one).  The source loop merges left to right and
re-examines the merged link (`i--`); because `doPropertiesMatch` is plain
field equality this is the same as merging each link into the already-merged
tail, which is the structural recursion used here. -/
def joinStep (x : ChainItem) (out : List ChainItem) : List ChainItem :=
  match x, out with
  | .textLink a f ca, .textLink b g cb :: out2 =>
    if f.doPropertiesMatch g then .textLink (a ++ b) f ca :: out2
    else .textLink a f ca :: .textLink b g cb :: out2
  | _, _ => x :: out

def joinAdjacentTextLinks : List ChainItem → List ChainItem
  | [] => []
  | x :: rest => joinStep x (joinAdjacentTextLinks rest)

/-- `removeEmptyTextLinks()`. -/
def removeEmptyTextLinks (items : List ChainItem) : List ChainItem :=
  items.filter fun it =>
    match it with
    | .textLink s _ _ => !s.isEmpty
    | _ => true

/-- `ensureCursorExists()`: append a cursor at the end when none exists. -/
def ensureCursorExists (items : List ChainItem) : List ChainItem :=
  if items.any ChainItem.isCursor then items
  else items ++ [ChainItem.cursorLink {}]

/-- The whitespace class of JavaScript regular expressions (the character
set matched by a backslash-s pattern). -/
def jsWhitespace (c : Char) : Bool :=
  c == ' ' || c == '\t' || c == '\n' || c == '\r' ||
  c.toNat == 0x0b || c.toNat == 0x0c || c.toNat == 0xa0 || c.toNat == 0x1680 ||
  (0x2000 ≤ c.toNat && c.toNat ≤ 0x200a) ||
  c.toNat == 0x2028 || c.toNat == 0x2029 || c.toNat == 0x202f ||
  c.toNat == 0x205f || c.toNat == 0x3000 || c.toNat == 0xfeff

/-- Split a text into its maximal runs of whitespace / non-whitespace
characters (the state machine inside `chunkTextLinks`): `b` is the class of
the run under construction (`inside`), `curRev` its characters in reverse. -/
def splitWsRunsGo (b : Bool) (curRev : List Char) : List Char → List (List Char)
  | [] => [curRev.reverse]
  | c :: cs =>
    if jsWhitespace c == b then splitWsRunsGo b (c :: curRev) cs
    else curRev.reverse :: splitWsRunsGo (jsWhitespace c) [c] cs

def splitWsRuns : List Char → List (List Char)
  | [] => []
  | c :: cs => splitWsRunsGo (jsWhitespace c) [c] cs

/-- The treatment of one item by `chunkTextLinks()`: a `TextLink` whose
text mixes whitespace and non-whitespace is split into its maximal
single-class runs; the first piece keeps the original link (and computed
record), later pieces are fresh links with a cloned font. -/
def chunkOne (it : ChainItem) : List ChainItem :=
  match it with
  | .textLink s f c =>
    if s.any jsWhitespace && s.any (fun d => !jsWhitespace d) then
      match splitWsRuns s with
      | [] => [ChainItem.textLink s f c]
      | p :: ps =>
        if ps.length > 0 then
          ChainItem.textLink p f c :: ps.map (fun q => ChainItem.textLink q f.clone {})
        else [ChainItem.textLink s f c]
    else [it]
  | _ => [it]

/-- `chunkTextLinks()`. -/
def chunkTextLinks (items : List ChainItem) : List ChainItem :=
  items.flatMap chunkOne

/-- The backwards search for the largest prefix length that fits the wrap
width, counting down from `remaining.length - 1` (the inner for-loop of the
greedy consumer); `none` models the loop falling through with splitIdx -1. -/
def findSplitIdxGo (w : Str → ℚ) (W : ℚ) (remaining : Str) : ℕ → Option ℕ
  | 0 => if w (remaining.take 0) ≤ W then some 0 else none
  | k + 1 => if w (remaining.take (k + 1)) ≤ W then some (k + 1) else
      findSplitIdxGo w W remaining k

def findSplitIdx (w : Str → ℚ) (W : ℚ) (remaining : Str) : Option ℕ :=
  if remaining.length = 0 then none
  else findSplitIdxGo w W remaining (remaining.length - 1)

/-- The greedy while-loop of `recalcXPositions` that consumes a too-wide
run into sub-runs separated by `VirtualNewlineLink`s.  `fuel` bounds the
number of iterations; `none` models divergence of the source loop (which
makes no progress when not even the empty prefix fits). -/
def consumeRun (w : Str → ℚ) (W : ℚ) (font : FontProperties) :
    ℕ → ℚ → Str → List ChainItem → Option (List ChainItem × ℚ)
  | 0, posX, remaining, acc =>
    if remaining.length = 0 then some (acc, posX) else none
  | fuel + 1, posX, remaining, acc =>
    if remaining.length = 0 then some (acc, posX)
    else
        let width := w remaining
        if width > W then
          match findSplitIdx w W remaining with
          | some k =>
            let acc1 := acc ++ [ChainItem.textLink (remaining.take k) font.clone { posX := some posX }]
            let rem1 := remaining.drop k
            let next :=
              if k = 0 then
                match acc1.getLast? with
                | some (ChainItem.textLink s f c) =>
                  if rem1.length > 0 && s.length > 0 then
                    (acc1.dropLast ++ [ChainItem.textLink (s ++ rem1.take 1) f c], rem1.drop 1)
                  else (acc1, rem1.drop 1)
                | _ => (acc1, rem1.drop 1)
              else (acc1, rem1)
            consumeRun w W font fuel posX next.2 (next.1 ++ [ChainItem.virtualNewlineLink {}])
          | none =>
            consumeRun w W font fuel posX remaining (acc ++ [ChainItem.virtualNewlineLink {}])
        else
          some (acc ++ [ChainItem.textLink remaining font { posX := some posX }], posX + width)

/-- One step of the line-occupancy bookkeeping: after emitting an item, is
there a `TextLink` on the current line (i.e. since the last hard or virtual
newline)?  This mirrors the backwards `isFirstTextLinkOnLine` scan of the
source, in which every newline kind breaks the scan and text marks the line
occupied. -/
def updateLineFlag (flag : Bool) : ChainItem → Bool
  | .textLink _ _ _ => true
  | .newlineLink _ => false
  | .virtualNewlineLink _ => false
  | .cursorLink _ => flag

/-- `recalcXPositions()`: walk the items left to right carrying the running
x position and the line-occupancy flag, assigning `posX` and inserting
`VirtualNewlineLink`s for wrapping. -/
def recalcXGo (ctx : Ctx) (W : ℚ) : ℚ → Bool → List ChainItem → Option (List ChainItem)
  | _, _, [] => some []
  | posX, flag, ChainItem.textLink s f c :: rest =>
    if measureTextWidth ctx f s > W then
      match consumeRun (measureTextWidth ctx f) W f (s.length + 1)
          (if flag then 0 else posX) s [] with
      | some (newItems, posX1) =>
        (recalcXGo ctx W posX1
            (((if flag then [ChainItem.virtualNewlineLink {}] else []) ++ newItems).foldl
              updateLineFlag flag) rest).map
          (fun out =>
            (if flag then [ChainItem.virtualNewlineLink {}] else []) ++ newItems ++ out)
      | none => none
    else if posX + measureTextWidth ctx f s > W then
      (recalcXGo ctx W (0 + measureTextWidth ctx f s) true rest).map
        (fun out => ChainItem.virtualNewlineLink {} ::
          ChainItem.textLink s f { c with posX := some 0 } :: out)
    else
      (recalcXGo ctx W (posX + measureTextWidth ctx f s) true rest).map
        (fun out => ChainItem.textLink s f { c with posX := some posX } :: out)
  | _, flag, ChainItem.newlineLink c :: rest =>
    (recalcXGo ctx W 0 false rest).map
      (fun out => ChainItem.newlineLink { c with posX := some 0 } :: out)
  | posX, flag, ChainItem.cursorLink c :: rest =>
    (recalcXGo ctx W posX flag rest).map
      (fun out => ChainItem.cursorLink { c with posX := some posX } :: out)
  | posX, _, ChainItem.virtualNewlineLink c :: rest =>
    (recalcXGo ctx W posX false rest).map
      (fun out => ChainItem.virtualNewlineLink c :: out)

def recalcXPositions (ctx : Ctx) (W : ℚ) (items : List ChainItem) : Option (List ChainItem) :=
  recalcXGo ctx W 0 false items

/-- Result of the backwards scan a `CursorLink` performs in
`recalcYPositions` to find its height: the nearest preceding `TextLink`
(the scan walks straight past virtual newlines) or `NewlineLink`. -/
inductive CursorScan where
  | noneFound
  | newlineFound
  | textFound (s : Str) (f : FontProperties)
deriving DecidableEq, Repr

def cursorHeightScan : List ChainItem → CursorScan
  | [] => .noneFound
  | .textLink s f _ :: _ => .textFound s f
  | .newlineLink _ :: _ => .newlineFound
  | _ :: rest => cursorHeightScan rest

/-- Assign the final line height to an item of the completed line. -/
def setLineHeight (lh : ℚ) : ChainItem → ChainItem
  | .textLink s f c => .textLink s f { c with lineHeight := some lh }
  | .cursorLink c => .cursorLink { c with lineHeight := some lh }
  | .newlineLink c => .newlineLink { c with lineHeight := some lh }
  | .virtualNewlineLink c => .virtualNewlineLink { c with lineHeight := some lh }

/-- The line-spacing multiplier `LINE_SPACING_MULT`. -/
def lineSpacingMult : ℚ := 3 / 2

/-- `recalcYPositions()`: walk the items accumulating per-line maxima of
ascent, descent and font size; at a line end (either newline kind, or the
end of the list) every buffered item of the line receives the final line
height and `posY` advances.  `prevRev` is the reversed list of items already
walked (the cursor's backwards height scan reads it), `buf` the items of the
line under construction, and `mA`, `mD`, `mS` the line maxima. -/
def recalcYGo (ctx : Ctx) (cf : FontProperties) :
    List ChainItem → ℚ → List ChainItem → ℚ → ℚ → ℚ → List ChainItem → List ChainItem
  | prevRev, posY, buf, mA, mD, mS, l =>
    let baseHeight := max (mA + mD) mS
    let base := if baseHeight = 0 then cf.size else baseHeight
    let lh := base * lineSpacingMult
    match l with
    | [] => buf.map (setLineHeight lh)
    | it :: rest =>
      match it with
      | .newlineLink c =>
        buf.map (setLineHeight lh) ++
          (ChainItem.newlineLink { c with posY := some (posY + lh) } ::
            recalcYGo ctx cf (it :: prevRev) (posY + lh) [] 0 0 0 rest)
      | .virtualNewlineLink c =>
        buf.map (setLineHeight lh) ++
          (ChainItem.virtualNewlineLink { c with posY := some (posY + lh) } ::
            recalcYGo ctx cf (it :: prevRev) (posY + lh) [] 0 0 0 rest)
      | .textLink s f c =>
        let asc := measureTextAscent ctx f s
        let desc := measureTextDescent ctx f s
        recalcYGo ctx cf (it :: prevRev) posY
          (buf ++ [ChainItem.textLink s f
            { c with posY := some posY, ascent := some asc, descent := some desc }])
          (max mA asc) (max mD desc) (max mS f.size) rest
      | .cursorLink c =>
        match cursorHeightScan prevRev with
        | .textFound s1 f1 =>
          let asc1 := measureTextAscent ctx f1 s1
          let desc1 := measureTextDescent ctx f1 s1
          recalcYGo ctx cf (it :: prevRev) posY
            (buf ++ [ChainItem.cursorLink
              { c with posY := some posY,
                       height := some (max (asc1 + desc1) f1.size),
                       lineHeight := some lh }])
            (max mA asc1) (max mD desc1) (max mS f1.size) rest
        | .newlineFound =>
          recalcYGo ctx cf (it :: prevRev) posY
            (buf ++ [ChainItem.cursorLink
              { c with posY := some posY, height := some lh, lineHeight := some lh }])
            mA mD mS rest
        | .noneFound =>
          recalcYGo ctx cf (it :: prevRev) posY
            (buf ++ [ChainItem.cursorLink
              { c with posY := some posY, height := some cf.size, lineHeight := some lh }])
            mA mD mS rest

def recalcYPositions (ctx : Ctx) (cf : FontProperties) (items : List ChainItem) : List ChainItem :=
  recalcYGo ctx cf [] 0 [] 0 0 0 items

/-- `recalc()`: the full normalize/layout pipeline, in source order.
`none` models divergence of the wrapping loop. -/
def Chain.recalc (c : Chain) : Option Chain :=
  let i0 := clearComputed c.items
  let i1 := removeVirtualNewlines i0
  let i2 := joinAdjacentTextLinks i1
  let i3 := removeEmptyTextLinks i2
  let i4 := ensureCursorExists i3
  let i5 := chunkTextLinks i4
  match recalcXPositions c.ctx c.widthPixels i5 with
  | none => none
  | some i6 => some { c with items := recalcYPositions c.ctx c.currentFontProperties i6 }

/-- `getText()`: concatenate run texts, a newline per `NewlineLink`. -/
def getText (items : List ChainItem) : Str :=
  items.flatMap fun it =>
    match it with
    | .textLink s _ _ => s
    | .newlineLink _ => ['\n']
    | _ => []

/-- The flattened character count: each run's text length plus one per
`NewlineLink`; virtual newlines and the cursor contribute nothing. -/
def flattenedCharCount (items : List ChainItem) : ℕ :=
  items.foldl
    (fun acc it =>
      match it with
      | .textLink s _ _ => acc + s.length
      | .newlineLink _ => acc + 1
      | _ => acc) 0

/-- Number of cursors in a chain. -/
def countCursor (items : List ChainItem) : ℕ :=
  items.countP fun it => it.isCursor

/-! ## List helpers mirroring JavaScript array mutation

`splice(n, 0, x)` clamps its start index to the array length, and indexed
assignment out of range is a no-op on the positions we use. -/

/-- Insert `x` at position `n` (clamped to the length), as `splice(n,0,x)`. -/
def insertClamp (l : List ChainItem) (n : ℕ) (x : ChainItem) : List ChainItem :=
  l.insertIdx (min n l.length) x

/-- Apply `f` to the element at index `n` (no-op out of range), as an
indexed assignment. -/
def listModify (f : ChainItem → ChainItem) : ℕ → List ChainItem → List ChainItem
  | _, [] => []
  | 0, x :: rest => f x :: rest
  | n + 1, x :: rest => x :: listModify f n rest

/-- `this.items[i].text = newText` keeping font and computed record. -/
def withText (newText : Str) : ChainItem → ChainItem
  | .textLink _ f c => .textLink newText f c
  | it => it

/-! ## Edit operations -/

/-- `printableKeyPressed(char)`: the backwards scan from the cursor stops at
the immediately preceding item (every link kind breaks it): append to a
matching `TextLink`, insert a fresh single-character run before the cursor
after a break or a non-matching run, or unshift at document start. -/
def Chain.printableKeyPressed (c : Chain) (ch : Char) : Option Chain :=
  match cursorIdx c.items with
  | none => none
  | some n =>
    let step : Option (List ChainItem) :=
      if n > 0 then
        match c.items[n - 1]? with
        | some (.textLink _ f _) =>
          if f.doPropertiesMatch c.currentFontProperties then
            some (listModify (fun it =>
              match it with
              | .textLink s2 f2 c2 => .textLink (s2 ++ [ch]) f2 c2
              | o => o) (n - 1) c.items)
          else
            some (insertClamp c.items n
              (.textLink [ch] c.currentFontProperties.clone {}))
        | some (.virtualNewlineLink _) =>
          some (insertClamp c.items n (.textLink [ch] c.currentFontProperties.clone {}))
        | some (.newlineLink _) =>
          some (insertClamp c.items n (.textLink [ch] c.currentFontProperties.clone {}))
        | some (.cursorLink _) => none
        | none => some c.items
      else
        some (ChainItem.textLink [ch] c.currentFontProperties.clone {} :: c.items)
    match step with
    | none => none
    | some items1 => Chain.recalc { c with items := items1 }

/-- The backwards scan of `backspacePressed` starting at index `j` (the
argument is `j + 1`): a non-empty `TextLink` loses its last character, a
`NewlineLink` is deleted, empty runs and virtual newlines are walked past,
and finding a cursor is the thrown invariant error. -/
def backspaceScanGo (items : List ChainItem) : ℕ → Option (List ChainItem)
  | 0 => some items
  | j + 1 =>
    match items[j]? with
    | some (.textLink s _ _) =>
      if s.length > 0 then
        some (listModify (fun it =>
          match it with
          | .textLink s2 f2 c2 => .textLink s2.dropLast f2 c2
          | o => o) j items)
      else backspaceScanGo items j
    | some (.newlineLink _) => some (items.eraseIdx j)
    | some (.cursorLink _) => none
    | some (.virtualNewlineLink _) => backspaceScanGo items j
    | none => backspaceScanGo items j

/-- `backspacePressed()`. -/
def Chain.backspacePressed (c : Chain) : Option Chain :=
  match cursorIdx c.items with
  | none => none
  | some n =>
    let step := if n > 0 then backspaceScanGo c.items n else some c.items
    match step with
    | none => none
    | some items1 => Chain.recalc { c with items := items1 }

/-- `enterPressed()`: insert a `NewlineLink` before the cursor. -/
def Chain.enterPressed (c : Chain) : Option Chain :=
  match cursorIdx c.items with
  | none => none
  | some n => Chain.recalc { c with items := insertClamp c.items n (.newlineLink {}) }

/-- `getCharPosition(itemIdx, charOffset)`: flattened character position of
an (item, in-run-offset) pair. -/
def getCharPosition (items : List ChainItem) (itemIdx charOffset : ℕ) : ℕ :=
  let pos := (items.take itemIdx).foldl
    (fun acc it =>
      match it with
      | .textLink s _ _ => acc + s.length
      | .newlineLink _ => acc + 1
      | _ => acc) 0
  match items[itemIdx]? with
  | some (.textLink s _ _) => pos + min charOffset s.length
  | _ => pos

/-- `getItemFromCharPosition(charPos)`: inverse conversion; the fall-through
returns the last index with offset 0. -/
def getItemFromCharPositionGo (charPos : ℕ) (endIdx : ℕ) :
    ℕ → ℕ → List ChainItem → ℕ × ℕ
  | _, _, [] => (endIdx, 0)
  | i, pos, it :: rest =>
    match it with
    | .textLink s _ _ =>
      if pos + s.length ≥ charPos then (i, charPos - pos)
      else getItemFromCharPositionGo charPos endIdx (i + 1) (pos + s.length) rest
    | .newlineLink _ =>
      if pos ≥ charPos then (i, 0)
      else getItemFromCharPositionGo charPos endIdx (i + 1) (pos + 1) rest
    | _ => getItemFromCharPositionGo charPos endIdx (i + 1) pos rest

def getItemFromCharPosition (items : List ChainItem) (charPos : ℕ) : ℕ × ℕ :=
  getItemFromCharPositionGo charPos (items.length - 1) 0 0 items

/-- `setSelection(startItemIdx, startCharOffset, endItemIdx, endCharOffset)`:
convert both pairs to flattened positions, swapping when out of order. -/
def Chain.setSelection (c : Chain) (startItemIdx startCharOffset endItemIdx endCharOffset : ℕ) :
    Chain :=
  let s := getCharPosition c.items startItemIdx startCharOffset
  let t := getCharPosition c.items endItemIdx endCharOffset
  if s > t then { c with selectionStart := some t, selectionEnd := some s }
  else { c with selectionStart := some s, selectionEnd := some t }

def Chain.clearSelection (c : Chain) : Chain :=
  { c with selectionStart := none, selectionEnd := none }

def Chain.hasSelection (c : Chain) : Bool :=
  c.selectionStart.isSome && c.selectionEnd.isSome &&
    c.selectionStart != c.selectionEnd

/-- `moveCursorToCharPosition(charPos)`: re-home the cursor at a flattened
position, splitting a run when landing inside one. -/
def Chain.moveCursorToCharPosition (c : Chain) (charPos : ℕ) : Option Chain :=
  let p := getItemFromCharPosition c.items charPos
  match cursorIdx c.items with
  | none => none
  | some n =>
    let items1 := c.items.eraseIdx n
    let adjusted := if n < p.1 then p.1 - 1 else p.1
    let items2 :=
      if adjusted ≥ items1.length then items1 ++ [ChainItem.cursorLink {}]
      else
        match items1[adjusted]? with
        | some (.textLink s f _) =>
          if p.2 > 0 then
            let a := listModify (withText (s.take p.2)) adjusted items1
            let b := insertClamp a (adjusted + 1) (.cursorLink {})
            if p.2 < s.length then
              insertClamp b (adjusted + 2) (.textLink (s.drop p.2) f.clone {})
            else b
          else insertClamp items1 adjusted (.cursorLink {})
        | _ => insertClamp items1 adjusted (.cursorLink {})
    Chain.recalc { c with items := items2 }

/-- The backwards scan of `leftArrowPressed` (argument is index + 1): any
`TextLink` or `NewlineLink` breaks it, virtual newlines are walked past. -/
def leftScanGo (items : List ChainItem) (n : ℕ) : ℕ → Option (List ChainItem)
  | 0 => some items
  | j + 1 =>
    match items[j]? with
    | some (.textLink s f _) =>
      if s.length = 1 then
        some (insertClamp (items.eraseIdx n) j (.cursorLink {}))
      else
        let a := items.eraseIdx n
        let b := listModify (withText s.dropLast) j a
        let d := insertClamp b (j + 1) (.cursorLink {})
        some (insertClamp d (j + 2) (.textLink (s.drop (s.length - 1)) f.clone {}))
    | some (.newlineLink _) => some (insertClamp (items.eraseIdx n) j (.cursorLink {}))
    | some (.cursorLink _) => none
    | some (.virtualNewlineLink _) => leftScanGo items n j
    | none => leftScanGo items n j

/-- `leftArrowPressed()`. -/
def Chain.leftArrowPressed (c : Chain) : Option Chain :=
  let c := { c with targetCursorX := none }
  if c.hasSelection then
    match c.selectionStart with
    | some s => (c.moveCursorToCharPosition s).map Chain.clearSelection
    | none => none
  else
    match cursorIdx c.items with
    | none => none
    | some n =>
      let step := if n > 0 then leftScanGo c.items n n else some c.items
      match step with
      | none => none
      | some items1 => Chain.recalc { c with items := items1 }

/-- The forwards scan of `rightArrowPressed`, starting from index `i` over
the dropped suffix. -/
def rightScanGo (items : List ChainItem) (n : ℕ) :
    ℕ → List ChainItem → Option (List ChainItem)
  | _, [] => some items
  | j, it :: rest =>
    match it with
    | .textLink s f _ =>
      let items1 := items.eraseIdx n
      let adjusted := j - 1
      if s.length = 1 then
        some (insertClamp items1 (adjusted + 1) (.cursorLink {}))
      else
        let a := listModify (withText (s.drop 1)) adjusted items1
        let b := insertClamp a adjusted (.textLink (s.take 1) f.clone {})
        some (insertClamp b (adjusted + 1) (.cursorLink {}))
    | .newlineLink _ =>
      some (insertClamp (items.eraseIdx n) ((j - 1) + 1) (.cursorLink {}))
    | .cursorLink _ => none
    | .virtualNewlineLink _ => rightScanGo items n (j + 1) rest

/-- `rightArrowPressed()`. -/
def Chain.rightArrowPressed (c : Chain) : Option Chain :=
  let c := { c with targetCursorX := none }
  if c.hasSelection then
    match c.selectionEnd with
    | some s => (c.moveCursorToCharPosition s).map Chain.clearSelection
    | none => none
  else
    match cursorIdx c.items with
    | none => none
    | some n =>
      let step :=
        if n < c.items.length - 1 then
          rightScanGo c.items n (n + 1) (c.items.drop (n + 1))
        else some c.items
      match step with
      | none => none
      | some items1 => Chain.recalc { c with items := items1 }

/-! ## Hit testing and `clicked` -/

/-- JavaScript truthy-or (`a || b`) on a possibly-absent number: an absent
field or a zero value falls back to the default. -/
def jsOr (o : Option ℚ) (dflt : ℚ) : ℚ :=
  match o with
  | some v => if v = 0 then dflt else v
  | none => dflt

/-- `TextLink.clickHits(ctx, x, y)`: the horizontal span is
`[posX, posX + width]`, the vertical span extends half the line gap above
the ascent and below the descent.  An absent `posX`/`posY` makes every
comparison false (NaN semantics). -/
def clickHits (ctx : Ctx) (s : Str) (f : FontProperties) (c : Computed) (x y : ℚ) : Bool :=
  match c.posX with
  | none => false
  | some px =>
    if px ≤ x ∧ x ≤ px + measureTextWidth ctx f s then
      match c.posY with
      | none => false
      | some py =>
        let lh := jsOr c.lineHeight 0
        let th := jsOr c.ascent 0 + jsOr c.descent 0
        let gapSpace := lh - th
        let topY := py - jsOr c.ascent 0 - gapSpace / 2
        let bottomY := py + jsOr c.descent 0 + gapSpace / 2
        decide (topY ≤ y ∧ y ≤ bottomY)
    else false

/-- `TextLink.getCharIdxFromX(ctx, x)`: walk the characters accumulating
widths; inside a character's span, round to the nearer edge; past the last
character return the text length.  An absent start `posX` models the NaN
walk in which no span ever matches. -/
def getCharIdxFromXGo (ctx : Ctx) (f : FontProperties) (x : ℚ) :
    Str → ℕ → ℚ → ℕ
  | [], idx, _ => idx
  | ch :: cs, idx, pos =>
    let cw := measureTextWidth ctx f [ch]
    if pos ≤ x ∧ x ≤ pos + cw then
      if x > pos + cw / 2 then idx + 1 else idx
    else getCharIdxFromXGo ctx f x cs (idx + 1) (pos + cw)

def getCharIdxFromX (ctx : Ctx) (f : FontProperties) (s : Str) (startX : Option ℚ) (x : ℚ) : ℕ :=
  match startX with
  | none => s.length
  | some px => getCharIdxFromXGo ctx f x s 0 px

/-- First item (ascending) that is a `TextLink` hit by the click. -/
def clickedHitGo (ctx : Ctx) (x y : ℚ) :
    ℕ → List ChainItem → Option (ℕ × Str × FontProperties × Computed)
  | _, [] => none
  | i, .textLink s f c :: rest =>
    if clickHits ctx s f c x y then some (i, s, f, c)
    else clickedHitGo ctx x y (i + 1) rest
  | i, _ :: rest => clickedHitGo ctx x y (i + 1) rest

/-- The upward extension of a candidate line's span in the `clicked`
fallback: scan backwards from the line's text item for a newline on a
previous line (strictly smaller `posY`) and extend to the midpoint;
another `TextLink` stops the scan.  Argument is index + 1. -/
def extendTopGo (items : List ChainItem) (itemPosY origTopY : ℚ) : ℕ → ℚ
  | 0 => origTopY
  | j + 1 =>
    match items[j]? with
    | some (.newlineLink c) =>
      match c.posY with
      | some py => if py < itemPosY then (py + origTopY) / 2 else extendTopGo items itemPosY origTopY j
      | none => extendTopGo items itemPosY origTopY j
    | some (.virtualNewlineLink c) =>
      match c.posY with
      | some py => if py < itemPosY then (py + origTopY) / 2 else extendTopGo items itemPosY origTopY j
      | none => extendTopGo items itemPosY origTopY j
    | some (.textLink _ _ _) => origTopY
    | _ => extendTopGo items itemPosY origTopY j

/-- The downward extension: scan forwards for the next line's text (extend
to the midpoint with its top, using the current line's gap) or a newline on
a later line.  `none` models a NaN arising from an absent computed field. -/
def extendBottomGo (itemPosY gapSpace origBottomY : ℚ) : List ChainItem → Option ℚ
  | [] => some origBottomY
  | .textLink _ _ c :: _ =>
    match c.posY with
    | some py => some ((origBottomY + (py - jsOr c.ascent 0 - gapSpace / 2)) / 2)
    | none => none
  | .newlineLink c :: rest =>
    match c.posY with
    | some py => if py > itemPosY then some ((origBottomY + py) / 2)
                 else extendBottomGo itemPosY gapSpace origBottomY rest
    | none => extendBottomGo itemPosY gapSpace origBottomY rest
  | .virtualNewlineLink c :: rest =>
    match c.posY with
    | some py => if py > itemPosY then some ((origBottomY + py) / 2)
                 else extendBottomGo itemPosY gapSpace origBottomY rest
    | none => extendBottomGo itemPosY gapSpace origBottomY rest
  | .cursorLink _ :: rest => extendBottomGo itemPosY gapSpace origBottomY rest

/-- Collect the candidate lines whose extended vertical span contains `y`,
walking text items from the last index down (argument is index + 1) and
de-duplicating by `posY`; each candidate carries its distance to `y`. -/
def collectCandidatesGo (ctx : Ctx) (cf : FontProperties) (items : List ChainItem) (y : ℚ) :
    ℕ → List (ℚ × ℚ) → List (ℚ × ℚ)
  | 0, acc => acc
  | j + 1, acc =>
    match items[j]? with
    | some (.textLink _ _ c) =>
      match c.posY with
      | none => collectCandidatesGo ctx cf items y j acc
      | some py =>
        let lh := jsOr c.lineHeight (cf.size * lineSpacingMult)
        let th := jsOr c.ascent 0 + jsOr c.descent 0
        let gapSpace := lh - th
        let topY0 := py - jsOr c.ascent 0 - gapSpace / 2
        let bottomY0 := py + jsOr c.descent 0 + gapSpace / 2
        let topY := extendTopGo items py topY0 j
        let inRange :=
          match extendBottomGo py gapSpace bottomY0 (items.drop (j + 1)) with
          | none => false
          | some bY => decide (topY ≤ y ∧ y ≤ bY)
        let acc1 :=
          if inRange && !(acc.any (fun cand => cand.1 == py)) then
            acc ++ [(py, |y - py|)]
          else acc
        collectCandidatesGo ctx cf items y j acc1
    | _ => collectCandidatesGo ctx cf items y j acc

/-- Pick the candidate with the smallest distance; on ties the earliest in
the list wins (the source's stable sort followed by taking the head). -/
def pickClosest (cands : List (ℚ × ℚ)) : Option (ℚ × ℚ) :=
  cands.foldl
    (fun best cand =>
      match best with
      | none => some cand
      | some b => if cand.2 < b.2 then some cand else some b) none

/-- First and last text item indices on the line with `posY = target`, and
the right edge of the last one (`none` models the NaN from an absent
`posX`). -/
def lineBoundsGo (ctx : Ctx) (target : ℚ) :
    ℕ → Option ℕ → Option ℕ → Option ℚ → List ChainItem → Option ℕ × Option ℕ × Option ℚ
  | _, first, last, endX, [] => (first, last, endX)
  | i, first, last, endX, .textLink s f c :: rest =>
    if c.posY == some target then
      let endX1 :=
        match c.posX with
        | some px => some (px + measureTextWidth ctx f s)
        | none => none
      lineBoundsGo ctx target (i + 1) (if first.isNone then some i else first) (some i) endX1 rest
    else lineBoundsGo ctx target (i + 1) first last endX rest
  | i, first, last, endX, _ :: rest => lineBoundsGo ctx target (i + 1) first last endX rest

/-- The empty-line pass of the `clicked` fallback: find a newline (of
either kind) with a defined `posY` that starts an empty line (followed by
nothing, a newline, or the cursor) whose span contains `y`, and re-home the
cursor right after it.  Returns the new item list. -/
def emptyLineGo (cf : FontProperties) (items : List ChainItem) (y : ℚ) :
    ℕ → List ChainItem → Option (Option (List ChainItem))
  | _, [] => some none
  | i, it :: rest =>
    let isNl := it.isNewline || it.isVirtualNewline
    let c := it.getComputed
    match isNl, c.posY with
    | true, some py =>
      let isEmptyLine :=
        match items[i + 1]? with
        | none => true
        | some (.newlineLink _) => true
        | some (.virtualNewlineLink _) => true
        | some (.cursorLink _) => true
        | some (.textLink _ _ _) => false
      if isEmptyLine then
        let lh := jsOr c.lineHeight (cf.size * lineSpacingMult)
        let topY := py - lh
        let bottomY :=
          match (items.drop (i + 1)).find? (fun jt => jt.isText) with
          | some (.textLink _ _ cj) =>
            match cj.posY, cj.lineHeight, cj.ascent, cj.descent with
            | some pyj, some lhj, some aj, some dj =>
              some ((py + (pyj - jsOr cj.ascent 0 - (lhj - (aj + dj)) / 2)) / 2)
            | _, _, _, _ => none
          | _ => some py
        let inRange :=
          match bottomY with
          | none => false
          | some bY => decide (topY ≤ y ∧ y ≤ bY)
        if inRange then
          match cursorIdx items with
          | none => none
          | some n =>
            let items1 := items.eraseIdx n
            let adjusted := if n ≤ i then i else i + 1
            some (some (insertClamp items1 adjusted (.cursorLink {})))
        else emptyLineGo cf items y (i + 1) rest
      else emptyLineGo cf items y (i + 1) rest
    | _, _ => emptyLineGo cf items y (i + 1) rest

/-- Smallest `posY` over text items with a defined `posY` (`none` models the
initial Infinity surviving when no text exists). -/
def firstLineY (items : List ChainItem) : Option ℚ :=
  items.foldl
    (fun acc it =>
      match it with
      | .textLink _ _ c =>
        match c.posY, acc with
        | some py, some m => some (min m py)
        | some py, none => some py
        | none, a => a
      | _ => acc) none

/-- `clicked(x, y)`: hit a text run and split it at the resolved character,
or fall back to the closest candidate line (end- or start-of-line), an
empty line, and finally the document start/end. -/
def Chain.clicked (c : Chain) (x y : ℚ) : Option Chain :=
  let c := { c with targetCursorX := none }
  match clickedHitGo c.ctx x y 0 c.items with
  | some (i, s, f, cc) =>
    let charIdx := getCharIdxFromX c.ctx f s cc.posX x
    match cursorIdx c.items with
    | none => none
    | some n =>
      let items1 := c.items.eraseIdx n
      let adjusted := if n < i then i - 1 else i
      let a := listModify (withText (s.take charIdx)) adjusted items1
      let b := insertClamp a (adjusted + 1) (.cursorLink {})
      let d := insertClamp b (adjusted + 2) (.textLink (s.drop charIdx) f.clone {})
      Chain.recalc { c with items := d }
  | none =>
    let cands := collectCandidatesGo c.ctx c.currentFontProperties c.items y c.items.length []
    match pickClosest cands with
    | some cand =>
      match lineBoundsGo c.ctx cand.1 0 none none none c.items with
      | (some firstIdx, some lastIdx, endX) =>
        let pastEnd :=
          match endX with
          | some eX => decide (eX ≤ x)
          | none => false
        match cursorIdx c.items with
        | none => none
        | some n =>
          if pastEnd then
            let items1 := c.items.eraseIdx n
            let adjustedLast := if n ≤ lastIdx then lastIdx - 1 else lastIdx
            Chain.recalc { c with items := insertClamp items1 (adjustedLast + 1) (.cursorLink {}) }
          else
            let items1 := c.items.eraseIdx n
            Chain.recalc { c with items := insertClamp items1 firstIdx (.cursorLink {}) }
      | _ => none
    | none =>
      match emptyLineGo c.currentFontProperties c.items y 0 c.items with
      | none => none
      | some (some items1) => Chain.recalc { c with items := items1 }
      | some none =>
        match cursorIdx c.items with
        | none => none
        | some n =>
          let goStart :=
            match firstLineY c.items with
            | none => true
            | some fy => decide (y < fy - 50)
          if goStart then
            Chain.recalc { c with items := ChainItem.cursorLink {} :: c.items.eraseIdx n }
          else
            Chain.recalc { c with items := c.items.eraseIdx n ++ [ChainItem.cursorLink {}] }

/-- The backwards scan of `upArrowPressed` for the previous line: the first
item before the cursor with a defined `posY` strictly above the cursor's
(`none` for the cursor's own `posY` makes every comparison false). -/
def upScanGo (items : List ChainItem) (currentY : Option ℚ) : ℕ → Option ℚ
  | 0 => none
  | j + 1 =>
    match items[j]? with
    | some it =>
      match it.getComputed.posY, currentY with
      | some py, some cy =>
        if py < cy then some py else upScanGo items currentY j
      | _, _ => upScanGo items currentY j
    | none => upScanGo items currentY j

/-- The forwards scan of `downArrowPressed` for the next line. -/
def downScanGo (currentY : Option ℚ) : List ChainItem → Option ℚ
  | [] => none
  | it :: rest =>
    match it.getComputed.posY, currentY with
    | some py, some cy => if py > cy then some py else downScanGo currentY rest
    | _, _ => downScanGo currentY rest

/-- `upArrowPressed()`: remember the sticky column, find the previous line's
`posY` and delegate to `clicked`; on the first line move to the document
start. -/
def Chain.upArrowPressed (c : Chain) : Option Chain :=
  match cursorIdx c.items with
  | none => none
  | some n =>
    let cc := (c.items[n]?.map ChainItem.getComputed).getD {}
    let currentX := match c.targetCursorX with | some v => some v | none => cc.posX
    let currentY := cc.posY
    let c1 := { c with targetCursorX := currentX }
    match upScanGo c1.items currentY n with
    | none => Chain.recalc { c1 with items := ChainItem.cursorLink {} :: c1.items.eraseIdx n }
    | some ty =>
      match currentX with
      | none => none
      | some cx => c1.clicked cx ty

/-- `downArrowPressed()`. -/
def Chain.downArrowPressed (c : Chain) : Option Chain :=
  match cursorIdx c.items with
  | none => none
  | some n =>
    let cc := (c.items[n]?.map ChainItem.getComputed).getD {}
    let currentX := match c.targetCursorX with | some v => some v | none => cc.posX
    let currentY := cc.posY
    let c1 := { c with targetCursorX := currentX }
    match downScanGo currentY (c1.items.drop (n + 1)) with
    | none => Chain.recalc { c1 with items := c1.items.eraseIdx n ++ [ChainItem.cursorLink {}] }
    | some ty =>
      match currentX with
      | none => none
      | some cx => c1.clicked cx ty

/-! ## Editor level: setText, snapshots, undo/redo -/

/-- `setText(text)`: reset the chain to a lone cursor, then feed each
character through `enterPressed` (for a newline) or `printableKeyPressed`. -/
def Chain.setText (c : Chain) (s : Str) : Option Chain :=
  s.foldlM
    (fun ch char =>
      if char = '\n' then ch.enterPressed else ch.printableKeyPressed char)
    { c with items := [ChainItem.cursorLink {}] }

/-- The `FontProperties` constructor with only the four basic arguments, as
`restoreSnapshot` calls it: the flags default to false, color to black. -/
def FontProperties.ofBasic (size : ℚ) (family weight style : String) : FontProperties :=
  { size := size, family := family, weight := weight, style := style,
    underline := false, strikethrough := false, superscript := false,
    subscript := false, color := "#000000" }

/-- The value stored for one item by `takeSnapshot`: only text and the four
basic font fields of a `TextLink` survive; cursor and newline are bare
tags.  A `VirtualNewlineLink` maps to `null` and is filtered out. -/
inductive SnapItem where
  | text (s : Str) (size : ℚ) (family weight style : String)
  | cursor
  | newline
deriving DecidableEq, Repr

structure Snapshot where
  items : List SnapItem
  selectionStart : Option ℕ
  selectionEnd : Option ℕ
deriving DecidableEq, Repr

/-- The item mapping of `takeSnapshot`. -/
def takeSnapshotItems (items : List ChainItem) : List SnapItem :=
  items.filterMap fun it =>
    match it with
    | .textLink s f _ => some (SnapItem.text s f.size f.family f.weight f.style)
    | .cursorLink _ => some SnapItem.cursor
    | .newlineLink _ => some SnapItem.newline
    | .virtualNewlineLink _ => none

def snapshotOf (c : Chain) : Snapshot :=
  { items := takeSnapshotItems c.items
    selectionStart := c.selectionStart
    selectionEnd := c.selectionEnd }

/-- The item mapping of `restoreSnapshot`: fresh links with fonts rebuilt
through the four-argument constructor. -/
def restoreItems (l : List SnapItem) : List ChainItem :=
  l.map fun it =>
    match it with
    | .text s size family weight style =>
      ChainItem.textLink s (FontProperties.ofBasic size family weight style) {}
    | .cursor => ChainItem.cursorLink {}
    | .newline => ChainItem.newlineLink {}

/-- The editor state owning the undo history. -/
structure CanvasEditor where
  chain : Chain
  history : List Snapshot
  historyIndex : ℤ

def maxHistorySize : ℕ := 100

/-- `takeSnapshot()`: truncate the forward history, push a value copy of
the chain, and either evict the oldest snapshot (past capacity, without
moving the index) or advance the index. -/
def CanvasEditor.takeSnapshot (e : CanvasEditor) : CanvasEditor :=
  let h :=
    if e.historyIndex < (e.history.length : ℤ) - 1 then
      e.history.take (e.historyIndex + 1).toNat
    else e.history
  let h1 := h ++ [snapshotOf e.chain]
  if h1.length > maxHistorySize then { e with history := h1.drop 1 }
  else { e with history := h1, historyIndex := e.historyIndex + 1 }

/-- `restoreSnapshot(snapshot)`: rebuild the items and selection, then
re-run the layout pipeline. -/
def CanvasEditor.restoreSnapshot (e : CanvasEditor) (s : Snapshot) : Option CanvasEditor :=
  let c1 := { e.chain with
    items := restoreItems s.items
    selectionStart := s.selectionStart
    selectionEnd := s.selectionEnd }
  (Chain.recalc c1).map fun c2 => { e with chain := c2 }

/-- `undo()`: move the index back and restore that snapshot (restoring an
absent snapshot is a no-op on the chain, as in the source's early return). -/
def CanvasEditor.undo (e : CanvasEditor) : Option CanvasEditor :=
  if e.historyIndex ≤ 0 then some e
  else
    let idx := e.historyIndex - 1
    let e1 := { e with historyIndex := idx }
    match e.history[idx.toNat]? with
    | none => some e1
    | some s => e1.restoreSnapshot s

/-- `redo()`. -/
def CanvasEditor.redo (e : CanvasEditor) : Option CanvasEditor :=
  if e.historyIndex ≥ (e.history.length : ℤ) - 1 then some e
  else
    let idx := e.historyIndex + 1
    let e1 := { e with historyIndex := idx }
    match e.history[idx.toNat]? with
    | none => some e1
    | some s => e1.restoreSnapshot s

/-- The editor constructor: fresh chain, empty history at index -1, then
the initial snapshot. -/
def CanvasEditor.mk0 (widthPixels : ℚ) (ctx : Ctx) (f : FontProperties) : CanvasEditor :=
  CanvasEditor.takeSnapshot
    { chain := Chain.mk0 widthPixels ctx f, history := [], historyIndex := -1 }

/-- A snapshotted edit of the key handler: Backspace, Enter and printable
keys each call `takeSnapshot()` and then the chain operation.  (The
delete-selection pre-step of the handler is a no-op here: no operation in
the sequences considered ever creates a selection, so `hasSelection()` is
false throughout.) -/
inductive EditorEdit where
  | printable (ch : Char)
  | enter
  | backspace
deriving DecidableEq, Repr

def CanvasEditor.applyEdit (e : CanvasEditor) (ed : EditorEdit) : Option CanvasEditor :=
  let e1 := e.takeSnapshot
  match ed with
  | .printable ch => (e1.chain.printableKeyPressed ch).map fun c => { e1 with chain := c }
  | .enter => e1.chain.enterPressed.map fun c => { e1 with chain := c }
  | .backspace => e1.chain.backspacePressed.map fun c => { e1 with chain := c }

def CanvasEditor.applyEdits (e : CanvasEditor) (eds : List EditorEdit) : Option CanvasEditor :=
  eds.foldlM CanvasEditor.applyEdit e

def CanvasEditor.undoTimes (e : CanvasEditor) : ℕ → Option CanvasEditor
  | 0 => some e
  | n + 1 => e.undo.bind (CanvasEditor.undoTimes · n)

def CanvasEditor.redoTimes (e : CanvasEditor) : ℕ → Option CanvasEditor
  | 0 => some e
  | n + 1 => e.redo.bind (CanvasEditor.redoTimes · n)

/-- Editor-level `getText()`. -/
def editorText (e : CanvasEditor) : Str :=
  getText e.chain.items

/-- The chain operations quantified over by the invariant claims. -/
inductive ChainOp where
  | printable (ch : Char)
  | enter
  | backspace
  | leftArrow
  | rightArrow
  | upArrow
  | downArrow
  | click (x y : ℚ)

def Chain.applyOp (c : Chain) : ChainOp → Option Chain
  | .printable ch => c.printableKeyPressed ch
  | .enter => c.enterPressed
  | .backspace => c.backspacePressed
  | .leftArrow => c.leftArrowPressed
  | .rightArrow => c.rightArrowPressed
  | .upArrow => c.upArrowPressed
  | .downArrow => c.downArrowPressed
  | .click x y => c.clicked x y

def Chain.applyOps (c : Chain) (ops : List ChainOp) : Option Chain :=
  ops.foldlM Chain.applyOp c

/-! ## Cursor-count lemmas through the pipeline -/

@[simp] theorem countCursor_nil : countCursor [] = 0 := rfl

theorem countCursor_cons (it : ChainItem) (l : List ChainItem) :
    countCursor (it :: l) = (if it.isCursor then 1 else 0) + countCursor l := by
  simp only [countCursor, List.countP_cons]
  by_cases h : it.isCursor = true <;> simp [h] <;> omega

theorem countCursor_append (l1 l2 : List ChainItem) :
    countCursor (l1 ++ l2) = countCursor l1 + countCursor l2 := by
  simp [countCursor, List.countP_append]

theorem countCursor_clearComputed (l : List ChainItem) :
    countCursor (clearComputed l) = countCursor l := by
  induction l with
  | nil => rfl
  | cons it rest ih =>
    cases it <;>
      simp only [clearComputed, List.map_cons] at * <;>
      rw [countCursor_cons, countCursor_cons] <;>
      simp [ChainItem.isCursor, clearComputed] at * <;> omega

theorem countCursor_removeVirtualNewlines (l : List ChainItem) :
    countCursor (removeVirtualNewlines l) = countCursor l := by
  induction l with
  | nil => rfl
  | cons it rest ih =>
    cases it <;>
      simp only [removeVirtualNewlines, List.filter_cons] at * <;>
      simp [ChainItem.isVirtualNewline, ChainItem.isCursor, countCursor_cons] at * <;>
      omega

theorem countCursor_joinStep (x : ChainItem) (out : List ChainItem) :
    countCursor (joinStep x out) = countCursor (x :: out) := by
  cases x with
  | textLink a f ca =>
    cases out with
    | nil => rfl
    | cons y out2 =>
      cases y with
      | textLink b g cb =>
        by_cases hm : f.doPropertiesMatch g = true
        · simp only [joinStep, hm, if_true]
          simp [countCursor_cons, ChainItem.isCursor]
        · simp [joinStep, hm]
      | cursorLink c => rfl
      | newlineLink c => rfl
      | virtualNewlineLink c => rfl
  | cursorLink c => cases out with | nil => rfl | cons y out2 => cases y <;> rfl
  | newlineLink c => cases out with | nil => rfl | cons y out2 => cases y <;> rfl
  | virtualNewlineLink c => cases out with | nil => rfl | cons y out2 => cases y <;> rfl

theorem countCursor_joinAdjacentTextLinks (l : List ChainItem) :
    countCursor (joinAdjacentTextLinks l) = countCursor l := by
  induction l with
  | nil => rfl
  | cons x rest ih =>
    rw [joinAdjacentTextLinks, countCursor_joinStep, countCursor_cons,
      countCursor_cons, ih]

theorem countCursor_removeEmptyTextLinks (l : List ChainItem) :
    countCursor (removeEmptyTextLinks l) = countCursor l := by
  induction l with
  | nil => rfl
  | cons it rest ih =>
    simp only [removeEmptyTextLinks, List.filter_cons] at *
    cases it with
    | textLink s f c =>
      by_cases hs : s.isEmpty <;>
        simp [hs, ChainItem.isCursor, countCursor_cons, ih]
    | cursorLink c => simp [ChainItem.isCursor, countCursor_cons, ih]
    | newlineLink c => simp [ChainItem.isCursor, countCursor_cons, ih]
    | virtualNewlineLink c => simp [ChainItem.isCursor, countCursor_cons, ih]

theorem countCursor_pos_of_any (l : List ChainItem) (h : l.any ChainItem.isCursor = true) :
    0 < countCursor l := by
  simp only [countCursor]
  rw [List.countP_pos]
  simpa [List.any_eq_true] using h

theorem any_cursor_of_countCursor_pos (l : List ChainItem) (h : 0 < countCursor l) :
    l.any ChainItem.isCursor = true := by
  simp only [countCursor, List.countP_pos] at h
  simpa [List.any_eq_true] using h

theorem ensureCursorExists_of_pos (l : List ChainItem) (h : 0 < countCursor l) :
    ensureCursorExists l = l := by
  simp [ensureCursorExists, any_cursor_of_countCursor_pos l h]

theorem ensureCursorExists_of_zero (l : List ChainItem) (h : countCursor l = 0) :
    ensureCursorExists l = l ++ [ChainItem.cursorLink {}] := by
  simp only [ensureCursorExists]
  rw [if_neg]
  intro hc
  have := countCursor_pos_of_any l hc
  omega

theorem countCursor_ensureCursorExists (l : List ChainItem) :
    countCursor (ensureCursorExists l) = max 1 (countCursor l) := by
  rcases Nat.eq_zero_or_pos (countCursor l) with h | h
  · rw [ensureCursorExists_of_zero l h, countCursor_append, h]
    rfl
  · rw [ensureCursorExists_of_pos l h]
    omega

theorem countCursor_textPieces (f : FontProperties) (ps : List Str) :
    countCursor (ps.map fun q => ChainItem.textLink q f.clone {}) = 0 := by
  induction ps with
  | nil => rfl
  | cons q qs ih => simp [countCursor_cons, ChainItem.isCursor, ih]

theorem countCursor_chunkOne (it : ChainItem) :
    countCursor (chunkOne it) = if it.isCursor then 1 else 0 := by
  cases it with
  | textLink s f c =>
    simp only [chunkOne, ChainItem.isCursor, if_false]
    by_cases h : (s.any jsWhitespace && s.any fun d => !jsWhitespace d) = true
    · rw [if_pos h]
      cases hs : splitWsRuns s with
      | nil => rfl
      | cons p ps =>
        by_cases hp : ps.length > 0
        · simp [hp, countCursor_cons, ChainItem.isCursor, countCursor_textPieces]
        · simp [hp, countCursor_cons, ChainItem.isCursor]
    · rw [if_neg h]
      simp [countCursor_cons, ChainItem.isCursor]
  | cursorLink c => simp [chunkOne, countCursor_cons, ChainItem.isCursor]
  | newlineLink c => simp [chunkOne, countCursor_cons, ChainItem.isCursor]
  | virtualNewlineLink c => simp [chunkOne, countCursor_cons, ChainItem.isCursor]

theorem countCursor_chunkTextLinks (l : List ChainItem) :
    countCursor (chunkTextLinks l) = countCursor l := by
  induction l with
  | nil => rfl
  | cons it rest ih =>
    simp only [chunkTextLinks, List.flatMap_cons] at *
    rw [countCursor_append, ih, countCursor_chunkOne, countCursor_cons]

theorem countCursor_eq_zero_of_mem (l : List ChainItem)
    (h : ∀ it ∈ l, it.isCursor = false) : countCursor l = 0 := by
  simp only [countCursor, List.countP_eq_zero]
  intro it hit
  simp [h it hit]

/-- Glue step for `consumeRun_shape`: absorb two freshly appended items into
the extension. -/
theorem shapeGlue2 {acc out ext : List ChainItem} {x y : ChainItem}
    (he : out = ((acc ++ [x]) ++ [y]) ++ ext)
    (hx : x.isCursor = false ∧ x.isNewline = false)
    (hy : y.isCursor = false ∧ y.isNewline = false)
    (hmem : ∀ it ∈ ext, it.isCursor = false ∧ it.isNewline = false) :
    ∃ ext2, out = acc ++ ext2 ∧
      ∀ it ∈ ext2, it.isCursor = false ∧ it.isNewline = false := by
  refine ⟨[x] ++ [y] ++ ext, by simp [he], ?_⟩
  intro it hit
  simp only [List.mem_append, List.mem_singleton] at hit
  rcases hit with (h1 | h1) | h1
  · subst h1; exact hx
  · subst h1; exact hy
  · exact hmem it h1

/-- Glue step for a single appended item. -/
theorem shapeGlue1 {acc out ext : List ChainItem} {x : ChainItem}
    (he : out = (acc ++ [x]) ++ ext)
    (hx : x.isCursor = false ∧ x.isNewline = false)
    (hmem : ∀ it ∈ ext, it.isCursor = false ∧ it.isNewline = false) :
    ∃ ext2, out = acc ++ ext2 ∧
      ∀ it ∈ ext2, it.isCursor = false ∧ it.isNewline = false := by
  refine ⟨[x] ++ ext, by simp [he], ?_⟩
  intro it hit
  simp only [List.mem_append, List.mem_singleton] at hit
  rcases hit with h1 | h1
  · subst h1; exact hx
  · exact hmem it h1

/-- Everything the greedy consumer appends is a text piece or a virtual
newline: its output extends the accumulator by cursor-free, hard-newline-free
items. -/
theorem consumeRun_shape (w : Str → ℚ) (W : ℚ) (font : FontProperties) :
    ∀ (fuel : ℕ) (posX : ℚ) (rem : Str) (acc out : List ChainItem) (p : ℚ),
      consumeRun w W font fuel posX rem acc = some (out, p) →
      ∃ ext, out = acc ++ ext ∧
        ∀ it ∈ ext, it.isCursor = false ∧ it.isNewline = false := by
  intro fuel
  induction fuel with
  | zero =>
    intro posX rem acc out p h
    rw [consumeRun] at h
    split at h
    · cases h
      exact ⟨[], by simp, by simp⟩
    · exact absurd h (by simp)
  | succ fuel ih =>
    intro posX rem acc out p h
    rw [consumeRun] at h
    split at h
    · cases h
      exact ⟨[], by simp, by simp⟩
    · simp only at h
      split at h
      · -- width > W
        split at h
        · -- findSplitIdx = some k
          split at h
          · -- k = 0
            rw [List.getLast?_concat] at h
            simp only at h
            split at h
            · -- forced-append branch
              simp only at h
              obtain ⟨ext, he, hmem⟩ := ih _ _ _ _ _ h
              rw [List.dropLast_concat] at he
              exact shapeGlue2 he ⟨rfl, rfl⟩ ⟨rfl, rfl⟩ hmem
            · simp only at h
              obtain ⟨ext, he, hmem⟩ := ih _ _ _ _ _ h
              exact shapeGlue2 he ⟨rfl, rfl⟩ ⟨rfl, rfl⟩ hmem
          · -- k ≠ 0
            simp only at h
            obtain ⟨ext, he, hmem⟩ := ih _ _ _ _ _ h
            exact shapeGlue2 he ⟨rfl, rfl⟩ ⟨rfl, rfl⟩ hmem
        · -- findSplitIdx = none
          obtain ⟨ext, he, hmem⟩ := ih _ _ _ _ _ h
          exact shapeGlue1 he ⟨rfl, rfl⟩ hmem
      · -- fits
        cases h
        refine ⟨_, rfl, ?_⟩
        intro it hit
        simp only [List.mem_singleton] at hit
        subst hit
        exact ⟨rfl, rfl⟩

theorem countCursor_recalcXGo (ctx : Ctx) (W : ℚ) :
    ∀ (l : List ChainItem) (posX : ℚ) (flag : Bool) (out : List ChainItem),
      recalcXGo ctx W posX flag l = some out → countCursor out = countCursor l := by
  intro l
  induction l with
  | nil =>
    intro posX flag out h
    rw [recalcXGo] at h
    cases h
    rfl
  | cons it rest ih =>
    intro posX flag out h
    cases it with
    | textLink s f c =>
      rw [recalcXGo] at h
      split at h
      · -- width > W: the greedy consumer
        split at h
        · rename_i pair hcons
          rw [Option.map_eq_some'] at h
          obtain ⟨out1, hrec, hout⟩ := h
          subst hout
          obtain ⟨ext, he, hmem⟩ := consumeRun_shape _ _ _ _ _ _ _ _ _ hcons
          simp only [List.nil_append] at he
          subst he
          rw [countCursor_append, countCursor_append, ih _ _ _ hrec,
            countCursor_eq_zero_of_mem _ (fun it hit => (hmem it hit).1),
            countCursor_cons]
          cases flag <;> simp [countCursor_cons, ChainItem.isCursor]
        · exact absurd h (by simp)
      · split at h
        · rw [Option.map_eq_some'] at h
          obtain ⟨out1, hrec, hout⟩ := h
          subst hout
          simp [countCursor_cons, ChainItem.isCursor, ih _ _ _ hrec]
        · rw [Option.map_eq_some'] at h
          obtain ⟨out1, hrec, hout⟩ := h
          subst hout
          simp [countCursor_cons, ChainItem.isCursor, ih _ _ _ hrec]
    | cursorLink c =>
      rw [recalcXGo] at h
      rw [Option.map_eq_some'] at h
      obtain ⟨out1, hrec, hout⟩ := h
      subst hout
      simp [countCursor_cons, ChainItem.isCursor, ih _ _ _ hrec]
    | newlineLink c =>
      rw [recalcXGo] at h
      rw [Option.map_eq_some'] at h
      obtain ⟨out1, hrec, hout⟩ := h
      subst hout
      simp [countCursor_cons, ChainItem.isCursor, ih _ _ _ hrec]
    | virtualNewlineLink c =>
      rw [recalcXGo] at h
      rw [Option.map_eq_some'] at h
      obtain ⟨out1, hrec, hout⟩ := h
      subst hout
      simp [countCursor_cons, ChainItem.isCursor, ih _ _ _ hrec]

theorem countCursor_map_setLineHeight (lh : ℚ) (l : List ChainItem) :
    countCursor (l.map (setLineHeight lh)) = countCursor l := by
  induction l with
  | nil => rfl
  | cons it rest ih =>
    cases it <;> simp [setLineHeight, countCursor_cons, ChainItem.isCursor, ih]

theorem countCursor_recalcYGo (ctx : Ctx) (cf : FontProperties) :
    ∀ (l prevRev buf : List ChainItem) (posY mA mD mS : ℚ),
      countCursor (recalcYGo ctx cf prevRev posY buf mA mD mS l) =
        countCursor buf + countCursor l := by
  intro l
  induction l with
  | nil =>
    intro prevRev buf posY mA mD mS
    rw [recalcYGo]
    simp [countCursor_map_setLineHeight]
  | cons it rest ih =>
    intro prevRev buf posY mA mD mS
    cases it with
    | textLink s f c =>
      rw [recalcYGo]
      rw [ih]
      simp [countCursor_append, countCursor_cons, ChainItem.isCursor]
    | cursorLink c =>
      rw [recalcYGo]
      split <;>
        (rw [ih]
         simp [countCursor_append, countCursor_cons, ChainItem.isCursor]
         omega)
    | newlineLink c =>
      rw [recalcYGo]
      rw [countCursor_append, countCursor_map_setLineHeight, countCursor_cons,
        countCursor_cons, ih]
      simp [ChainItem.isCursor]
    | virtualNewlineLink c =>
      rw [recalcYGo]
      rw [countCursor_append, countCursor_map_setLineHeight, countCursor_cons,
        countCursor_cons, ih]
      simp [ChainItem.isCursor]

/-- The layout pipeline leaves exactly the cursors it was given, adding one
when none existed. -/
theorem countCursor_recalc (c c' : Chain) (h : c.recalc = some c') :
    countCursor c'.items = max 1 (countCursor c.items) := by
  unfold Chain.recalc at h
  simp only at h
  split at h
  · exact absurd h (by simp)
  · rename_i i6 hx
    cases h
    simp only
    rw [show recalcYPositions c.ctx c.currentFontProperties i6 =
        recalcYGo c.ctx c.currentFontProperties [] 0 [] 0 0 0 i6 from rfl]
    rw [countCursor_recalcYGo]
    rw [show (countCursor [] : ℕ) = 0 from rfl, Nat.zero_add]
    rw [countCursor_recalcXGo _ _ _ _ _ _ hx]
    rw [countCursor_chunkTextLinks, countCursor_ensureCursorExists,
      countCursor_removeEmptyTextLinks, countCursor_joinAdjacentTextLinks,
      countCursor_removeVirtualNewlines, countCursor_clearComputed]

/-! ## cursorIdx specification -/

theorem cursorIdx_eq_none_iff (l : List ChainItem) :
    cursorIdx l = none ↔ countCursor l = 0 := by
  induction l with
  | nil => simp [cursorIdx]
  | cons it rest ih =>
    rw [cursorIdx, countCursor_cons]
    by_cases hc : it.isCursor = true
    · simp [hc]
    · rw [if_neg (by simp [hc])]
      simp [ih, hc]

theorem cursorIdx_split (l : List ChainItem) :
    ∀ n, cursorIdx l = some n →
      ∃ pre cc post, l = pre ++ ChainItem.cursorLink cc :: post ∧
        pre.length = n ∧ countCursor pre = 0 := by
  induction l with
  | nil => intro n h; simp [cursorIdx] at h
  | cons it rest ih =>
    intro n h
    rw [cursorIdx] at h
    by_cases hc : it.isCursor = true
    · rw [if_pos hc] at h
      cases h
      cases it with
      | cursorLink cc => exact ⟨[], cc, rest, rfl, rfl, rfl⟩
      | textLink s f c => simp [ChainItem.isCursor] at hc
      | newlineLink c => simp [ChainItem.isCursor] at hc
      | virtualNewlineLink c => simp [ChainItem.isCursor] at hc
    · rw [if_neg hc, Option.map_eq_some'] at h
      obtain ⟨m, hm, rfl⟩ := h
      obtain ⟨pre, cc, post, hl, hlen, hcnt⟩ := ih m hm
      refine ⟨it :: pre, cc, post, by rw [hl]; simp, by simp [hlen], ?_⟩
      rw [countCursor_cons, hcnt]
      simp [hc]

theorem cursorIdx_isSome_of_pos (l : List ChainItem) (h : 0 < countCursor l) :
    ∃ n, cursorIdx l = some n := by
  cases hn : cursorIdx l with
  | none => rw [cursorIdx_eq_none_iff] at hn; omega
  | some n => exact ⟨n, rfl⟩

/-! ## Shared concrete fixtures for witnesses and counterexamples -/

/-- A deterministic measurer: every character 8 pixels wide, ascent 12,
descent 4, independent of the font. -/
def ctx8 : Ctx :=
  { widthFn := fun _ s => (s.length : ℚ) * 8
    ascentFn := fun _ _ => 12
    descentFn := fun _ _ => 4 }

/-- The default 16px Arial font of the editor. -/
def font16 : FontProperties :=
  { size := 16, family := "Arial", weight := "normal", style := "normal",
    underline := false, strikethrough := false, superscript := false,
    subscript := false, color := "#000000" }

/-- A fresh chain at wrap width 800 with the 8px measurer. -/
def chain800 : Chain := Chain.mk0 800 ctx8 font16

/-- The flattened character position of the (first) cursor. -/
def cursorFlatPos (items : List ChainItem) : Option ℕ :=
  (cursorIdx items).map fun n => getCharPosition items n 0

/-! ## Claim C8 -/

/-- C8: `cursorIdx()` throws (modelled by `none`) exactly when no
`CursorLink` is present in the chain, and otherwise returns the index of the
first cursor (the element there is a cursor and no earlier one is);
`ensureCursorExists()` appends a cursor at the end of the document exactly
when none exists; and immediately after any completed `recalc()` at least
one cursor is present. -/
theorem C8_cursor_lookup_and_self_heal (items : List ChainItem) :
    (cursorIdx items = none ↔ countCursor items = 0) ∧
    (∀ n, cursorIdx items = some n →
      (∃ cc, items[n]? = some (ChainItem.cursorLink cc)) ∧
        countCursor (items.take n) = 0) ∧
    (countCursor items = 0 →
      ensureCursorExists items = items ++ [ChainItem.cursorLink {}]) ∧
    (0 < countCursor items → ensureCursorExists items = items) ∧
    (∀ c c' : Chain, Chain.recalc c = some c' → 1 ≤ countCursor c'.items) := by
  refine ⟨cursorIdx_eq_none_iff items, ?_, ensureCursorExists_of_zero items,
    ensureCursorExists_of_pos items, ?_⟩
  · intro n h
    obtain ⟨pre, cc, post, hl, hlen, hcnt⟩ := cursorIdx_split items n h
    subst hl
    constructor
    · refine ⟨cc, ?_⟩
      rw [← hlen]
      rw [List.getElem?_append_right (le_refl pre.length)]
      simp
    · rw [← hlen, List.take_left, hcnt]
  · intro c c' h
    rw [countCursor_recalc c c' h]
    omega

/-- Witness for C8 at concrete inputs: a cursor-free chain is reported as
such, is self-healed by appending a cursor, and a concrete recalc ends with
a cursor present. -/
theorem C8_witness :
    cursorIdx [ChainItem.newlineLink {}] = none ∧
    ensureCursorExists [ChainItem.newlineLink {}] =
      [ChainItem.newlineLink {}, ChainItem.cursorLink {}] ∧
    (∀ c', Chain.recalc { chain800 with items := [] } = some c' →
      1 ≤ countCursor c'.items) := by
  refine ⟨?_, ?_, ?_⟩
  · exact (C8_cursor_lookup_and_self_heal [ChainItem.newlineLink {}]).1.mpr (by decide)
  · exact (C8_cursor_lookup_and_self_heal [ChainItem.newlineLink {}]).2.2.1 (by decide)
  · intro c' h
    exact (C8_cursor_lookup_and_self_heal []).2.2.2.2 _ c' h

/-! ## Claim C9 -/

/-- C9: `setSelection` converts both (item index, in-run offset) pairs to
flattened character positions and swaps them when out of order, so applying
it with the two pairs exchanged produces the identical chain, and the
normalized pair satisfies `selectionStart ≤ selectionEnd`. -/
theorem C9_setSelection_symmetric (c : Chain) (a b d e : ℕ) :
    c.setSelection a b d e = c.setSelection d e a b ∧
    ∃ p q, (c.setSelection a b d e).selectionStart = some p ∧
      (c.setSelection a b d e).selectionEnd = some q ∧ p ≤ q := by
  unfold Chain.setSelection
  by_cases h : getCharPosition c.items a b > getCharPosition c.items d e
  · rw [if_pos h, if_neg (by omega)]
    exact ⟨rfl, _, _, rfl, rfl, by omega⟩
  · rw [if_neg h]
    by_cases h2 : getCharPosition c.items d e > getCharPosition c.items a b
    · rw [if_pos h2]
      exact ⟨rfl, _, _, rfl, rfl, by omega⟩
    · rw [if_neg h2]
      have he : getCharPosition c.items d e = getCharPosition c.items a b := by omega
      rw [he]
      exact ⟨rfl, _, _, rfl, rfl, le_refl _⟩

/-! ## Claim C3: the greedy wrap-splitting loop -/

theorem getText_append (l1 l2 : List ChainItem) :
    getText (l1 ++ l2) = getText l1 ++ getText l2 := by
  simp [getText]

theorem findSplitIdxGo_le (w : Str → ℚ) (W : ℚ) (rem : Str) :
    ∀ j k, findSplitIdxGo w W rem j = some k → k ≤ j := by
  intro j
  induction j with
  | zero =>
    intro k h
    rw [findSplitIdxGo] at h
    split at h
    · cases h; exact le_refl 0
    · cases h
  | succ j ih =>
    intro k h
    rw [findSplitIdxGo] at h
    split at h
    · cases h; exact le_refl _
    · exact le_trans (ih k h) (Nat.le_succ j)

theorem findSplitIdxGo_isSome (w : Str → ℚ) (W : ℚ) (rem : Str)
    (hempty : w (rem.take 0) ≤ W) :
    ∀ j, ∃ k, findSplitIdxGo w W rem j = some k := by
  intro j
  induction j with
  | zero => exact ⟨0, by rw [findSplitIdxGo, if_pos hempty]⟩
  | succ j ih =>
    rw [findSplitIdxGo]
    split
    · exact ⟨j + 1, rfl⟩
    · exact ih

theorem findSplitIdxGo_pos (w : Str → ℚ) (W : ℚ) (rem : Str)
    (h1 : w (rem.take 1) ≤ W) :
    ∀ j, 1 ≤ j → ∃ k, findSplitIdxGo w W rem j = some k ∧ 1 ≤ k := by
  intro j
  induction j with
  | zero => intro h; omega
  | succ j ih =>
    intro _
    rw [findSplitIdxGo]
    split
    · exact ⟨j + 1, rfl, by omega⟩
    · rcases Nat.eq_zero_or_pos j with hj | hj
      · subst hj
        rename_i hne
        exact absurd h1 hne
      · exact ih hj

/-- Progress and termination of the greedy consumer: when the empty string
measures within the wrap width, every iteration of the source loop consumes
at least one character, so fuel `length + 1` always suffices. -/
theorem consumeRun_total (w : Str → ℚ) (W : ℚ) (font : FontProperties)
    (hempty : w [] ≤ W) :
    ∀ (fuel : ℕ) (s : Str) (posX : ℚ) (acc : List ChainItem), s.length < fuel →
      ∃ r, consumeRun w W font fuel posX s acc = some r := by
  intro fuel
  induction fuel with
  | zero => intro s posX acc h; omega
  | succ fuel ih =>
    intro s posX acc h
    rw [consumeRun]
    by_cases hs : s.length = 0
    · rw [if_pos hs]
      exact ⟨_, rfl⟩
    · rw [if_neg hs]
      simp only
      by_cases hw : w s > W
      · rw [if_pos hw]
        obtain ⟨k, hk⟩ := findSplitIdxGo_isSome w W s (by simpa using hempty) (s.length - 1)
        have hkle := findSplitIdxGo_le w W s (s.length - 1) k hk
        rw [show findSplitIdx w W s = some k from by rw [findSplitIdx, if_neg hs]; exact hk]
        simp only
        by_cases hk0 : k = 0
        · rw [if_pos hk0, List.getLast?_concat]
          simp only
          split
          · exact ih _ _ _ (by simp; omega)
          · exact ih _ _ _ (by simp; omega)
        · rw [if_neg hk0]
          simp only
          exact ih _ _ _ (by simp; omega)
      · rw [if_neg hw]
        exact ⟨_, rfl⟩

/-- Text preservation of the greedy consumer: when every single character
fits the wrap width, the split index is always at least 1, so no character
is ever dropped and the produced sub-runs spell the whole input. -/
theorem consumeRun_text (w : Str → ℚ) (W : ℚ) (font : FontProperties) :
    ∀ (fuel : ℕ) (s : Str) (posX : ℚ) (acc : List ChainItem),
      s.length < fuel → (∀ ch ∈ s, w [ch] ≤ W) →
      ∃ out p, consumeRun w W font fuel posX s acc = some (out, p) ∧
        getText out = getText acc ++ s := by
  intro fuel
  induction fuel with
  | zero => intro s posX acc h _; omega
  | succ fuel ih =>
    intro s posX acc h hfit
    rw [consumeRun]
    by_cases hs : s.length = 0
    · rw [if_pos hs]
      refine ⟨acc, posX, rfl, ?_⟩
      rw [List.length_eq_zero] at hs
      simp [hs]
    · rw [if_neg hs]
      simp only
      by_cases hw : w s > W
      · rw [if_pos hw]
        have hlen1 : 1 ≤ s.length - 1 := by
          rcases Nat.lt_or_ge s.length 2 with h2 | h2
          · interval_cases hsl : s.length
            · omega
            · exfalso
              rw [List.length_eq_one] at hsl
              obtain ⟨ch, rfl⟩ := hsl
              exact absurd hw (by simpa using not_lt_of_le (hfit ch (by simp)))
          · omega
        have htake1 : w (s.take 1) ≤ W := by
          cases s with
          | nil => simp at hs
          | cons ch rest => simpa using hfit ch (by simp)
        obtain ⟨k, hk, hk1⟩ := findSplitIdxGo_pos w W s htake1 (s.length - 1) hlen1
        rw [show findSplitIdx w W s = some k from by rw [findSplitIdx, if_neg hs]; exact hk]
        have hkle := findSplitIdxGo_le w W s (s.length - 1) k hk
        simp only
        rw [if_neg (by omega)]
        simp only
        obtain ⟨out, p, hcons, htext⟩ :=
          ih (s.drop k) posX
            (acc ++ [ChainItem.textLink (s.take k) font.clone { posX := some posX }] ++
              [ChainItem.virtualNewlineLink {}])
            (by simp only [List.length_drop]; omega)
            (fun ch hch => hfit ch (List.mem_of_mem_drop hch))
        refine ⟨out, p, by rw [← hcons], ?_⟩
        rw [htext]
        simp only [getText_append]
        rw [show getText [ChainItem.textLink (s.take k) font.clone { posX := some posX }] =
          s.take k from by simp [getText]]
        rw [show getText [(ChainItem.virtualNewlineLink {} : ChainItem)] = [] from rfl]
        simp
      · rw [if_neg hw]
        refine ⟨_, _, rfl, ?_⟩
        rw [getText_append]
        simp [getText]

/-- A measurer giving every character width 10 (ascent 12, descent 4). -/
def ctx10 : Ctx :=
  { widthFn := fun _ s => (s.length : ℚ) * 10
    ascentFn := fun _ _ => 12
    descentFn := fun _ _ => 4 }

/-- Counterexample to C3 as stated: at wrap width 5 with 10px characters,
the greedy consumer applied to the single-character run "a" terminates but
produces an empty text piece and a soft break — the character is dropped,
not forced onto the current sub-run, so it appears in no produced sub-run. -/
theorem C3_counterexample :
    consumeRun (measureTextWidth ctx10 font16) 5 font16 2 0 ['a'] [] =
      some ([ChainItem.textLink [] font16 { posX := some 0 },
             ChainItem.virtualNewlineLink {}], 0) ∧
    (consumeRun (measureTextWidth ctx10 font16) 5 font16 2 0 ['a'] []).map
      (fun r => getText r.1) = some [] := by
  constructor <;> decide

/-- C3 (amended): the greedy consuming loop always makes progress — each
iteration consumes at least one character once the empty prefix fits, so
fuel `length + 1` suffices and the loop terminates — but a character wider
than the wrap width is dropped rather than forced; every character of the
original run appears in the produced sub-runs exactly under the additional
assumption that each character individually fits the wrap width. -/
theorem C3_greedy_progress_and_text (w : Str → ℚ) (W : ℚ) (font : FontProperties)
    (s : Str) (posX : ℚ) (acc : List ChainItem) :
    (w [] ≤ W → ∃ r, consumeRun w W font (s.length + 1) posX s acc = some r) ∧
    ((∀ ch ∈ s, w [ch] ≤ W) →
      ∃ out p, consumeRun w W font (s.length + 1) posX s acc = some (out, p) ∧
        getText out = getText acc ++ s) :=
  ⟨fun h => consumeRun_total w W font h _ s posX acc (by omega),
   fun h => consumeRun_text w W font _ s posX acc (by omega) h⟩

/-- Witness for C3 at a concrete input: the run "ab" at wrap width 12 with
8px characters terminates and all its characters survive into sub-runs. -/
theorem C3_witness :
    (∃ r, consumeRun (measureTextWidth ctx8 font16) 12 font16 3 0 ['a', 'b'] [] = some r) ∧
    (∃ out p, consumeRun (measureTextWidth ctx8 font16) 12 font16 3 0 ['a', 'b'] [] =
      some (out, p) ∧ getText out = getText [] ++ ['a', 'b']) := by
  have h := C3_greedy_progress_and_text (measureTextWidth ctx8 font16) 12 font16 ['a', 'b'] 0 []
  exact ⟨h.1 (by decide), h.2 (by decide)⟩

/-! ## Claim C10: snapshot / restore -/

/-- Numeric tag of an item's kind, for comparing kind sequences. -/
def itemKind : ChainItem → ℕ
  | .textLink _ _ _ => 0
  | .cursorLink _ => 1
  | .newlineLink _ => 2
  | .virtualNewlineLink _ => 3

/-- What surviving a snapshot/restore round trip does to one item: text and
the four basic font fields are kept, every other font attribute is reset by
the four-argument constructor, and the computed record is fresh. -/
def scrubItem : ChainItem → ChainItem
  | .textLink s f _ =>
    .textLink s (FontProperties.ofBasic f.size f.family f.weight f.style) {}
  | .cursorLink _ => .cursorLink {}
  | .newlineLink _ => .newlineLink {}
  | .virtualNewlineLink c => .virtualNewlineLink c

/-- A chain whose two adjacent runs differ only in color, with a selection. -/
def c10chain : Chain :=
  { chain800 with
    items := [ChainItem.textLink ['a'] font16 {},
              ChainItem.textLink ['b'] { font16 with color := "#ff0000" } {},
              ChainItem.cursorLink {}]
    selectionStart := some 0
    selectionEnd := some 2 }

/-- Counterexample to C10 as stated: snapshotting and restoring a chain of
two adjacent runs that differ only in color does not preserve the sequence
of item kinds or the runs' texts — the restore resets color, making the
fonts equal, and the restore's own recalc then merges the two runs into
one. -/
theorem C10_counterexample :
    ((CanvasEditor.restoreSnapshot
        { chain := c10chain, history := [], historyIndex := 0 }
        (snapshotOf c10chain)).map fun e => e.chain.items.map itemKind) =
      some [0, 1] ∧
    c10chain.items.map itemKind = [0, 0, 1] := by
  constructor <;> decide

theorem recalc_preserves_selection (c c' : Chain) (h : c.recalc = some c') :
    c'.selectionStart = c.selectionStart ∧ c'.selectionEnd = c.selectionEnd := by
  unfold Chain.recalc at h
  simp only at h
  split at h
  · exact absurd h (by simp)
  · cases h
    exact ⟨rfl, rfl⟩

/-- C10 (amended): the restore maps each snapshotted item back to its kind
with the `TextRun` text and the font's size, family, weight and style
preserved, while underline, strikethrough, superscript and subscript are
reset to false and the color drops to the default black — provided the
chain holds no SoftBreak (a `VirtualNewlineLink` is snapshotted as null and
filtered out); the selection bounds of the snapshot are restored unchanged
through the post-restore recalc.  (After that recalc, adjacent runs whose
fonts became equal under the reset may additionally merge, as the
counterexample shows.) -/
theorem C10_snapshot_restore (items : List ChainItem)
    (h : items.all (fun it => !it.isVirtualNewline) = true) :
    restoreItems (takeSnapshotItems items) = items.map scrubItem ∧
    (∀ (e : CanvasEditor) (s : Snapshot) (e' : CanvasEditor),
      e.restoreSnapshot s = some e' →
      e'.chain.selectionStart = s.selectionStart ∧
        e'.chain.selectionEnd = s.selectionEnd) := by
  constructor
  · induction items with
    | nil => rfl
    | cons it rest ih =>
      simp only [List.all_cons, Bool.and_eq_true] at h
      have hr := ih h.2
      cases it with
      | textLink s f c =>
        simp only [takeSnapshotItems, restoreItems, List.filterMap_cons, List.map_cons] at *
        rw [← hr]
        rfl
      | cursorLink c =>
        simp only [takeSnapshotItems, restoreItems, List.filterMap_cons, List.map_cons] at *
        rw [← hr]
        rfl
      | newlineLink c =>
        simp only [takeSnapshotItems, restoreItems, List.filterMap_cons, List.map_cons] at *
        rw [← hr]
        rfl
      | virtualNewlineLink c =>
        simp [ChainItem.isVirtualNewline] at h
  · intro e s e' he
    unfold CanvasEditor.restoreSnapshot at he
    rw [Option.map_eq_some'] at he
    obtain ⟨c2, hc2, he'⟩ := he
    subst he'
    have := recalc_preserves_selection _ _ hc2
    simpa using this

/-- A font with every resettable attribute set. -/
def fontFancy : FontProperties :=
  { font16 with
    underline := true
    strikethrough := true
    superscript := true
    color := "#00ff00" }

/-- Witness for C10 at a concrete chain (one run with every attribute set,
a newline and the cursor; no soft break). -/
theorem C10_witness :
    restoreItems (takeSnapshotItems
      [ChainItem.textLink ['x'] fontFancy {},
       ChainItem.newlineLink {}, ChainItem.cursorLink {}]) =
      [ChainItem.textLink ['x'] font16 {},
       ChainItem.newlineLink {}, ChainItem.cursorLink {}] := by
  have h := (C10_snapshot_restore
    [ChainItem.textLink ['x'] fontFancy {},
     ChainItem.newlineLink {}, ChainItem.cursorLink {}] (by decide)).1
  rw [h]
  decide

/-! ## Claim C6: click end-to-end -/

/-- The document of the click scenario: the single run "Hello" and the
cursor, laid out at wrap width 800 under the 8px-per-character measurer. -/
def c6doc : Chain :=
  { chain800 with
    items := [ChainItem.textLink "Hello".data font16 {}, ChainItem.cursorLink {}] }

/-- C6: with TextRun "Hello" laid out at wrap width 800 under the fixed
8px-per-character measurer (ascent 12, descent 4), clicking at (100, 0) —
right of the line — puts the cursor at flattened position 5, clicking at
(-10, 0) puts it at position 0, and clicking at (20, 0) puts it at a
position p with 0 ≤ p ≤ 5 (here p = 2). -/
theorem C6_click_end_to_end :
    ((Chain.recalc c6doc).bind fun d => d.clicked 100 0).map
        (fun c => cursorFlatPos c.items) = some (some 5) ∧
    ((Chain.recalc c6doc).bind fun d => d.clicked (-10) 0).map
        (fun c => cursorFlatPos c.items) = some (some 0) ∧
    ∃ p, ((Chain.recalc c6doc).bind fun d => d.clicked 20 0).map
        (fun c => cursorFlatPos c.items) = some (some p) ∧ 0 ≤ p ∧ p ≤ 5 := by
  refine ⟨by decide, by decide, 2, by decide, by decide, by decide⟩

/-! ## Text preservation through the pipeline (towards C1, C2) -/

theorem getText_clearComputed (l : List ChainItem) :
    getText (clearComputed l) = getText l := by
  induction l with
  | nil => rfl
  | cons it rest ih =>
    cases it <;> simp only [clearComputed, List.map_cons, getText,
      List.flatMap_cons] at * <;> rw [ih]

theorem getText_removeVirtualNewlines (l : List ChainItem) :
    getText (removeVirtualNewlines l) = getText l := by
  induction l with
  | nil => rfl
  | cons it rest ih =>
    cases it <;> simp only [removeVirtualNewlines, List.filter_cons,
      ChainItem.isVirtualNewline, getText, List.flatMap_cons] at * <;>
      simp_all [getText]

theorem getText_joinStep (x : ChainItem) (out : List ChainItem) :
    getText (joinStep x out) = getText (x :: out) := by
  cases x with
  | textLink a f ca =>
    cases out with
    | nil => rfl
    | cons y out2 =>
      cases y with
      | textLink b g cb =>
        by_cases hm : f.doPropertiesMatch g = true
        · simp [joinStep, hm, getText]
        · simp [joinStep, hm]
      | cursorLink c => rfl
      | newlineLink c => rfl
      | virtualNewlineLink c => rfl
  | cursorLink c => cases out with | nil => rfl | cons y out2 => cases y <;> rfl
  | newlineLink c => cases out with | nil => rfl | cons y out2 => cases y <;> rfl
  | virtualNewlineLink c => cases out with | nil => rfl | cons y out2 => cases y <;> rfl

theorem getText_joinAdjacentTextLinks (l : List ChainItem) :
    getText (joinAdjacentTextLinks l) = getText l := by
  induction l with
  | nil => rfl
  | cons x rest ih =>
    rw [joinAdjacentTextLinks, getText_joinStep]
    simp only [getText, List.flatMap_cons] at *
    rw [ih]

theorem getText_removeEmptyTextLinks (l : List ChainItem) :
    getText (removeEmptyTextLinks l) = getText l := by
  induction l with
  | nil => rfl
  | cons it rest ih =>
    cases it with
    | textLink s f c =>
      by_cases hs : s.isEmpty
      · rw [List.isEmpty_iff] at hs
        subst hs
        simpa [removeEmptyTextLinks, getText] using ih
      · simp only [removeEmptyTextLinks, List.filter_cons, hs] at *
        simpa [getText] using ih
    | cursorLink c => simpa [removeEmptyTextLinks, getText, List.filter_cons] using ih
    | newlineLink c => simpa [removeEmptyTextLinks, getText, List.filter_cons] using ih
    | virtualNewlineLink c => simpa [removeEmptyTextLinks, getText, List.filter_cons] using ih

theorem getText_ensureCursorExists (l : List ChainItem) :
    getText (ensureCursorExists l) = getText l := by
  unfold ensureCursorExists
  split
  · rfl
  · rw [getText_append]
    simp [getText]

theorem splitWsRunsGo_flatten (l : List Char) :
    ∀ (b : Bool) (curRev : List Char),
      (splitWsRunsGo b curRev l).flatten = curRev.reverse ++ l := by
  induction l with
  | nil => intro b curRev; simp [splitWsRunsGo]
  | cons c cs ih =>
    intro b curRev
    rw [splitWsRunsGo]
    split
    · rw [ih]
      simp
    · simp only [List.flatten_cons]
      rw [ih]
      simp

theorem splitWsRuns_flatten (s : List Char) : (splitWsRuns s).flatten = s := by
  cases s with
  | nil => rfl
  | cons c cs =>
    rw [splitWsRuns, splitWsRunsGo_flatten]
    simp

theorem getText_textPieces (f : FontProperties) (ps : List Str) :
    getText (ps.map fun q => ChainItem.textLink q f.clone {}) = ps.flatten := by
  induction ps with
  | nil => rfl
  | cons q qs ih => simp only [List.map_cons, getText, List.flatMap_cons] at *; rw [ih]; rfl

theorem getText_cons (it : ChainItem) (l : List ChainItem) :
    getText (it :: l) =
      (match it with
       | .textLink s _ _ => s
       | .newlineLink _ => ['\n']
       | _ => []) ++ getText l := rfl

theorem getText_chunkOne (it : ChainItem) : getText (chunkOne it) = getText [it] := by
  cases it with
  | textLink s f c =>
    rw [chunkOne]
    split
    · rename_i hws
      cases hs : splitWsRuns s with
      | nil => rfl
      | cons p ps =>
        by_cases hp : ps.length > 0
        · simp only [hp, if_true]
          have hflat := splitWsRuns_flatten s
          rw [hs] at hflat
          rw [getText_cons, getText_textPieces]
          simp only [List.flatten_cons] at hflat
          simp [getText, hflat]
        · simp [hp]
    · rfl
  | cursorLink c => rfl
  | newlineLink c => rfl
  | virtualNewlineLink c => rfl

theorem getText_chunkTextLinks (l : List ChainItem) :
    getText (chunkTextLinks l) = getText l := by
  induction l with
  | nil => rfl
  | cons it rest ih =>
    simp only [chunkTextLinks, List.flatMap_cons] at *
    rw [getText_append, ih, getText_chunkOne]
    simp [getText]

/-- Every character of every run measures within the wrap width. -/
def TextFits (ctx : Ctx) (W : ℚ) (l : List ChainItem) : Prop :=
  ∀ s f c, ChainItem.textLink s f c ∈ l → ∀ ch ∈ s, measureTextWidth ctx f [ch] ≤ W

theorem TextFits_nil (ctx : Ctx) (W : ℚ) : TextFits ctx W [] := by
  intro s f c h
  simp at h

theorem TextFits_of_cons (ctx : Ctx) (W : ℚ) (x : ChainItem) (l : List ChainItem)
    (h : TextFits ctx W (x :: l)) : TextFits ctx W l :=
  fun s f c hm => h s f c (List.mem_cons_of_mem x hm)

theorem TextFits_clearComputed (ctx : Ctx) (W : ℚ) (l : List ChainItem)
    (h : TextFits ctx W l) : TextFits ctx W (clearComputed l) := by
  intro s f c hm
  unfold clearComputed at hm
  rw [List.mem_map] at hm
  obtain ⟨it, hit, heq⟩ := hm
  cases it with
  | textLink s2 f2 c2 =>
    injection heq with h1 h2 h3
    subst h1
    subst h2
    exact h _ _ _ hit
  | cursorLink c2 => exact absurd heq (by simp)
  | newlineLink c2 => exact absurd heq (by simp)
  | virtualNewlineLink c2 => exact absurd heq (by simp)

theorem TextFits_filter (ctx : Ctx) (W : ℚ) (p : ChainItem → Bool) (l : List ChainItem)
    (h : TextFits ctx W l) : TextFits ctx W (l.filter p) :=
  fun s f c hm => h s f c (List.mem_of_mem_filter hm)

/-- Membership in a join step: either an original item, or the merge of the
head run with the first run of the tail (same font). -/
theorem joinStep_mem (x : ChainItem) (out : List ChainItem) (it : ChainItem)
    (hm : it ∈ joinStep x out) :
    it ∈ x :: out ∨
    ∃ a fm ca b cb out2, x = ChainItem.textLink a fm ca ∧
      out = ChainItem.textLink b fm cb :: out2 ∧
      it = ChainItem.textLink (a ++ b) fm ca := by
  cases x with
  | textLink a fa ca =>
    cases out with
    | nil => exact Or.inl hm
    | cons y out2 =>
      cases y with
      | textLink b g cb =>
        by_cases hg : fa.doPropertiesMatch g = true
        · have hfg : fa = g := (FontProperties.doPropertiesMatch_iff fa g).mp hg
          simp only [joinStep, hg, if_true] at hm
          rcases List.mem_cons.mp hm with heq | hm2
          · subst heq
            exact Or.inr ⟨a, fa, ca, b, cb, out2, rfl, by rw [hfg], rfl⟩
          · exact Or.inl (by simp [hm2])
        · simp only [joinStep, hg] at hm
          rw [if_neg (by simp [hg])] at hm
          exact Or.inl hm
      | cursorLink c2 => exact Or.inl hm
      | newlineLink c2 => exact Or.inl hm
      | virtualNewlineLink c2 => exact Or.inl hm
  | cursorLink c2 => exact Or.inl (by simpa [joinStep] using hm)
  | newlineLink c2 => exact Or.inl (by simpa [joinStep] using hm)
  | virtualNewlineLink c2 => exact Or.inl (by simpa [joinStep] using hm)

theorem TextFits_joinStep (ctx : Ctx) (W : ℚ) (x : ChainItem) (out : List ChainItem)
    (h : TextFits ctx W (x :: out)) : TextFits ctx W (joinStep x out) := by
  intro s f c hm
  rcases joinStep_mem x out _ hm with hm2 | ⟨a, fm, ca, b, cb, out2, hx, hout, hit⟩
  · exact h s f c hm2
  · subst hx
    subst hout
    injection hit with e1 e2 e3
    subst e1
    intro ch hch
    rw [e2]
    rcases List.mem_append.mp hch with hca | hcb
    · exact h a fm ca (by simp) ch hca
    · exact h b fm cb (by simp) ch hcb

theorem TextFits_joinAdjacentTextLinks (ctx : Ctx) (W : ℚ) (l : List ChainItem)
    (h : TextFits ctx W l) : TextFits ctx W (joinAdjacentTextLinks l) := by
  induction l with
  | nil => exact h
  | cons x rest ih =>
    rw [joinAdjacentTextLinks]
    apply TextFits_joinStep
    intro s f c hm
    rcases List.mem_cons.mp hm with heq | hm2
    · subst heq
      exact h s f c (by simp)
    · exact ih (TextFits_of_cons _ _ _ _ h) s f c hm2

theorem TextFits_ensureCursorExists (ctx : Ctx) (W : ℚ) (l : List ChainItem)
    (h : TextFits ctx W l) : TextFits ctx W (ensureCursorExists l) := by
  unfold ensureCursorExists
  split
  · exact h
  · intro s f c hm
    rcases List.mem_append.mp hm with h1 | h1
    · exact h s f c h1
    · simp at h1

theorem mem_of_mem_splitWsRuns (s : Str) (q : Str) (hq : q ∈ splitWsRuns s)
    (ch : Char) (hch : ch ∈ q) : ch ∈ s := by
  rw [← splitWsRuns_flatten s]
  exact List.mem_flatten.mpr ⟨q, hq, hch⟩

theorem TextFits_chunkOne (ctx : Ctx) (W : ℚ) (x : ChainItem) (l : List ChainItem)
    (hx : x ∈ l) (h : TextFits ctx W l) : TextFits ctx W (chunkOne x) := by
  intro s f c hm
  cases x with
  | textLink s2 f2 c2 =>
    rw [chunkOne] at hm
    split at hm
    · rename_i hws
      cases hs : splitWsRuns s2 with
      | nil =>
        rw [hs] at hm
        simp only [List.mem_singleton] at hm
        injection hm.symm with e1 e2 e3
        intro ch hch
        rw [← e1] at hch
        rw [← e2]
        exact h _ _ _ hx ch hch
      | cons p ps =>
        rw [hs] at hm
        by_cases hp : ps.length > 0
        · simp only [hp, if_true] at hm
          rcases List.mem_cons.mp hm with heq | hm2
          · injection heq.symm with e1 e2 e3
            intro ch hch
            rw [← e1] at hch
            rw [← e2]
            exact h _ _ _ hx ch
              (mem_of_mem_splitWsRuns s2 p (by rw [hs]; simp) ch hch)
          · rw [List.mem_map] at hm2
            obtain ⟨q, hq, heq⟩ := hm2
            injection heq with e1 e2 e3
            intro ch hch
            rw [← e1] at hch
            rw [← e2]
            exact h _ _ _ hx ch
              (mem_of_mem_splitWsRuns s2 q (by rw [hs]; simp [hq]) ch hch)
        · simp only [hp, if_false] at hm
          simp only [List.mem_singleton] at hm
          injection hm.symm with e1 e2 e3
          intro ch hch
          rw [← e1] at hch
          rw [← e2]
          exact h _ _ _ hx ch hch
    · simp only [List.mem_singleton] at hm
      injection hm.symm with e1 e2 e3
      intro ch hch
      rw [← e1] at hch
      rw [← e2]
      exact h _ _ _ hx ch hch
  | cursorLink c2 => simp [chunkOne] at hm
  | newlineLink c2 => simp [chunkOne] at hm
  | virtualNewlineLink c2 => simp [chunkOne] at hm

theorem TextFits_chunkTextLinks (ctx : Ctx) (W : ℚ) (l : List ChainItem)
    (h : TextFits ctx W l) : TextFits ctx W (chunkTextLinks l) := by
  intro s f c hm
  unfold chunkTextLinks at hm
  rw [List.mem_flatMap] at hm
  obtain ⟨x, hx, hmem⟩ := hm
  exact TextFits_chunkOne ctx W x l hx h s f c hmem

theorem clearComputed_append (l1 l2 : List ChainItem) :
    clearComputed (l1 ++ l2) = clearComputed l1 ++ clearComputed l2 := by
  simp [clearComputed]

theorem clearComputed_map_setLineHeight (lh : ℚ) (l : List ChainItem) :
    clearComputed (l.map (setLineHeight lh)) = clearComputed l := by
  induction l with
  | nil => rfl
  | cons it rest ih =>
    cases it <;>
      simp only [List.map_cons, clearComputed, setLineHeight] at * <;>
      rw [ih]

/-- The Y pass only fills computed fields: clearing the computed records of
its output recovers the (cleared) input. -/
theorem clearComputed_recalcYGo (ctx : Ctx) (cf : FontProperties) :
    ∀ (l prevRev buf : List ChainItem) (posY mA mD mS : ℚ),
      clearComputed (recalcYGo ctx cf prevRev posY buf mA mD mS l) =
        clearComputed (buf ++ l) := by
  intro l
  induction l with
  | nil =>
    intro prevRev buf posY mA mD mS
    rw [recalcYGo]
    simp [clearComputed_map_setLineHeight]
  | cons it rest ih =>
    intro prevRev buf posY mA mD mS
    cases it with
    | textLink s f c =>
      rw [recalcYGo]
      rw [ih]
      simp [clearComputed, clearComputed_append]
    | cursorLink c =>
      rw [recalcYGo]
      split <;> (rw [ih]; simp [clearComputed, clearComputed_append])
    | newlineLink c =>
      rw [recalcYGo]
      rw [clearComputed_append, clearComputed_map_setLineHeight]
      simp only [clearComputed, List.map_cons] at *
      rw [ih]
      simp [clearComputed_append, clearComputed]
    | virtualNewlineLink c =>
      rw [recalcYGo]
      rw [clearComputed_append, clearComputed_map_setLineHeight]
      simp only [clearComputed, List.map_cons] at *
      rw [ih]
      simp [clearComputed_append, clearComputed]

theorem getText_clear_eq (l1 l2 : List ChainItem)
    (h : clearComputed l1 = clearComputed l2) : getText l1 = getText l2 := by
  rw [← getText_clearComputed l1, ← getText_clearComputed l2, h]

/-- The X pass succeeds and preserves the document text when every
character of every run fits the wrap width. -/
theorem recalcXGo_text (ctx : Ctx) (W : ℚ) :
    ∀ (l : List ChainItem) (posX : ℚ) (flag : Bool), TextFits ctx W l →
      ∃ out, recalcXGo ctx W posX flag l = some out ∧ getText out = getText l := by
  intro l
  induction l with
  | nil =>
    intro posX flag h
    exact ⟨[], by rw [recalcXGo], rfl⟩
  | cons it rest ih =>
    intro posX flag h
    cases it with
    | textLink s f c =>
      have hfs : ∀ ch ∈ s, measureTextWidth ctx f [ch] ≤ W := h s f c (by simp)
      rw [recalcXGo]
      by_cases hw : measureTextWidth ctx f s > W
      · rw [if_pos hw]
        obtain ⟨newItems, p1, hcons, htext⟩ :=
          consumeRun_text (measureTextWidth ctx f) W f (s.length + 1) s
            (if flag then (0 : ℚ) else posX) [] (by omega) hfs
        obtain ⟨out1, hrec, htext1⟩ := ih p1
          ((((if flag then [ChainItem.virtualNewlineLink {}] else []) ++ newItems).foldl
            updateLineFlag flag)) (TextFits_of_cons _ _ _ _ h)
        simp only [hcons, hrec, Option.map_some']
        refine ⟨_, rfl, ?_⟩
        rw [getText_append, getText_append, htext1, htext]
        cases flag <;> simp [getText, getText_cons]
      · rw [if_neg hw]
        by_cases h2 : posX + measureTextWidth ctx f s > W
        · rw [if_pos h2]
          obtain ⟨out1, hrec, htext1⟩ := ih (0 + measureTextWidth ctx f s) true
            (TextFits_of_cons _ _ _ _ h)
          rw [hrec]
          refine ⟨_, rfl, ?_⟩
          simp [getText_cons, htext1]
        · rw [if_neg h2]
          obtain ⟨out1, hrec, htext1⟩ := ih (posX + measureTextWidth ctx f s) true
            (TextFits_of_cons _ _ _ _ h)
          rw [hrec]
          refine ⟨_, rfl, ?_⟩
          simp [getText_cons, htext1]
    | cursorLink c =>
      rw [recalcXGo]
      obtain ⟨out1, hrec, htext1⟩ := ih posX flag (TextFits_of_cons _ _ _ _ h)
      rw [hrec]
      refine ⟨_, rfl, ?_⟩
      simp [getText_cons, htext1]
    | newlineLink c =>
      rw [recalcXGo]
      obtain ⟨out1, hrec, htext1⟩ := ih 0 false (TextFits_of_cons _ _ _ _ h)
      rw [hrec]
      refine ⟨_, rfl, ?_⟩
      simp [getText_cons, htext1]
    | virtualNewlineLink c =>
      rw [recalcXGo]
      obtain ⟨out1, hrec, htext1⟩ := ih posX false (TextFits_of_cons _ _ _ _ h)
      rw [hrec]
      refine ⟨_, rfl, ?_⟩
      simp [getText_cons, htext1]

/-! ## The cursor-at-end invariant

During `setText` the cursor never moves: it stays the last item of the
chain.  `endsWithCursor` states that shape, and the lemmas below carry it
through every stage of the layout pipeline. -/

/-- The last item of the list is a `CursorLink`. -/
def endsWithCursor (l : List ChainItem) : Bool :=
  match l.getLast? with
  | some (.cursorLink _) => true
  | _ => false

theorem endsWithCursor_ne_nil {l : List ChainItem}
    (h : endsWithCursor l = true) : l ≠ [] := by
  intro he
  subst he
  exact absurd h (by decide)

theorem endsWithCursor_concat (l : List ChainItem) (c : Computed) :
    endsWithCursor (l ++ [ChainItem.cursorLink c]) = true := by
  unfold endsWithCursor
  rw [List.getLast?_concat]

theorem endsWithCursor_append (a b : List ChainItem) (hb : b ≠ []) :
    endsWithCursor (a ++ b) = endsWithCursor b := by
  unfold endsWithCursor
  rw [List.getLast?_append_of_ne_nil _ hb]

theorem endsWithCursor_cons (x : ChainItem) (rest : List ChainItem)
    (h : rest ≠ []) : endsWithCursor (x :: rest) = endsWithCursor rest := by
  rw [← List.singleton_append, endsWithCursor_append [x] rest h]

theorem endsWithCursor_append_cons (a : List ChainItem) (x : ChainItem)
    (r : List ChainItem) (hr : r ≠ []) :
    endsWithCursor (a ++ x :: r) = endsWithCursor r := by
  rw [show a ++ x :: r = (a ++ [x]) ++ r by simp, endsWithCursor_append _ _ hr]

theorem endsWithCursor_decomp :
    ∀ l : List ChainItem, endsWithCursor l = true →
      ∃ pre c, l = pre ++ [ChainItem.cursorLink c] := by
  intro l
  induction l with
  | nil => intro h; exact absurd h (by decide)
  | cons x rest ih =>
    intro h
    cases hr : rest with
    | nil =>
      subst hr
      cases x with
      | cursorLink c => exact ⟨[], c, rfl⟩
      | textLink s f c => simp [endsWithCursor] at h
      | newlineLink c => simp [endsWithCursor] at h
      | virtualNewlineLink c => simp [endsWithCursor] at h
    | cons y ys =>
      subst hr
      rw [endsWithCursor_cons x _ (by simp)] at h
      obtain ⟨pre, c, he⟩ := ih h
      exact ⟨x :: pre, c, by rw [he]; rfl⟩

theorem countCursor_pos_of_endsWithCursor (l : List ChainItem)
    (h : endsWithCursor l = true) : 0 < countCursor l := by
  obtain ⟨pre, c, he⟩ := endsWithCursor_decomp l h
  subst he
  rw [countCursor_append]
  have : countCursor [ChainItem.cursorLink c] = 1 := by
    simp [countCursor, ChainItem.isCursor]
  omega

theorem endsWithCursor_clearComputed (l : List ChainItem)
    (h : endsWithCursor l = true) : endsWithCursor (clearComputed l) = true := by
  obtain ⟨pre, c, he⟩ := endsWithCursor_decomp l h
  subst he
  rw [clearComputed_append]
  exact endsWithCursor_concat (clearComputed pre) {}

theorem endsWithCursor_removeVirtualNewlines (l : List ChainItem)
    (h : endsWithCursor l = true) :
    endsWithCursor (removeVirtualNewlines l) = true := by
  obtain ⟨pre, c, he⟩ := endsWithCursor_decomp l h
  subst he
  unfold removeVirtualNewlines
  rw [List.filter_append]
  exact endsWithCursor_concat _ c

theorem endsWithCursor_removeEmptyTextLinks (l : List ChainItem)
    (h : endsWithCursor l = true) :
    endsWithCursor (removeEmptyTextLinks l) = true := by
  obtain ⟨pre, c, he⟩ := endsWithCursor_decomp l h
  subst he
  unfold removeEmptyTextLinks
  rw [List.filter_append]
  exact endsWithCursor_concat _ c

theorem joinStep_ne_nil (x : ChainItem) (out : List ChainItem) :
    joinStep x out ≠ [] := by
  unfold joinStep
  split
  · split <;> simp
  · simp

theorem endsWithCursor_joinStep (x : ChainItem) (out : List ChainItem)
    (hne : out ≠ []) (h : endsWithCursor out = true) :
    endsWithCursor (joinStep x out) = true := by
  unfold joinStep
  split
  · rename_i a f ca b g cb out2
    split
    · cases hz : out2 with
      | nil =>
        subst hz
        simp [endsWithCursor] at h
      | cons y ys =>
        subst hz
        rw [endsWithCursor_cons _ _ (by simp)]
        rw [endsWithCursor_cons _ _ (by simp)] at h
        exact h
    · rw [endsWithCursor_cons _ _ (by simp)]
      exact h
  · rw [endsWithCursor_cons _ _ hne]
    exact h

theorem endsWithCursor_joinAdjacentTextLinks (l : List ChainItem)
    (h : endsWithCursor l = true) :
    endsWithCursor (joinAdjacentTextLinks l) = true := by
  induction l with
  | nil => exact absurd h (by decide)
  | cons x rest ih =>
    cases hr : rest with
    | nil =>
      subst hr
      cases x <;> exact h
    | cons y ys =>
      subst hr
      rw [endsWithCursor_cons _ _ (by simp)] at h
      rw [joinAdjacentTextLinks]
      exact endsWithCursor_joinStep x _
        (by rw [joinAdjacentTextLinks]; exact joinStep_ne_nil y _) (ih h)

theorem endsWithCursor_ensureCursorExists (l : List ChainItem)
    (h : endsWithCursor l = true) :
    endsWithCursor (ensureCursorExists l) = true := by
  unfold ensureCursorExists
  split
  · exact h
  · exact endsWithCursor_concat l {}

theorem endsWithCursor_chunkTextLinks (l : List ChainItem)
    (h : endsWithCursor l = true) :
    endsWithCursor (chunkTextLinks l) = true := by
  obtain ⟨pre, c, he⟩ := endsWithCursor_decomp l h
  subst he
  unfold chunkTextLinks
  rw [List.flatMap_append]
  exact endsWithCursor_concat _ c

theorem endsWithCursor_append_left (a b : List ChainItem)
    (h : endsWithCursor b = true) : endsWithCursor (a ++ b) = true := by
  rw [endsWithCursor_append a b (endsWithCursor_ne_nil h)]
  exact h

theorem endsWithCursor_recalcXGo (ctx : Ctx) (W : ℚ) :
    ∀ (l : List ChainItem) (posX : ℚ) (flag : Bool) (out : List ChainItem),
      recalcXGo ctx W posX flag l = some out → endsWithCursor l = true →
      endsWithCursor out = true := by
  intro l
  induction l with
  | nil =>
    intro posX flag out h hend
    exact absurd hend (by decide)
  | cons it rest ih =>
    intro posX flag out h hend
    cases hr : rest with
    | nil =>
      subst hr
      cases it with
      | cursorLink c =>
        rw [recalcXGo] at h
        rw [show recalcXGo ctx W posX flag [] = some [] from rfl] at h
        rw [Option.map_some'] at h
        cases h
        rfl
      | textLink s f c => simp [endsWithCursor] at hend
      | newlineLink c => simp [endsWithCursor] at hend
      | virtualNewlineLink c => simp [endsWithCursor] at hend
    | cons y ys =>
      subst hr
      rw [endsWithCursor_cons _ _ (by simp)] at hend
      cases it with
      | textLink s f c =>
        rw [recalcXGo] at h
        split at h
        · split at h
          · rename_i pair hcons
            rw [Option.map_eq_some'] at h
            obtain ⟨out1, hrec, hout⟩ := h
            subst hout
            have he1 := ih _ _ _ hrec hend
            simp only [List.append_assoc]
            exact endsWithCursor_append_left _ _
              (endsWithCursor_append_left _ _ he1)
          · exact absurd h (by simp)
        · split at h
          · rw [Option.map_eq_some'] at h
            obtain ⟨out1, hrec, hout⟩ := h
            subst hout
            have he1 := ih _ _ _ hrec hend
            rw [endsWithCursor_cons _ _ (by simp),
              endsWithCursor_cons _ _ (endsWithCursor_ne_nil he1)]
            exact he1
          · rw [Option.map_eq_some'] at h
            obtain ⟨out1, hrec, hout⟩ := h
            subst hout
            have he1 := ih _ _ _ hrec hend
            rw [endsWithCursor_cons _ _ (endsWithCursor_ne_nil he1)]
            exact he1
      | cursorLink c =>
        rw [recalcXGo] at h
        rw [Option.map_eq_some'] at h
        obtain ⟨out1, hrec, hout⟩ := h
        subst hout
        have he1 := ih _ _ _ hrec hend
        rw [endsWithCursor_cons _ _ (endsWithCursor_ne_nil he1)]
        exact he1
      | newlineLink c =>
        rw [recalcXGo] at h
        rw [Option.map_eq_some'] at h
        obtain ⟨out1, hrec, hout⟩ := h
        subst hout
        have he1 := ih _ _ _ hrec hend
        rw [endsWithCursor_cons _ _ (endsWithCursor_ne_nil he1)]
        exact he1
      | virtualNewlineLink c =>
        rw [recalcXGo] at h
        rw [Option.map_eq_some'] at h
        obtain ⟨out1, hrec, hout⟩ := h
        subst hout
        have he1 := ih _ _ _ hrec hend
        rw [endsWithCursor_cons _ _ (endsWithCursor_ne_nil he1)]
        exact he1

theorem endsWithCursor_recalcYGo (ctx : Ctx) (cf : FontProperties) :
    ∀ (l buf prevRev : List ChainItem) (posY mA mD mS : ℚ),
      endsWithCursor (buf ++ l) = true →
      endsWithCursor (recalcYGo ctx cf prevRev posY buf mA mD mS l) = true := by
  intro l
  induction l with
  | nil =>
    intro buf prevRev posY mA mD mS h
    rw [List.append_nil] at h
    obtain ⟨pre, c, he⟩ := endsWithCursor_decomp _ h
    subst he
    rw [recalcYGo]
    rw [List.map_append]
    exact endsWithCursor_concat _ _
  | cons it rest ih =>
    intro buf prevRev posY mA mD mS h
    cases it with
    | newlineLink c =>
      rw [recalcYGo]
      cases hr : rest with
      | nil =>
        subst hr
        rw [endsWithCursor_append _ _ (by simp)] at h
        simp [endsWithCursor] at h
      | cons y ys =>
        subst hr
        rw [endsWithCursor_append_cons _ _ _ (by simp)] at h
        have hI := ih [] (ChainItem.newlineLink c :: prevRev)
          (posY + (if max (mA + mD) mS = 0 then cf.size else max (mA + mD) mS) *
            lineSpacingMult) 0 0 0 (by rw [List.nil_append]; exact h)
        rw [endsWithCursor_append _ _ (by simp),
          endsWithCursor_cons _ _ (endsWithCursor_ne_nil hI)]
        exact hI
    | virtualNewlineLink c =>
      rw [recalcYGo]
      cases hr : rest with
      | nil =>
        subst hr
        rw [endsWithCursor_append _ _ (by simp)] at h
        simp [endsWithCursor] at h
      | cons y ys =>
        subst hr
        rw [endsWithCursor_append_cons _ _ _ (by simp)] at h
        have hI := ih [] (ChainItem.virtualNewlineLink c :: prevRev)
          (posY + (if max (mA + mD) mS = 0 then cf.size else max (mA + mD) mS) *
            lineSpacingMult) 0 0 0 (by rw [List.nil_append]; exact h)
        rw [endsWithCursor_append _ _ (by simp),
          endsWithCursor_cons _ _ (endsWithCursor_ne_nil hI)]
        exact hI
    | textLink s f c =>
      rw [recalcYGo]
      cases hr : rest with
      | nil =>
        subst hr
        rw [endsWithCursor_append _ _ (by simp)] at h
        simp [endsWithCursor] at h
      | cons y ys =>
        subst hr
        apply ih
        rw [endsWithCursor_append _ _ (by simp)]
        rw [endsWithCursor_append_cons _ _ _ (by simp)] at h
        exact h
    | cursorLink c =>
      rw [recalcYGo]
      split
      all_goals
        apply ih
        cases hr : rest with
        | nil =>
          rw [List.append_nil]
          exact endsWithCursor_concat _ _
        | cons y ys =>
          rw [endsWithCursor_append _ _ (by simp)]
          subst hr
          rw [endsWithCursor_append_cons _ _ _ (by simp)] at h
          exact h

theorem endsWithCursor_recalcYPositions (ctx : Ctx) (cf : FontProperties)
    (items : List ChainItem) (h : endsWithCursor items = true) :
    endsWithCursor (recalcYPositions ctx cf items) = true := by
  apply endsWithCursor_recalcYGo
  rw [List.nil_append]
  exact h

/-! ## TextFits through the layout passes -/

theorem TextFits_append (ctx : Ctx) (W : ℚ) (a b : List ChainItem)
    (ha : TextFits ctx W a) (hb : TextFits ctx W b) :
    TextFits ctx W (a ++ b) := by
  intro s f c hm
  rcases List.mem_append.mp hm with h | h
  · exact ha _ _ _ h
  · exact hb _ _ _ h

theorem TextFits_singleton (ctx : Ctx) (W : ℚ) (s : Str) (f : FontProperties)
    (c : Computed) (h : ∀ ch ∈ s, measureTextWidth ctx f [ch] ≤ W) :
    TextFits ctx W [ChainItem.textLink s f c] := by
  intro s2 f2 c2 hm
  rw [List.mem_singleton] at hm
  injection hm with e1 e2 e3
  subst e1
  subst e2
  exact h

theorem TextFits_vnl (ctx : Ctx) (W : ℚ) (c : Computed) :
    TextFits ctx W [ChainItem.virtualNewlineLink c] := by
  intro s2 f2 c2 hm
  rw [List.mem_singleton] at hm
  exact absurd hm (by simp)

theorem TextFits_cursor (ctx : Ctx) (W : ℚ) (c : Computed) :
    TextFits ctx W [ChainItem.cursorLink c] := by
  intro s2 f2 c2 hm
  rw [List.mem_singleton] at hm
  exact absurd hm (by simp)

theorem TextFits_newline (ctx : Ctx) (W : ℚ) (c : Computed) :
    TextFits ctx W [ChainItem.newlineLink c] := by
  intro s2 f2 c2 hm
  rw [List.mem_singleton] at hm
  exact absurd hm (by simp)

theorem consumeRun_textFits (ctx : Ctx) (W : ℚ) (font : FontProperties) :
    ∀ (fuel : ℕ) (posX : ℚ) (rem : Str) (acc out : List ChainItem) (p : ℚ),
      consumeRun (measureTextWidth ctx font) W font fuel posX rem acc = some (out, p) →
      (∀ ch ∈ rem, measureTextWidth ctx font [ch] ≤ W) →
      TextFits ctx W acc → TextFits ctx W out := by
  intro fuel
  induction fuel with
  | zero =>
    intro posX rem acc out p h hrem hacc
    rw [consumeRun] at h
    split at h
    · cases h
      exact hacc
    · exact absurd h (by simp)
  | succ fuel ih =>
    intro posX rem acc out p h hrem hacc
    rw [consumeRun] at h
    split at h
    · cases h
      exact hacc
    · simp only at h
      split at h
      · split at h
        · split at h
          · rw [List.getLast?_concat] at h
            simp only at h
            split at h
            · simp only at h
              rw [List.dropLast_concat] at h
              refine ih _ _ _ _ _ h
                (fun ch hch => hrem ch (List.drop_subset _ _ (List.drop_subset _ _ hch)))
                ?_
              refine TextFits_append _ _ _ _
                (TextFits_append _ _ _ _ hacc (TextFits_singleton _ _ _ _ _ ?_))
                (TextFits_vnl _ _ _)
              intro ch hch
              rw [List.mem_append] at hch
              rcases hch with hch | hch
              · exact hrem ch (List.take_subset _ _ hch)
              · exact hrem ch (List.drop_subset _ _ (List.take_subset _ _ hch))
            · simp only at h
              refine ih _ _ _ _ _ h
                (fun ch hch => hrem ch (List.drop_subset _ _ (List.drop_subset _ _ hch)))
                ?_
              refine TextFits_append _ _ _ _
                (TextFits_append _ _ _ _ hacc (TextFits_singleton _ _ _ _ _ ?_))
                (TextFits_vnl _ _ _)
              exact fun ch hch => hrem ch (List.take_subset _ _ hch)
          · simp only at h
            refine ih _ _ _ _ _ h
              (fun ch hch => hrem ch (List.drop_subset _ _ hch)) ?_
            refine TextFits_append _ _ _ _
              (TextFits_append _ _ _ _ hacc (TextFits_singleton _ _ _ _ _ ?_))
              (TextFits_vnl _ _ _)
            exact fun ch hch => hrem ch (List.take_subset _ _ hch)
        · refine ih _ _ _ _ _ h hrem ?_
          exact TextFits_append _ _ _ _ hacc (TextFits_vnl _ _ _)
      · cases h
        exact TextFits_append _ _ _ _ hacc (TextFits_singleton _ _ _ _ _ hrem)

theorem TextFits_recalcXGo (ctx : Ctx) (W : ℚ) :
    ∀ (l : List ChainItem) (posX : ℚ) (flag : Bool) (out : List ChainItem),
      recalcXGo ctx W posX flag l = some out → TextFits ctx W l →
      TextFits ctx W out := by
  intro l
  induction l with
  | nil =>
    intro posX flag out h hfit
    rw [recalcXGo] at h
    cases h
    exact TextFits_nil ctx W
  | cons it rest ih =>
    intro posX flag out h hfit
    cases it with
    | textLink s f c =>
      have hs : ∀ ch ∈ s, measureTextWidth ctx f [ch] ≤ W :=
        hfit s f c (by simp)
      rw [recalcXGo] at h
      split at h
      · split at h
        · rename_i pair hcons
          rw [Option.map_eq_some'] at h
          obtain ⟨out1, hrec, hout⟩ := h
          subst hout
          refine TextFits_append _ _ _ _ ?_
            (ih _ _ _ hrec (TextFits_of_cons _ _ _ _ hfit))
          refine TextFits_append _ _ _ _ ?_
            (consumeRun_textFits ctx W f _ _ _ _ _ _ hcons hs (TextFits_nil _ _))
          split
          · exact TextFits_vnl _ _ _
          · exact TextFits_nil _ _
        · exact absurd h (by simp)
      · split at h
        · rw [Option.map_eq_some'] at h
          obtain ⟨out1, hrec, hout⟩ := h
          subst hout
          intro s2 f2 c2 hm
          rcases List.mem_cons.mp hm with he | hm2
          · exact absurd he (by simp)
          · rcases List.mem_cons.mp hm2 with he | hm3
            · injection he with e1 e2 e3
              subst e1
              subst e2
              exact hs
            · exact ih _ _ _ hrec (TextFits_of_cons _ _ _ _ hfit) _ _ _ hm3
        · rw [Option.map_eq_some'] at h
          obtain ⟨out1, hrec, hout⟩ := h
          subst hout
          intro s2 f2 c2 hm
          rcases List.mem_cons.mp hm with he | hm2
          · injection he with e1 e2 e3
            subst e1
            subst e2
            exact hs
          · exact ih _ _ _ hrec (TextFits_of_cons _ _ _ _ hfit) _ _ _ hm2
    | cursorLink c =>
      rw [recalcXGo] at h
      rw [Option.map_eq_some'] at h
      obtain ⟨out1, hrec, hout⟩ := h
      subst hout
      intro s2 f2 c2 hm
      rcases List.mem_cons.mp hm with he | hm2
      · exact absurd he (by simp)
      · exact ih _ _ _ hrec (TextFits_of_cons _ _ _ _ hfit) _ _ _ hm2
    | newlineLink c =>
      rw [recalcXGo] at h
      rw [Option.map_eq_some'] at h
      obtain ⟨out1, hrec, hout⟩ := h
      subst hout
      intro s2 f2 c2 hm
      rcases List.mem_cons.mp hm with he | hm2
      · exact absurd he (by simp)
      · exact ih _ _ _ hrec (TextFits_of_cons _ _ _ _ hfit) _ _ _ hm2
    | virtualNewlineLink c =>
      rw [recalcXGo] at h
      rw [Option.map_eq_some'] at h
      obtain ⟨out1, hrec, hout⟩ := h
      subst hout
      intro s2 f2 c2 hm
      rcases List.mem_cons.mp hm with he | hm2
      · exact absurd he (by simp)
      · exact ih _ _ _ hrec (TextFits_of_cons _ _ _ _ hfit) _ _ _ hm2

theorem TextFits_of_clearComputed (ctx : Ctx) (W : ℚ) (l : List ChainItem)
    (h : TextFits ctx W (clearComputed l)) : TextFits ctx W l := by
  intro s f c hm
  refine h s f {} ?_
  unfold clearComputed
  rw [List.mem_map]
  exact ⟨ChainItem.textLink s f c, hm, rfl⟩

theorem TextFits_recalcYPositions (ctx : Ctx) (W : ℚ) (ctx2 : Ctx)
    (cf : FontProperties) (items : List ChainItem) (h : TextFits ctx W items) :
    TextFits ctx W (recalcYPositions ctx2 cf items) := by
  apply TextFits_of_clearComputed
  rw [show recalcYPositions ctx2 cf items =
    recalcYGo ctx2 cf [] 0 [] 0 0 0 items from rfl, clearComputed_recalcYGo,
    List.nil_append]
  exact TextFits_clearComputed _ _ _ h

theorem TextFits_removeVirtualNewlines (ctx : Ctx) (W : ℚ) (l : List ChainItem)
    (h : TextFits ctx W l) : TextFits ctx W (removeVirtualNewlines l) :=
  TextFits_filter ctx W _ l h

theorem TextFits_removeEmptyTextLinks (ctx : Ctx) (W : ℚ) (l : List ChainItem)
    (h : TextFits ctx W l) : TextFits ctx W (removeEmptyTextLinks l) :=
  TextFits_filter ctx W _ l h

theorem getText_recalcYPositions (ctx : Ctx) (cf : FontProperties)
    (items : List ChainItem) :
    getText (recalcYPositions ctx cf items) = getText items := by
  apply getText_clear_eq
  rw [show recalcYPositions ctx cf items =
    recalcYGo ctx cf [] 0 [] 0 0 0 items from rfl, clearComputed_recalcYGo,
    List.nil_append]

/-! ## recalc under the editing invariants -/

/-- When every character of every run fits the wrap width and the chain
ends in its (unique) cursor, `recalc` succeeds, leaves the document text
unchanged and re-establishes all three invariants. -/
theorem recalc_inv (c : Chain)
    (h1 : TextFits c.ctx c.widthPixels c.items)
    (h2 : countCursor c.items = 1)
    (h3 : endsWithCursor c.items = true) :
    ∃ items', c.recalc = some { c with items := items' } ∧
      getText items' = getText c.items ∧
      TextFits c.ctx c.widthPixels items' ∧
      countCursor items' = 1 ∧
      endsWithCursor items' = true := by
  have hf5 : TextFits c.ctx c.widthPixels
      (chunkTextLinks (ensureCursorExists (removeEmptyTextLinks
        (joinAdjacentTextLinks (removeVirtualNewlines (clearComputed c.items)))))) :=
    TextFits_chunkTextLinks _ _ _ (TextFits_ensureCursorExists _ _ _
      (TextFits_removeEmptyTextLinks _ _ _ (TextFits_joinAdjacentTextLinks _ _ _
        (TextFits_removeVirtualNewlines _ _ _ (TextFits_clearComputed _ _ _ h1)))))
  have he5 : endsWithCursor
      (chunkTextLinks (ensureCursorExists (removeEmptyTextLinks
        (joinAdjacentTextLinks (removeVirtualNewlines (clearComputed c.items)))))) = true :=
    endsWithCursor_chunkTextLinks _ (endsWithCursor_ensureCursorExists _
      (endsWithCursor_removeEmptyTextLinks _ (endsWithCursor_joinAdjacentTextLinks _
        (endsWithCursor_removeVirtualNewlines _ (endsWithCursor_clearComputed _ h3)))))
  obtain ⟨xout, hx, hxtext⟩ := recalcXGo_text c.ctx c.widthPixels
    (chunkTextLinks (ensureCursorExists (removeEmptyTextLinks
      (joinAdjacentTextLinks (removeVirtualNewlines (clearComputed c.items))))))
    0 false hf5
  have hrecalc : c.recalc =
      some { c with items := recalcYPositions c.ctx c.currentFontProperties xout } := by
    unfold Chain.recalc
    simp only
    rw [show recalcXPositions c.ctx c.widthPixels
      (chunkTextLinks (ensureCursorExists (removeEmptyTextLinks
        (joinAdjacentTextLinks (removeVirtualNewlines (clearComputed c.items)))))) =
      recalcXGo c.ctx c.widthPixels 0 false
      (chunkTextLinks (ensureCursorExists (removeEmptyTextLinks
        (joinAdjacentTextLinks (removeVirtualNewlines (clearComputed c.items))))))
      from rfl, hx]
  refine ⟨recalcYPositions c.ctx c.currentFontProperties xout, hrecalc, ?_, ?_, ?_, ?_⟩
  · rw [getText_recalcYPositions, hxtext, getText_chunkTextLinks,
      getText_ensureCursorExists, getText_removeEmptyTextLinks,
      getText_joinAdjacentTextLinks, getText_removeVirtualNewlines,
      getText_clearComputed]
  · exact TextFits_recalcYPositions _ _ _ _ _ (TextFits_recalcXGo _ _ _ _ _ _ hx hf5)
  · have := countCursor_recalc c
      { c with items := recalcYPositions c.ctx c.currentFontProperties xout } hrecalc
    simp only at this
    rw [this, h2]
    rfl
  · exact endsWithCursor_recalcYPositions _ _ _
      (endsWithCursor_recalcXGo _ _ _ _ _ _ hx he5)

/-! ## Pinpointing the item before the cursor -/

theorem getElem_append_cons (q : List ChainItem) (x : ChainItem)
    (r : List ChainItem) : (q ++ x :: r)[q.length]? = some x := by
  induction q with
  | nil => simp
  | cons a as ih =>
    simp only [List.cons_append, List.length_cons, List.getElem?_cons_succ]
    exact ih

theorem listModify_at_append (f : ChainItem → ChainItem) (q : List ChainItem)
    (x : ChainItem) (r : List ChainItem) :
    listModify f q.length (q ++ x :: r) = q ++ f x :: r := by
  induction q with
  | nil => rfl
  | cons a as ih =>
    simp only [List.cons_append, List.length_cons, listModify, List.append_eq]
    rw [ih]

theorem insertIdx_at_append (q r : List ChainItem) (x : ChainItem) :
    (q ++ r).insertIdx q.length x = q ++ x :: r := by
  induction q with
  | nil => rfl
  | cons a as ih =>
    simp only [List.cons_append, List.length_cons]
    rw [List.insertIdx_succ_cons, ih]

theorem insertClamp_at (q r : List ChainItem) (x : ChainItem) :
    insertClamp (q ++ r) q.length x = q ++ x :: r := by
  unfold insertClamp
  rw [min_eq_left (by simp), insertIdx_at_append]

/-! ## One keystroke preserves the invariants and appends one character -/

/-- With the cursor last, a printable key press succeeds, appends exactly
the typed character to the document text and preserves the invariants,
provided the character fits the wrap width under the current font. -/
theorem printableKeyPressed_step (c : Chain) (ch : Char)
    (hfit : measureTextWidth c.ctx c.currentFontProperties [ch] ≤ c.widthPixels)
    (h1 : TextFits c.ctx c.widthPixels c.items)
    (h2 : countCursor c.items = 1)
    (h3 : endsWithCursor c.items = true) :
    ∃ items', c.printableKeyPressed ch = some { c with items := items' } ∧
      getText items' = getText c.items ++ [ch] ∧
      TextFits c.ctx c.widthPixels items' ∧
      countCursor items' = 1 ∧
      endsWithCursor items' = true := by
  obtain ⟨n, hn⟩ := cursorIdx_isSome_of_pos c.items
    (countCursor_pos_of_endsWithCursor _ h3)
  obtain ⟨pre, cc, post, hsplit, hlen, hcnt⟩ := cursorIdx_split c.items n hn
  have hpost : post = [] := by
    cases hP : post with
    | nil => rfl
    | cons y ys =>
      exfalso
      rw [hsplit, hP] at h3
      rw [endsWithCursor_append_cons _ _ _ (by simp)] at h3
      have hpos := countCursor_pos_of_endsWithCursor _ h3
      rw [hsplit, hP, countCursor_append, countCursor_cons] at h2
      simp [ChainItem.isCursor] at h2
      omega
  subst hpost
  have hgt : getText c.items = getText pre := by
    rw [hsplit, getText_append, getText_cons]
    simp [getText]
  unfold Chain.printableKeyPressed
  simp only [hn]
  by_cases hn0 : n > 0
  · rw [if_pos hn0]
    have hpre : pre ≠ [] := by
      intro he
      rw [he] at hlen
      simp at hlen
      omega
    obtain ⟨q, x, hqx⟩ : ∃ q y, pre = q ++ [y] :=
      ⟨pre.dropLast, pre.getLast hpre, (List.dropLast_append_getLast hpre).symm⟩
    have hql : n - 1 = q.length := by
      rw [hqx] at hlen
      simp at hlen
      omega
    have hidx : c.items[n - 1]? = some x := by
      rw [hsplit, hqx, hql,
        show (q ++ [x]) ++ [ChainItem.cursorLink cc] =
          q ++ x :: [ChainItem.cursorLink cc] by simp]
      exact getElem_append_cons q x _
    simp only [hidx]
    split
    · rename_i hnone
      exfalso
      split at hnone
      · split at hnone <;> simp at hnone
      · simp at hnone
      · simp at hnone
      · rename_i comp heqx
        rw [Option.some.injEq] at heqx
        subst heqx
        rw [hqx, countCursor_append] at hcnt
        simp [countCursor, ChainItem.isCursor] at hcnt
      · rename_i heqx
        simp at heqx
    · rename_i items1 hsome
      split at hsome
      · rename_i s f cf heqx
        rw [Option.some.injEq] at heqx
        subst heqx
        have hsfit : ∀ d ∈ s, measureTextWidth c.ctx f [d] ≤ c.widthPixels := by
          refine h1 s f cf ?_
          rw [hsplit, hqx]
          simp
        by_cases hm : f.doPropertiesMatch c.currentFontProperties = true
        · rw [if_pos hm] at hsome
          have hF : f = c.currentFontProperties :=
            (FontProperties.doPropertiesMatch_iff f c.currentFontProperties).mp hm
          have hmod : listModify (fun it =>
              match it with
              | .textLink s2 f2 c2 => .textLink (s2 ++ [ch]) f2 c2
              | o => o) (n - 1) c.items =
              q ++ ChainItem.textLink (s ++ [ch]) f cf :: [ChainItem.cursorLink cc] := by
            rw [hsplit, hqx, hql,
              show (q ++ [ChainItem.textLink s f cf]) ++ [ChainItem.cursorLink cc] =
                q ++ ChainItem.textLink s f cf :: [ChainItem.cursorLink cc] by simp]
            exact listModify_at_append _ q _ _
          rw [Option.some.injEq, hmod] at hsome
          subst hsome
          have hfits1 : TextFits c.ctx c.widthPixels
              (q ++ ChainItem.textLink (s ++ [ch]) f cf :: [ChainItem.cursorLink cc]) := by
            intro s2 f2 c2 hmem
            rw [List.mem_append, List.mem_cons, List.mem_singleton] at hmem
            rcases hmem with hq2 | he | he
            · refine h1 s2 f2 c2 ?_
              rw [hsplit, hqx]
              simp only [List.mem_append]
              exact Or.inl (Or.inl hq2)
            · injection he with e1 e2 e3
              subst e1
              subst e2
              intro d hd
              rw [List.mem_append, List.mem_singleton] at hd
              rcases hd with hd | hd
              · exact hsfit d hd
              · subst hd
                rw [hF]
                exact hfit
            · exact absurd he (by simp)
          have hcnt1 : countCursor
              (q ++ ChainItem.textLink (s ++ [ch]) f cf :: [ChainItem.cursorLink cc]) = 1 := by
            have hq0 : countCursor q = 0 := by
              rw [hqx, countCursor_append] at hcnt
              omega
            rw [countCursor_append, countCursor_cons, countCursor_cons, hq0]
            rfl
          have hend1 : endsWithCursor
              (q ++ ChainItem.textLink (s ++ [ch]) f cf :: [ChainItem.cursorLink cc]) = true := by
            rw [endsWithCursor_append_cons _ _ _ (by simp)]
            rfl
          obtain ⟨items', heq, htext, hfits', hcnt', hends'⟩ := recalc_inv
            { c with items := q ++ ChainItem.textLink (s ++ [ch]) f cf ::
                [ChainItem.cursorLink cc] } hfits1 hcnt1 hend1
          refine ⟨items', heq, ?_, hfits', hcnt', hends'⟩
          rw [htext]
          simp only
          rw [hgt, hqx, getText_append, getText_append, getText_cons, getText_cons]
          simp [getText]
        · rw [if_neg hm] at hsome

          have hins : insertClamp c.items n
              (ChainItem.textLink [ch] c.currentFontProperties.clone {}) =
              pre ++ ChainItem.textLink [ch] c.currentFontProperties.clone {} ::
                [ChainItem.cursorLink cc] := by
            rw [hsplit, ← hlen]
            exact insertClamp_at pre [ChainItem.cursorLink cc] _
          rw [Option.some.injEq, hins] at hsome
          subst hsome
          have hfits1 : TextFits c.ctx c.widthPixels
              (pre ++ ChainItem.textLink [ch] c.currentFontProperties.clone {} ::
                [ChainItem.cursorLink cc]) := by
            intro s2 f2 c2 hmem
            rw [List.mem_append, List.mem_cons, List.mem_singleton] at hmem
            rcases hmem with hq | he | he
            · refine h1 s2 f2 c2 ?_
              rw [hsplit]
              exact List.mem_append_left _ hq
            · injection he with e1 e2 e3
              subst e1
              subst e2
              intro d hd
              rw [List.mem_singleton] at hd
              subst hd
              exact hfit
            · exact absurd he (by simp)
          have hcnt1 : countCursor
              (pre ++ ChainItem.textLink [ch] c.currentFontProperties.clone {} ::
                [ChainItem.cursorLink cc]) = 1 := by
            rw [countCursor_append, countCursor_cons, hcnt]
            simp [countCursor, ChainItem.isCursor]
          have hend1 : endsWithCursor
              (pre ++ ChainItem.textLink [ch] c.currentFontProperties.clone {} ::
                [ChainItem.cursorLink cc]) = true := by
            rw [endsWithCursor_append_cons _ _ _ (by simp)]
            rfl
          obtain ⟨items', heq, htext, hfits', hcnt', hends'⟩ := recalc_inv
            { c with items := pre ++
                ChainItem.textLink [ch] c.currentFontProperties.clone {} ::
                [ChainItem.cursorLink cc] } hfits1 hcnt1 hend1
          refine ⟨items', heq, ?_, hfits', hcnt', hends'⟩
          rw [htext]
          simp only
          rw [hgt, getText_append, getText_cons]
          simp [getText]
      · rename_i comp heqx
        rw [Option.some.injEq] at heqx
        subst heqx

        have hins : insertClamp c.items n
            (ChainItem.textLink [ch] c.currentFontProperties.clone {}) =
            pre ++ ChainItem.textLink [ch] c.currentFontProperties.clone {} ::
              [ChainItem.cursorLink cc] := by
          rw [hsplit, ← hlen]
          exact insertClamp_at pre [ChainItem.cursorLink cc] _
        rw [Option.some.injEq, hins] at hsome
        subst hsome
        have hfits1 : TextFits c.ctx c.widthPixels
            (pre ++ ChainItem.textLink [ch] c.currentFontProperties.clone {} ::
              [ChainItem.cursorLink cc]) := by
          intro s2 f2 c2 hmem
          rw [List.mem_append, List.mem_cons, List.mem_singleton] at hmem
          rcases hmem with hq | he | he
          · refine h1 s2 f2 c2 ?_
            rw [hsplit]
            exact List.mem_append_left _ hq
          · injection he with e1 e2 e3
            subst e1
            subst e2
            intro d hd
            rw [List.mem_singleton] at hd
            subst hd
            exact hfit
          · exact absurd he (by simp)
        have hcnt1 : countCursor
            (pre ++ ChainItem.textLink [ch] c.currentFontProperties.clone {} ::
              [ChainItem.cursorLink cc]) = 1 := by
          rw [countCursor_append, countCursor_cons, hcnt]
          simp [countCursor, ChainItem.isCursor]
        have hend1 : endsWithCursor
            (pre ++ ChainItem.textLink [ch] c.currentFontProperties.clone {} ::
              [ChainItem.cursorLink cc]) = true := by
          rw [endsWithCursor_append_cons _ _ _ (by simp)]
          rfl
        obtain ⟨items', heq, htext, hfits', hcnt', hends'⟩ := recalc_inv
          { c with items := pre ++
              ChainItem.textLink [ch] c.currentFontProperties.clone {} ::
              [ChainItem.cursorLink cc] } hfits1 hcnt1 hend1
        refine ⟨items', heq, ?_, hfits', hcnt', hends'⟩
        rw [htext]
        simp only
        rw [hgt, getText_append, getText_cons]
        simp [getText]
      · rename_i comp heqx
        rw [Option.some.injEq] at heqx
        subst heqx

        have hins : insertClamp c.items n
            (ChainItem.textLink [ch] c.currentFontProperties.clone {}) =
            pre ++ ChainItem.textLink [ch] c.currentFontProperties.clone {} ::
              [ChainItem.cursorLink cc] := by
          rw [hsplit, ← hlen]
          exact insertClamp_at pre [ChainItem.cursorLink cc] _
        rw [Option.some.injEq, hins] at hsome
        subst hsome
        have hfits1 : TextFits c.ctx c.widthPixels
            (pre ++ ChainItem.textLink [ch] c.currentFontProperties.clone {} ::
              [ChainItem.cursorLink cc]) := by
          intro s2 f2 c2 hmem
          rw [List.mem_append, List.mem_cons, List.mem_singleton] at hmem
          rcases hmem with hq | he | he
          · refine h1 s2 f2 c2 ?_
            rw [hsplit]
            exact List.mem_append_left _ hq
          · injection he with e1 e2 e3
            subst e1
            subst e2
            intro d hd
            rw [List.mem_singleton] at hd
            subst hd
            exact hfit
          · exact absurd he (by simp)
        have hcnt1 : countCursor
            (pre ++ ChainItem.textLink [ch] c.currentFontProperties.clone {} ::
              [ChainItem.cursorLink cc]) = 1 := by
          rw [countCursor_append, countCursor_cons, hcnt]
          simp [countCursor, ChainItem.isCursor]
        have hend1 : endsWithCursor
            (pre ++ ChainItem.textLink [ch] c.currentFontProperties.clone {} ::
              [ChainItem.cursorLink cc]) = true := by
          rw [endsWithCursor_append_cons _ _ _ (by simp)]
          rfl
        obtain ⟨items', heq, htext, hfits', hcnt', hends'⟩ := recalc_inv
          { c with items := pre ++
              ChainItem.textLink [ch] c.currentFontProperties.clone {} ::
              [ChainItem.cursorLink cc] } hfits1 hcnt1 hend1
        refine ⟨items', heq, ?_, hfits', hcnt', hends'⟩
        rw [htext]
        simp only
        rw [hgt, getText_append, getText_cons]
        simp [getText]
      · rename_i comp heqx
        rw [Option.some.injEq] at heqx
        subst heqx
        exact absurd hsome (by simp)
      · rename_i heqx
        simp at heqx
  · rw [if_neg hn0]
    have hpre : pre = [] := by
      have : n = 0 := by omega
      rw [this] at hlen
      exact List.eq_nil_of_length_eq_zero hlen
    have hfits1 : TextFits c.ctx c.widthPixels
        (ChainItem.textLink [ch] c.currentFontProperties.clone {} :: c.items) := by
      intro s2 f2 c2 hmem
      rcases List.mem_cons.mp hmem with he | hmem2
      · injection he with e1 e2 e3
        subst e1
        subst e2
        intro d hd
        rw [List.mem_singleton] at hd
        subst hd
        exact hfit
      · exact h1 s2 f2 c2 hmem2
    have hcnt1 : countCursor
        (ChainItem.textLink [ch] c.currentFontProperties.clone {} :: c.items) = 1 := by
      rw [countCursor_cons, h2]
      simp [ChainItem.isCursor]
    have hend1 : endsWithCursor
        (ChainItem.textLink [ch] c.currentFontProperties.clone {} :: c.items) = true := by
      rw [endsWithCursor_cons _ _ (by rw [hsplit, hpre]; simp)]
      exact h3
    obtain ⟨items', heq, htext, hfits', hcnt', hends'⟩ := recalc_inv
      { c with items :=
          ChainItem.textLink [ch] c.currentFontProperties.clone {} :: c.items }
      hfits1 hcnt1 hend1
    refine ⟨items', heq, ?_, hfits', hcnt', hends'⟩
    rw [htext]
    simp only
    rw [getText_cons, hgt, hpre]
    simp [getText]

/-- With the cursor last, pressing Enter succeeds, appends a newline to the
document text and preserves the invariants. -/
theorem enterPressed_step (c : Chain)
    (h1 : TextFits c.ctx c.widthPixels c.items)
    (h2 : countCursor c.items = 1)
    (h3 : endsWithCursor c.items = true) :
    ∃ items', c.enterPressed = some { c with items := items' } ∧
      getText items' = getText c.items ++ ['\n'] ∧
      TextFits c.ctx c.widthPixels items' ∧
      countCursor items' = 1 ∧
      endsWithCursor items' = true := by
  obtain ⟨n, hn⟩ := cursorIdx_isSome_of_pos c.items
    (countCursor_pos_of_endsWithCursor _ h3)
  obtain ⟨pre, cc, post, hsplit, hlen, hcnt⟩ := cursorIdx_split c.items n hn
  have hpost : post = [] := by
    cases hP : post with
    | nil => rfl
    | cons y ys =>
      exfalso
      rw [hsplit, hP] at h3
      rw [endsWithCursor_append_cons _ _ _ (by simp)] at h3
      have hpos := countCursor_pos_of_endsWithCursor _ h3
      rw [hsplit, hP, countCursor_append, countCursor_cons] at h2
      simp [ChainItem.isCursor] at h2
      omega
  subst hpost
  have hgt : getText c.items = getText pre := by
    rw [hsplit, getText_append, getText_cons]
    simp [getText]
  unfold Chain.enterPressed
  simp only [hn]
  have hins : insertClamp c.items n (ChainItem.newlineLink {}) =
      pre ++ ChainItem.newlineLink {} :: [ChainItem.cursorLink cc] := by
    rw [hsplit, ← hlen]
    exact insertClamp_at pre [ChainItem.cursorLink cc] _
  rw [hins]
  have hfits1 : TextFits c.ctx c.widthPixels
      (pre ++ ChainItem.newlineLink {} :: [ChainItem.cursorLink cc]) := by
    intro s2 f2 c2 hmem
    rw [List.mem_append, List.mem_cons, List.mem_singleton] at hmem
    rcases hmem with hq | he | he
    · refine h1 s2 f2 c2 ?_
      rw [hsplit]
      exact List.mem_append_left _ hq
    · exact absurd he (by simp)
    · exact absurd he (by simp)
  have hcnt1 : countCursor
      (pre ++ ChainItem.newlineLink {} :: [ChainItem.cursorLink cc]) = 1 := by
    rw [countCursor_append, countCursor_cons, hcnt]
    simp [countCursor, ChainItem.isCursor]
  have hend1 : endsWithCursor
      (pre ++ ChainItem.newlineLink {} :: [ChainItem.cursorLink cc]) = true := by
    rw [endsWithCursor_append_cons _ _ _ (by simp)]
    rfl
  obtain ⟨items', heq, htext, hfits', hcnt', hends'⟩ := recalc_inv
    { c with items := pre ++ ChainItem.newlineLink {} ::
        [ChainItem.cursorLink cc] } hfits1 hcnt1 hend1
  refine ⟨items', heq, ?_, hfits', hcnt', hends'⟩
  rw [htext]
  simp only
  rw [hgt, getText_append, getText_cons]
  simp [getText]

/-- The character-feeding fold of `setText`: starting from a chain that
satisfies the invariants, it succeeds and appends exactly the fed characters
to the document text, provided every non-newline character fits the wrap
width under the current font. -/
theorem setText_fold (s : Str) : ∀ (c : Chain),
    (∀ ch ∈ s, ch ≠ '\n' →
      measureTextWidth c.ctx c.currentFontProperties [ch] ≤ c.widthPixels) →
    TextFits c.ctx c.widthPixels c.items →
    countCursor c.items = 1 →
    endsWithCursor c.items = true →
    ∃ items', List.foldlM (fun ch2 char =>
        if char = '\n' then ch2.enterPressed else ch2.printableKeyPressed char)
        c s = some { c with items := items' } ∧
      getText items' = getText c.items ++ s := by
  induction s with
  | nil =>
    intro c hmeasure hf hc he
    exact ⟨c.items, rfl, by simp⟩
  | cons ch rest ih =>
    intro c hmeasure hf hc he
    rw [List.foldlM_cons]
    by_cases hch : ch = '\n'
    · subst hch
      rw [if_pos rfl]
      obtain ⟨i1, he1, ht1, hf1, hc1, hend1⟩ := enterPressed_step c hf hc he
      rw [he1]
      obtain ⟨i2, he2, ht2⟩ := ih { c with items := i1 }
        (fun d hd hne => hmeasure d (List.mem_cons_of_mem _ hd) hne) hf1 hc1 hend1
      refine ⟨i2, he2, ?_⟩
      rw [ht2]
      simp only
      rw [ht1]
      simp
    · rw [if_neg hch]
      obtain ⟨i1, he1, ht1, hf1, hc1, hend1⟩ := printableKeyPressed_step c ch
        (hmeasure ch (by simp) hch) hf hc he
      rw [he1]
      obtain ⟨i2, he2, ht2⟩ := ih { c with items := i1 }
        (fun d hd hne => hmeasure d (List.mem_cons_of_mem _ hd) hne) hf1 hc1 hend1
      refine ⟨i2, he2, ?_⟩
      rw [ht2]
      simp only
      rw [ht1]
      simp

/-! ## Claim C1 -/

/-- Counterexample to C1 as stated: the round-trip is claimed for any wrap
width and any measurer, but at wrap width 5 with 10-pixel characters
`setText "a"` drops the character (the greedy wrapper emits an empty piece
and discards it), so `getText` returns the empty string. -/
theorem C1_counterexample :
    ((Chain.mk0 5 ctx10 font16).setText ['a']).map (fun c' => getText c'.items) =
      some [] ∧ (['a'] : Str) ≠ [] := by
  constructor
  · decide
  · decide

/-- C1 (amended): `setText(s); getText() === s` for any string of printable
characters and newlines, for a wrap width and deterministic measurer under
which every individual non-newline character of `s` fits the wrap width in
the chain's current font. -/
theorem C1_setText_roundtrip (c : Chain) (s : Str)
    (h : ∀ ch ∈ s, ch ≠ '\n' →
      measureTextWidth c.ctx c.currentFontProperties [ch] ≤ c.widthPixels) :
    ∃ c', c.setText s = some c' ∧ getText c'.items = s := by
  unfold Chain.setText
  obtain ⟨items', heq, htext⟩ := setText_fold s
    { c with items := [ChainItem.cursorLink {}] }
    (fun ch hm hne => h ch hm hne)
    (TextFits_cursor _ _ _) rfl rfl
  refine ⟨{ c with items := items' }, heq, ?_⟩
  show getText items' = s
  rw [htext]
  rfl

/-- Witness for C1 at the 8-pixel measurer and wrap width 800. -/
theorem C1_witness :
    ∃ c', chain800.setText ['h', 'i', '\n', 'o', 'k'] = some c' ∧
      getText c'.items = ['h', 'i', '\n', 'o', 'k'] :=
  C1_setText_roundtrip chain800 ['h', 'i', '\n', 'o', 'k'] (by decide)

/-! ## Claim C2: the editing invariants -/

/-- No `TextLink` carries the empty string. -/
def noEmptyTextRun (l : List ChainItem) : Bool :=
  l.all fun it =>
    match it with
    | .textLink s _ _ => !s.isEmpty
    | _ => true

/-- No two adjacent `TextLink`s carry field-wise equal font properties. -/
def noAdjacentSameFont : List ChainItem → Bool
  | [] => true
  | [_] => true
  | x :: y :: rest =>
    (match x, y with
     | .textLink _ f _, .textLink _ g _ => !(f.doPropertiesMatch g)
     | _, _ => true) && noAdjacentSameFont (y :: rest)

theorem flattenedCharCount_go (l : List ChainItem) : ∀ acc : ℕ,
    l.foldl (fun acc it =>
      match it with
      | .textLink s _ _ => acc + s.length
      | .newlineLink _ => acc + 1
      | _ => acc) acc = acc + (getText l).length := by
  induction l with
  | nil => intro acc; simp [getText]
  | cons it rest ih =>
    intro acc
    rw [List.foldl_cons, getText_cons]
    cases it <;> simp [ih] <;> omega

/-- The flattened character count always equals the length of the
document text. -/
theorem flattenedCharCount_eq (l : List ChainItem) :
    flattenedCharCount l = (getText l).length := by
  rw [flattenedCharCount, flattenedCharCount_go]
  omega

theorem eraseIdx_at_append (q : List ChainItem) (x : ChainItem)
    (r : List ChainItem) : (q ++ x :: r).eraseIdx q.length = q ++ r := by
  induction q with
  | nil => rfl
  | cons a as ih =>
    simp only [List.cons_append, List.length_cons, List.eraseIdx_cons_succ]
    rw [ih]

/-- Erasing the cursor found by `cursorIdx` removes exactly one cursor. -/
theorem countCursor_eraseIdx_cursor (items : List ChainItem) (n : ℕ)
    (hn : cursorIdx items = some n) :
    countCursor (items.eraseIdx n) = countCursor items - 1 := by
  obtain ⟨pre, cc, post, hsplit, hlen, hcnt⟩ := cursorIdx_split items n hn
  subst hsplit
  rw [← hlen, eraseIdx_at_append, countCursor_append, countCursor_append,
    countCursor_cons, hcnt]
  simp [ChainItem.isCursor]

theorem countCursor_insertIdx (x : ChainItem) :
    ∀ (l : List ChainItem) (m : ℕ), m ≤ l.length →
      countCursor (l.insertIdx m x) =
        (if x.isCursor then 1 else 0) + countCursor l := by
  intro l
  induction l with
  | nil =>
    intro m hm
    have : m = 0 := by simpa using hm
    subst this
    rw [show ([] : List ChainItem).insertIdx 0 x = [x] from rfl,
      countCursor_cons, countCursor_nil]
  | cons a as ih =>
    intro m hm
    cases m with
    | zero =>
      rw [List.insertIdx_zero, countCursor_cons, countCursor_cons]
    | succ m2 =>
      rw [List.insertIdx_succ_cons, countCursor_cons, countCursor_cons,
        ih m2 (by simpa using hm)]
      omega

theorem countCursor_insertClamp (l : List ChainItem) (m : ℕ) (x : ChainItem) :
    countCursor (insertClamp l m x) =
      (if x.isCursor then 1 else 0) + countCursor l := by
  unfold insertClamp
  exact countCursor_insertIdx x l _ (min_le_right _ _)

/-- `listModify` with a kind-preserving function keeps the cursor count. -/
theorem countCursor_listModify (f : ChainItem → ChainItem)
    (hf : ∀ it, (f it).isCursor = it.isCursor) :
    ∀ (m : ℕ) (l : List ChainItem),
      countCursor (listModify f m l) = countCursor l := by
  intro m
  induction m with
  | zero =>
    intro l
    cases l with
    | nil => rfl
    | cons a as => rw [listModify, countCursor_cons, countCursor_cons, hf]
  | succ m2 ih =>
    intro l
    cases l with
    | nil => rfl
    | cons a as => rw [listModify, countCursor_cons, countCursor_cons, ih]

theorem withText_isCursor (s : Str) (it : ChainItem) :
    (withText s it).isCursor = it.isCursor := by
  cases it <;> rfl

/-- Erasing a non-cursor item keeps the cursor count. -/
theorem countCursor_eraseIdx_noncursor :
    ∀ (items : List ChainItem) (j : ℕ) (x : ChainItem),
      items[j]? = some x → x.isCursor = false →
      countCursor (items.eraseIdx j) = countCursor items := by
  intro items
  induction items with
  | nil => intro j x h _; simp at h
  | cons a as ih =>
    intro j x h hx
    cases j with
    | zero =>
      rw [List.getElem?_cons_zero, Option.some.injEq] at h
      subst h
      rw [List.eraseIdx_cons_zero, countCursor_cons, hx]
      simp
    | succ j2 =>
      rw [List.getElem?_cons_succ] at h
      rw [List.eraseIdx_cons_succ, countCursor_cons, countCursor_cons,
        ih j2 x h hx]

theorem countCursor_backspaceScanGo (items : List ChainItem) :
    ∀ (j : ℕ) (items1 : List ChainItem),
      backspaceScanGo items j = some items1 →
      countCursor items1 = countCursor items := by
  intro j
  induction j with
  | zero =>
    intro items1 h
    rw [backspaceScanGo] at h
    cases h
    rfl
  | succ j2 ih =>
    intro items1 h
    rw [backspaceScanGo] at h
    split at h
    · split at h
      · cases h
        exact countCursor_listModify _ (fun it => by cases it <;> rfl) _ _
      · exact ih _ h
    · rename_i heq
      cases h
      exact countCursor_eraseIdx_noncursor items j2 _ heq rfl
    · exact absurd h (by simp)
    · exact ih _ h
    · exact ih _ h

theorem countCursor_leftScanGo (items : List ChainItem) (n : ℕ)
    (hn : cursorIdx items = some n) (hc : countCursor items = 1) :
    ∀ (j : ℕ) (items1 : List ChainItem),
      leftScanGo items n j = some items1 → countCursor items1 = 1 := by
  have her : countCursor (items.eraseIdx n) = 0 := by
    rw [countCursor_eraseIdx_cursor _ _ hn, hc]
  intro j
  induction j with
  | zero =>
    intro items1 h
    rw [leftScanGo] at h
    cases h
    exact hc
  | succ j2 ih =>
    intro items1 h
    rw [leftScanGo] at h
    split at h
    · split at h
      · cases h
        rw [countCursor_insertClamp, her]
        rfl
      · simp only at h
        cases h
        rw [countCursor_insertClamp, countCursor_insertClamp,
          countCursor_listModify _ (withText_isCursor _), her]
        rfl
    · cases h
      rw [countCursor_insertClamp, her]
      rfl
    · exact absurd h (by simp)
    · exact ih _ h
    · exact ih _ h

theorem countCursor_rightScanGo (items : List ChainItem) (n : ℕ)
    (hn : cursorIdx items = some n) (hc : countCursor items = 1) :
    ∀ (rest : List ChainItem) (j : ℕ) (items1 : List ChainItem),
      rightScanGo items n j rest = some items1 → countCursor items1 = 1 := by
  have her : countCursor (items.eraseIdx n) = 0 := by
    rw [countCursor_eraseIdx_cursor _ _ hn, hc]
  intro rest
  induction rest with
  | nil =>
    intro j items1 h
    rw [show rightScanGo items n j [] = some items from rfl] at h
    cases h
    exact hc
  | cons it rest2 ih =>
    intro j items1 h
    cases it with
    | textLink s f cf =>
      rw [show rightScanGo items n j (ChainItem.textLink s f cf :: rest2) =
        (if s.length = 1 then
          some (insertClamp (items.eraseIdx n) ((j - 1) + 1) (ChainItem.cursorLink {}))
        else
          some (insertClamp
            (insertClamp (listModify (withText (s.drop 1)) (j - 1) (items.eraseIdx n))
              (j - 1) (ChainItem.textLink (s.take 1) f.clone {}))
            ((j - 1) + 1) (ChainItem.cursorLink {}))) from rfl] at h
      split at h
      · cases h
        rw [countCursor_insertClamp, her]
        rfl
      · cases h
        rw [countCursor_insertClamp, countCursor_insertClamp,
          countCursor_listModify _ (withText_isCursor _), her]
        rfl
    | newlineLink cf =>
      rw [show rightScanGo items n j (ChainItem.newlineLink cf :: rest2) =
        some (insertClamp (items.eraseIdx n) ((j - 1) + 1)
          (ChainItem.cursorLink {})) from rfl] at h
      cases h
      rw [countCursor_insertClamp, her]
      rfl
    | cursorLink cf =>
      exact absurd h (by
        rw [show rightScanGo items n j (ChainItem.cursorLink cf :: rest2) =
          none from rfl]
        simp)
    | virtualNewlineLink cf =>
      rw [show rightScanGo items n j (ChainItem.virtualNewlineLink cf :: rest2) =
        rightScanGo items n (j + 1) rest2 from rfl] at h
      exact ih _ _ h

theorem countCursor_recalc_one (c c' : Chain) (h : c.recalc = some c')
    (hc : countCursor c.items ≤ 1) : countCursor c'.items = 1 := by
  rw [countCursor_recalc c c' h]
  omega

theorem countCursor_moveCursorToCharPosition (c : Chain) (charPos : ℕ)
    (c' : Chain) (h : c.moveCursorToCharPosition charPos = some c')
    (hc : countCursor c.items = 1) : countCursor c'.items = 1 := by
  unfold Chain.moveCursorToCharPosition at h
  split at h
  · exact absurd h (by simp)
  · rename_i n hn
    simp only at h
    refine countCursor_recalc_one _ _ h ?_
    have her : countCursor (c.items.eraseIdx n) = 0 := by
      rw [countCursor_eraseIdx_cursor _ _ hn, hc]
    simp only
    generalize (if n < (getItemFromCharPosition c.items charPos).1 then
      (getItemFromCharPosition c.items charPos).1 - 1
      else (getItemFromCharPosition c.items charPos).1) = adj
    split
    · rw [countCursor_append, her]
      simp [countCursor, ChainItem.isCursor]
    · split
      all_goals try split
      all_goals try split
      all_goals first
        | (rw [countCursor_insertClamp, countCursor_insertClamp,
            countCursor_listModify _ (withText_isCursor _), her]
           simp [ChainItem.isCursor])
        | (rw [countCursor_insertClamp,
            countCursor_listModify _ (withText_isCursor _), her]
           simp [ChainItem.isCursor])
        | (rw [countCursor_insertClamp, her]
           simp [ChainItem.isCursor])

theorem countCursor_emptyLineGo (cf : FontProperties) (items : List ChainItem)
    (y : ℚ) (hc : countCursor items = 1) :
    ∀ (rest : List ChainItem) (i : ℕ) (items1 : List ChainItem),
      emptyLineGo cf items y i rest = some (some items1) →
      countCursor items1 = 1 := by
  intro rest
  induction rest with
  | nil =>
    intro i items1 h
    rw [show emptyLineGo cf items y i [] = some none from rfl] at h
    simp at h
  | cons it rest2 ih =>
    intro i items1 h
    rw [emptyLineGo.eq_def] at h
    simp only at h
    split at h
    · split at h
      · split at h
        · split at h
          · exact absurd h (by simp)
          · rename_i n2 hn2
            rw [Option.some.injEq, Option.some.injEq] at h
            subst h
            rw [countCursor_insertClamp, countCursor_eraseIdx_cursor _ _ hn2, hc]
            rfl
        · exact ih _ _ h
      · exact ih _ _ h
    · exact ih _ _ h

theorem countCursor_printableKeyPressed (c : Chain) (ch : Char) (c' : Chain)
    (h : c.printableKeyPressed ch = some c') (hc : countCursor c.items = 1) :
    countCursor c'.items = 1 := by
  unfold Chain.printableKeyPressed at h
  split at h
  · exact absurd h (by simp)
  · rename_i n hn
    split at h
    · split at h
      · split at h
        · refine countCursor_recalc_one _ _ h ?_
          simp only
          rw [countCursor_listModify _ (fun it => by cases it <;> rfl), hc]
        · refine countCursor_recalc_one _ _ h ?_
          simp only
          rw [countCursor_insertClamp, hc]
          simp [ChainItem.isCursor]
      · refine countCursor_recalc_one _ _ h ?_
        simp only
        rw [countCursor_insertClamp, hc]
        simp [ChainItem.isCursor]
      · refine countCursor_recalc_one _ _ h ?_
        simp only
        rw [countCursor_insertClamp, hc]
        simp [ChainItem.isCursor]
      · exact absurd h (by simp)
      · refine countCursor_recalc_one _ _ h ?_
        simp only
        rw [hc]
    · refine countCursor_recalc_one _ _ h ?_
      simp only
      rw [countCursor_cons, hc]
      simp [ChainItem.isCursor]

theorem countCursor_enterPressed (c : Chain) (c' : Chain)
    (h : c.enterPressed = some c') (hc : countCursor c.items = 1) :
    countCursor c'.items = 1 := by
  unfold Chain.enterPressed at h
  split at h
  · exact absurd h (by simp)
  · rename_i n hn
    refine countCursor_recalc_one _ _ h ?_
    simp only
    rw [countCursor_insertClamp, hc]
    simp [ChainItem.isCursor]

theorem countCursor_backspacePressed (c : Chain) (c' : Chain)
    (h : c.backspacePressed = some c') (hc : countCursor c.items = 1) :
    countCursor c'.items = 1 := by
  unfold Chain.backspacePressed at h
  split at h
  · exact absurd h (by simp)
  · rename_i n hn
    simp only at h
    split at h
    · exact absurd h (by simp)
    · rename_i items1 hstep
      refine countCursor_recalc_one _ _ h ?_
      split at hstep
      · have h2 := countCursor_backspaceScanGo _ _ _ hstep
        exact le_of_eq (h2.trans hc)
      · rw [Option.some.injEq] at hstep
        subst hstep
        exact le_of_eq hc

theorem countCursor_leftArrowPressed (c : Chain) (c' : Chain)
    (h : c.leftArrowPressed = some c') (hc : countCursor c.items = 1) :
    countCursor c'.items = 1 := by
  unfold Chain.leftArrowPressed at h
  simp only at h
  split at h
  · split at h
    · rename_i spos hsel
      rw [Option.map_eq_some'] at h
      obtain ⟨cm, hm, hc'⟩ := h
      subst hc'
      exact countCursor_moveCursorToCharPosition _ spos cm hm hc
    · exact absurd h (by simp)
  · split at h
    · exact absurd h (by simp)
    · rename_i n hn
      split at h
      · exact absurd h (by simp)
      · rename_i items1 hstep
        refine countCursor_recalc_one _ _ h ?_
        split at hstep
        · exact le_of_eq (countCursor_leftScanGo _ _ hn hc _ _ hstep)
        · rw [Option.some.injEq] at hstep
          subst hstep
          exact le_of_eq hc

theorem countCursor_rightArrowPressed (c : Chain) (c' : Chain)
    (h : c.rightArrowPressed = some c') (hc : countCursor c.items = 1) :
    countCursor c'.items = 1 := by
  unfold Chain.rightArrowPressed at h
  simp only at h
  split at h
  · split at h
    · rename_i spos hsel
      rw [Option.map_eq_some'] at h
      obtain ⟨cm, hm, hc'⟩ := h
      subst hc'
      exact countCursor_moveCursorToCharPosition _ spos cm hm hc
    · exact absurd h (by simp)
  · split at h
    · exact absurd h (by simp)
    · rename_i n hn
      split at h
      · exact absurd h (by simp)
      · rename_i items1 hstep
        refine countCursor_recalc_one _ _ h ?_
        split at hstep
        · exact le_of_eq (countCursor_rightScanGo _ _ hn hc _ _ _ hstep)
        · rw [Option.some.injEq] at hstep
          subst hstep
          exact le_of_eq hc

theorem countCursor_clicked (c : Chain) (x y : ℚ) (c' : Chain)
    (h : c.clicked x y = some c') (hc : countCursor c.items = 1) :
    countCursor c'.items = 1 := by
  unfold Chain.clicked at h
  simp only at h
  split at h
  · split at h
    · exact absurd h (by simp)
    · rename_i n hn
      refine countCursor_recalc_one _ _ h ?_
      simp only
      rw [countCursor_insertClamp, countCursor_insertClamp,
        countCursor_listModify _ (withText_isCursor _),
        countCursor_eraseIdx_cursor _ _ hn, hc]
      simp [ChainItem.isCursor]
  · split at h
    · split at h
      · split at h
        · exact absurd h (by simp)
        · rename_i n hn
          split at h
          · refine countCursor_recalc_one _ _ h ?_
            simp only
            rw [countCursor_insertClamp, countCursor_eraseIdx_cursor _ _ hn, hc]
            simp [ChainItem.isCursor]
          · refine countCursor_recalc_one _ _ h ?_
            simp only
            rw [countCursor_insertClamp, countCursor_eraseIdx_cursor _ _ hn, hc]
            simp [ChainItem.isCursor]
      · exact absurd h (by simp)
    · split at h
      · exact absurd h (by simp)
      · rename_i items1 hempty
        exact countCursor_recalc_one _ _ h
          (le_of_eq (countCursor_emptyLineGo _ _ _ hc _ _ _ hempty))
      · split at h
        · exact absurd h (by simp)
        · rename_i n hn
          split at h
          · refine countCursor_recalc_one _ _ h ?_
            simp only
            rw [countCursor_cons, countCursor_eraseIdx_cursor _ _ hn, hc]
            simp [ChainItem.isCursor]
          · refine countCursor_recalc_one _ _ h ?_
            simp only
            rw [countCursor_append, countCursor_eraseIdx_cursor _ _ hn, hc]
            simp [countCursor, ChainItem.isCursor]

theorem countCursor_upArrowPressed (c : Chain) (c' : Chain)
    (h : c.upArrowPressed = some c') (hc : countCursor c.items = 1) :
    countCursor c'.items = 1 := by
  unfold Chain.upArrowPressed at h
  split at h
  · exact absurd h (by simp)
  · rename_i n hn
    simp only at h
    split at h
    · refine countCursor_recalc_one _ _ h ?_
      simp only
      rw [countCursor_cons, countCursor_eraseIdx_cursor _ _ hn, hc]
      simp [ChainItem.isCursor]
    · split at h
      · exact absurd h (by simp)
      · exact countCursor_clicked _ _ _ _ h hc

theorem countCursor_downArrowPressed (c : Chain) (c' : Chain)
    (h : c.downArrowPressed = some c') (hc : countCursor c.items = 1) :
    countCursor c'.items = 1 := by
  unfold Chain.downArrowPressed at h
  split at h
  · exact absurd h (by simp)
  · rename_i n hn
    simp only at h
    split at h
    · refine countCursor_recalc_one _ _ h ?_
      simp only
      rw [countCursor_append, countCursor_eraseIdx_cursor _ _ hn, hc]
      simp [countCursor, ChainItem.isCursor]
    · split at h
      · exact absurd h (by simp)
      · exact countCursor_clicked _ _ _ _ h hc

theorem countCursor_applyOp (c : Chain) (op : ChainOp) (c' : Chain)
    (h : c.applyOp op = some c') (hc : countCursor c.items = 1) :
    countCursor c'.items = 1 := by
  cases op with
  | printable ch => exact countCursor_printableKeyPressed _ _ _ h hc
  | enter => exact countCursor_enterPressed _ _ h hc
  | backspace => exact countCursor_backspacePressed _ _ h hc
  | leftArrow => exact countCursor_leftArrowPressed _ _ h hc
  | rightArrow => exact countCursor_rightArrowPressed _ _ h hc
  | upArrow => exact countCursor_upArrowPressed _ _ h hc
  | downArrow => exact countCursor_downArrowPressed _ _ h hc
  | click x y => exact countCursor_clicked _ _ _ _ h hc

/-- The invariants of claim C2 that actually hold: when an operation
sequence succeeds, the resulting chain has exactly one cursor and its
flattened character count equals the length of `getText`. -/
def chainInvariantsHold : Option Chain → Prop
  | none => True
  | some c' => countCursor c'.items = 1 ∧
      flattenedCharCount c'.items = (getText c'.items).length

theorem applyOps_invariants (ops : List ChainOp) : ∀ (c : Chain),
    countCursor c.items = 1 → chainInvariantsHold (c.applyOps ops) := by
  induction ops with
  | nil =>
    intro c hc
    exact ⟨hc, flattenedCharCount_eq _⟩
  | cons op ops2 ih =>
    intro c hc
    rw [Chain.applyOps, List.foldlM_cons]
    cases happ : c.applyOp op with
    | none => exact trivial
    | some c1 => exact ih c1 (countCursor_applyOp _ _ _ happ hc)

/-- Counterexample to C2 as stated: typing "a" then a space leaves two
adjacent `TextLink`s ("a" and " ") with field-wise equal font properties —
the whitespace chunking pass runs after the merge pass, so its output is
never re-merged. -/
theorem C2_counterexample :
    ((chain800.applyOps [ChainOp.printable 'a', ChainOp.printable ' ']).map
      (fun c' => noAdjacentSameFont c'.items)) = some false := by
  decide

/-- C2 (amended): after any finite sequence of insert, delete and navigate
operations on a freshly constructed chain, the item list contains exactly
one cursor and the flattened character count equals the length of
`getText()`; the claimed "no empty run" and "no adjacent equal-font runs"
clauses do not hold in general. -/
theorem C2_invariants (W : ℚ) (ctx : Ctx) (f0 : FontProperties)
    (ops : List ChainOp) :
    chainInvariantsHold ((Chain.mk0 W ctx f0).applyOps ops) :=
  applyOps_invariants ops (Chain.mk0 W ctx f0) rfl

/-! ## Claim C4: undo/redo -/

/-- The document text recorded in a snapshot. -/
def snapText (l : List SnapItem) : Str :=
  l.flatMap fun it =>
    match it with
    | .text s _ _ _ _ => s
    | .newline => ['\n']
    | .cursor => []

theorem getText_restoreItems (l : List SnapItem) :
    getText (restoreItems l) = snapText l := by
  induction l with
  | nil => rfl
  | cons it rest ih =>
    cases it with
    | text s size family weight style =>
      show s ++ getText (restoreItems rest) = s ++ snapText rest
      rw [ih]
    | cursor =>
      show getText (restoreItems rest) = snapText rest
      exact ih
    | newline =>
      show '\n' :: getText (restoreItems rest) = '\n' :: snapText rest
      rw [ih]

theorem snapText_takeSnapshotItems (items : List ChainItem) :
    snapText (takeSnapshotItems items) = getText items := by
  induction items with
  | nil => rfl
  | cons it rest ih =>
    cases it with
    | textLink s f c =>
      show s ++ snapText (takeSnapshotItems rest) = s ++ getText rest
      rw [ih]
    | cursorLink c =>
      show snapText (takeSnapshotItems rest) = getText rest
      exact ih
    | newlineLink c =>
      show '\n' :: snapText (takeSnapshotItems rest) = '\n' :: getText rest
      rw [ih]
    | virtualNewlineLink c =>
      show snapText (takeSnapshotItems rest) = getText rest
      exact ih

theorem countCursor_restore_take (items : List ChainItem) :
    countCursor (restoreItems (takeSnapshotItems items)) = countCursor items := by
  induction items with
  | nil => rfl
  | cons it rest ih =>
    cases it with
    | textLink s f c =>
      rw [show restoreItems (takeSnapshotItems (ChainItem.textLink s f c :: rest)) =
        ChainItem.textLink s (FontProperties.ofBasic f.size f.family f.weight f.style)
          {} :: restoreItems (takeSnapshotItems rest) from rfl]
      rw [countCursor_cons, countCursor_cons, ih]
      rfl
    | cursorLink c =>
      rw [show restoreItems (takeSnapshotItems (ChainItem.cursorLink c :: rest)) =
        ChainItem.cursorLink {} :: restoreItems (takeSnapshotItems rest) from rfl]
      rw [countCursor_cons, countCursor_cons, ih]
      rfl
    | newlineLink c =>
      rw [show restoreItems (takeSnapshotItems (ChainItem.newlineLink c :: rest)) =
        ChainItem.newlineLink {} :: restoreItems (takeSnapshotItems rest) from rfl]
      rw [countCursor_cons, countCursor_cons, ih]
      rfl
    | virtualNewlineLink c =>
      rw [show restoreItems (takeSnapshotItems (ChainItem.virtualNewlineLink c :: rest)) =
        restoreItems (takeSnapshotItems rest) from rfl]
      rw [countCursor_cons, ih]
      simp [ChainItem.isCursor]

theorem endsWithCursor_restore_take (items : List ChainItem)
    (h : endsWithCursor items = true) :
    endsWithCursor (restoreItems (takeSnapshotItems items)) = true := by
  obtain ⟨pre, c, he⟩ := endsWithCursor_decomp items h
  subst he
  unfold takeSnapshotItems restoreItems
  rw [List.filterMap_append, List.map_append]
  exact endsWithCursor_concat _ _

theorem toFontString_ofBasic (f : FontProperties) :
    (FontProperties.ofBasic f.size f.family f.weight f.style).toFontString =
      f.toFontString := rfl

theorem mem_restore_take (items : List ChainItem) :
    ∀ s fb cb, ChainItem.textLink s fb cb ∈ restoreItems (takeSnapshotItems items) →
      ∃ f c0, ChainItem.textLink s f c0 ∈ items ∧
        fb = FontProperties.ofBasic f.size f.family f.weight f.style := by
  induction items with
  | nil => intro s fb cb h; simp [takeSnapshotItems, restoreItems] at h
  | cons it rest ih =>
    intro s fb cb h
    cases it with
    | textLink s1 f1 c1 =>
      simp only [takeSnapshotItems, List.filterMap_cons, restoreItems,
        List.map_cons] at h
      rcases List.mem_cons.mp h with he | hm
      · injection he with e1 e2 e3
        subst e1
        subst e2
        exact ⟨f1, c1, by simp, rfl⟩
      · obtain ⟨f, c0, hmem, hf⟩ := ih s fb cb hm
        exact ⟨f, c0, List.mem_cons_of_mem _ hmem, hf⟩
    | cursorLink c1 =>
      simp only [takeSnapshotItems, List.filterMap_cons, restoreItems,
        List.map_cons] at h
      rcases List.mem_cons.mp h with he | hm
      · exact absurd he (by simp)
      · obtain ⟨f, c0, hmem, hf⟩ := ih s fb cb hm
        exact ⟨f, c0, List.mem_cons_of_mem _ hmem, hf⟩
    | newlineLink c1 =>
      simp only [takeSnapshotItems, List.filterMap_cons, restoreItems,
        List.map_cons] at h
      rcases List.mem_cons.mp h with he | hm
      · exact absurd he (by simp)
      · obtain ⟨f, c0, hmem, hf⟩ := ih s fb cb hm
        exact ⟨f, c0, List.mem_cons_of_mem _ hmem, hf⟩
    | virtualNewlineLink c1 =>
      simp only [takeSnapshotItems, List.filterMap_cons, restoreItems] at h
      obtain ⟨f, c0, hmem, hf⟩ := ih s fb cb h
      exact ⟨f, c0, List.mem_cons_of_mem _ hmem, hf⟩

theorem TextFits_restore_take (ctx : Ctx) (W : ℚ) (items : List ChainItem)
    (h : TextFits ctx W items) :
    TextFits ctx W (restoreItems (takeSnapshotItems items)) := by
  intro s fb cb hm
  obtain ⟨f, c0, hmem, hf⟩ := mem_restore_take items s fb cb hm
  intro ch hch
  have := h s f c0 hmem ch hch
  subst hf
  unfold measureTextWidth at this ⊢
  rw [toFontString_ofBasic]
  exact this

/-- A snapshot whose restoration supports the chain invariants. -/
def SnapOk (ctx : Ctx) (W : ℚ) (s : Snapshot) : Prop :=
  TextFits ctx W (restoreItems s.items) ∧
  countCursor (restoreItems s.items) = 1 ∧
  endsWithCursor (restoreItems s.items) = true ∧
  s.selectionStart = none ∧ s.selectionEnd = none

theorem SnapOk_snapshotOf (ctx : Ctx) (W : ℚ) (c : Chain)
    (hsel1 : c.selectionStart = none) (hsel2 : c.selectionEnd = none)
    (h1 : TextFits ctx W c.items) (h2 : countCursor c.items = 1)
    (h3 : endsWithCursor c.items = true) : SnapOk ctx W (snapshotOf c) := by
  refine ⟨TextFits_restore_take _ _ _ h1, ?_,
    endsWithCursor_restore_take _ h3, hsel1, hsel2⟩
  rw [show (snapshotOf c).items = takeSnapshotItems c.items from rfl,
    countCursor_restore_take]
  exact h2

theorem endsWithCursor_singleton (x : ChainItem) :
    endsWithCursor [x] = x.isCursor := by
  cases x <;> rfl

theorem listModify_length (f : ChainItem → ChainItem) :
    ∀ (j : ℕ) (l : List ChainItem), (listModify f j l).length = l.length := by
  intro j
  induction j with
  | zero =>
    intro l
    cases l <;> rfl
  | succ j2 ih =>
    intro l
    cases l with
    | nil => rfl
    | cons a as =>
      rw [listModify, List.length_cons, List.length_cons, ih]

theorem endsWithCursor_listModify (f : ChainItem → ChainItem)
    (hf : ∀ it, (f it).isCursor = it.isCursor) :
    ∀ (j : ℕ) (l : List ChainItem),
      endsWithCursor (listModify f j l) = endsWithCursor l := by
  intro j
  induction j with
  | zero =>
    intro l
    cases l with
    | nil => rfl
    | cons a as =>
      rw [listModify]
      cases hr : as with
      | nil =>
        subst hr
        rw [endsWithCursor_singleton, endsWithCursor_singleton, hf]
      | cons y ys =>
        subst hr
        rw [endsWithCursor_cons (f a) _ (by simp),
          endsWithCursor_cons a _ (by simp)]
  | succ j2 ih =>
    intro l
    cases l with
    | nil => rfl
    | cons a as =>
      rw [listModify]
      cases hr : as with
      | nil =>
        subst hr
        rw [listModify]
      | cons y ys =>
        subst hr
        rw [endsWithCursor_cons a (listModify f j2 (y :: ys))
            (by rw [← List.length_pos_iff_ne_nil, listModify_length]; simp),
          endsWithCursor_cons a (y :: ys) (by simp), ih]

theorem mem_listModify (f : ChainItem → ChainItem) :
    ∀ (j : ℕ) (l : List ChainItem) (it : ChainItem),
      it ∈ listModify f j l → it ∈ l ∨ ∃ x, x ∈ l ∧ it = f x := by
  intro j
  induction j with
  | zero =>
    intro l it h
    cases l with
    | nil => exact Or.inl h
    | cons a as =>
      rw [listModify] at h
      rcases List.mem_cons.mp h with he | hm
      · exact Or.inr ⟨a, by simp, he⟩
      · exact Or.inl (List.mem_cons_of_mem _ hm)
  | succ j2 ih =>
    intro l it h
    cases l with
    | nil => exact Or.inl h
    | cons a as =>
      rw [listModify] at h
      rcases List.mem_cons.mp h with he | hm
      · exact Or.inl (by simp [he])
      · rcases ih as it hm with hm2 | ⟨x, hx, he2⟩
        · exact Or.inl (List.mem_cons_of_mem _ hm2)
        · exact Or.inr ⟨x, List.mem_cons_of_mem _ hx, he2⟩

theorem TextFits_eraseIdx (ctx : Ctx) (W : ℚ) (l : List ChainItem) (j : ℕ)
    (h : TextFits ctx W l) : TextFits ctx W (l.eraseIdx j) :=
  fun s f c hm => h s f c (List.eraseIdx_subset _ _ hm)

theorem endsWithCursor_eraseIdx_noncursor :
    ∀ (items : List ChainItem) (j : ℕ) (x : ChainItem),
      items[j]? = some x → x.isCursor = false →
      endsWithCursor items = true → endsWithCursor (items.eraseIdx j) = true := by
  intro items
  induction items with
  | nil => intro j x h _ _; simp at h
  | cons a as ih =>
    intro j x h hx hend
    cases j with
    | zero =>
      rw [List.getElem?_cons_zero, Option.some.injEq] at h
      subst h
      cases hr : as with
      | nil =>
        subst hr
        rw [endsWithCursor_singleton, hx] at hend
        cases hend
      | cons y ys =>
        subst hr
        rw [endsWithCursor_cons _ _ (by simp)] at hend
        rw [List.eraseIdx_cons_zero]
        exact hend
    | succ j2 =>
      rw [List.getElem?_cons_succ] at h
      cases hr : as with
      | nil =>
        subst hr
        simp at h
      | cons y ys =>
        subst hr
        rw [endsWithCursor_cons _ _ (by simp)] at hend
        have h2 := ih j2 x h hx hend
        rw [List.eraseIdx_cons_succ, endsWithCursor_cons _ _
          (endsWithCursor_ne_nil h2)]
        exact h2

theorem backspaceScanGo_inv (ctx : Ctx) (W : ℚ) (items : List ChainItem)
    (hfit : TextFits ctx W items) (hend : endsWithCursor items = true) :
    ∀ (j : ℕ),
      (∀ (m : ℕ) (x : ChainItem), m < j → items[m]? = some x →
        x.isCursor = false) →
      ∃ items1, backspaceScanGo items j = some items1 ∧
        TextFits ctx W items1 ∧ endsWithCursor items1 = true := by
  intro j
  induction j with
  | zero =>
    intro hnc
    exact ⟨items, rfl, hfit, hend⟩
  | succ j2 ih =>
    intro hnc
    rw [backspaceScanGo]
    split
    · rename_i s f c hj
      by_cases hs : s.length > 0
      · rw [if_pos hs]
        refine ⟨_, rfl, ?_, ?_⟩
        · intro s2 f2 c2 hm
          rcases mem_listModify _ _ _ _ hm with hm2 | ⟨x2, hx2, he2⟩
          · exact hfit s2 f2 c2 hm2
          · cases x2 with
            | textLink s3 f3 c3 =>
              simp only at he2
              injection he2 with e1 e2 e3
              subst e1
              subst e2
              intro ch hch
              exact hfit s3 _ c3 hx2 ch (List.dropLast_subset _ hch)
            | cursorLink c3 =>
              simp only at he2
              exact absurd he2 (by simp)
            | newlineLink c3 =>
              simp only at he2
              exact absurd he2 (by simp)
            | virtualNewlineLink c3 =>
              simp only at he2
              exact absurd he2 (by simp)
        · rw [endsWithCursor_listModify _ (fun it => by cases it <;> rfl)]
          exact hend
      · rw [if_neg hs]
        exact ih (fun m x hm => hnc m x (by omega))
    · rename_i c hj
      refine ⟨_, rfl, TextFits_eraseIdx _ _ _ _ hfit, ?_⟩
      exact endsWithCursor_eraseIdx_noncursor items j2 _ hj rfl hend
    · rename_i c hj
      exact absurd (hnc j2 _ (by omega) hj) (by simp [ChainItem.isCursor])
    · exact ih (fun m x hm => hnc m x (by omega))
    · exact ih (fun m x hm => hnc m x (by omega))

theorem notCursor_of_countZero (l : List ChainItem) (h : countCursor l = 0)
    (x : ChainItem) (hx : x ∈ l) : x.isCursor = false := by
  by_contra hc
  rw [Bool.not_eq_false] at hc
  have : 0 < countCursor l := by
    rw [countCursor]
    exact List.countP_pos.mpr ⟨x, hx, by simp [hc]⟩
  omega

theorem backspacePressed_step (c : Chain)
    (h1 : TextFits c.ctx c.widthPixels c.items)
    (h2 : countCursor c.items = 1)
    (h3 : endsWithCursor c.items = true) :
    ∃ items', c.backspacePressed = some { c with items := items' } ∧
      TextFits c.ctx c.widthPixels items' ∧
      countCursor items' = 1 ∧
      endsWithCursor items' = true := by
  obtain ⟨n, hn⟩ := cursorIdx_isSome_of_pos c.items
    (countCursor_pos_of_endsWithCursor _ h3)
  obtain ⟨pre, cc, post, hsplit, hlen, hcnt⟩ := cursorIdx_split c.items n hn
  have hnc : ∀ (m : ℕ) (x : ChainItem), m < n → c.items[m]? = some x →
      x.isCursor = false := by
    intro m x hm hx
    apply notCursor_of_countZero pre hcnt
    rw [hsplit] at hx
    rw [List.getElem?_append_left (by omega)] at hx
    exact List.getElem?_mem hx
  unfold Chain.backspacePressed
  simp only [hn]
  by_cases hn0 : n > 0
  · rw [if_pos hn0]
    obtain ⟨items1, hscan, hfit1, hend1⟩ :=
      backspaceScanGo_inv c.ctx c.widthPixels c.items h1 h3 n hnc
    rw [hscan]
    have hcnt1 : countCursor items1 = 1 := by
      rw [countCursor_backspaceScanGo _ _ _ hscan, h2]
    obtain ⟨items', heq, htext, hfits', hcnt', hends'⟩ :=
      recalc_inv { c with items := items1 } hfit1 hcnt1 hend1
    exact ⟨items', heq, hfits', hcnt', hends'⟩
  · rw [if_neg hn0]
    obtain ⟨items', heq, htext, hfits', hcnt', hends'⟩ := recalc_inv c h1 h2 h3
    exact ⟨items', heq, hfits', hcnt', hends'⟩

theorem takeSnapshot_spec (e : CanvasEditor) (k : ℕ)
    (hidx : e.historyIndex = (k : ℤ)) (hlen : e.history.length = k + 1)
    (hcap : k + 2 ≤ 100) :
    e.takeSnapshot = { e with
      history := e.history ++ [snapshotOf e.chain]
      historyIndex := (k : ℤ) + 1 } := by
  unfold CanvasEditor.takeSnapshot
  simp only [hidx]
  split
  · rename_i hcond
    exact absurd hcond (by rw [hlen]; push_cast; omega)
  · split
    · rename_i hcond2
      refine absurd hcond2 ?_
      simp only [List.length_append, List.length_cons, List.length_nil, hlen,
        maxHistorySize]
      omega
    · rfl

theorem restoreSnapshot_spec (W : ℚ) (ctx : Ctx) (f0 : FontProperties)
    (e : CanvasEditor) (itemsX : List ChainItem)
    (hch : e.chain = { Chain.mk0 W ctx f0 with items := itemsX })
    (s : Snapshot) (hs : SnapOk ctx W s) :
    ∃ items', e.restoreSnapshot s =
      some { e with chain := { Chain.mk0 W ctx f0 with items := items' } } ∧
      getText items' = snapText s.items ∧
      TextFits ctx W items' ∧ countCursor items' = 1 ∧
      endsWithCursor items' = true := by
  obtain ⟨hf, hc, he, hs1, hs2⟩ := hs
  have hc1 : ({ e.chain with
      items := restoreItems s.items
      selectionStart := s.selectionStart
      selectionEnd := s.selectionEnd } : Chain) =
      { Chain.mk0 W ctx f0 with items := restoreItems s.items } := by
    rw [hch, hs1, hs2]
    rfl
  unfold CanvasEditor.restoreSnapshot
  simp only [hc1]
  obtain ⟨items', heq, htext, hfits, hcnt, hends⟩ :=
    recalc_inv { Chain.mk0 W ctx f0 with items := restoreItems s.items }
      hf hc he
  refine ⟨items', ?_, ?_, hfits, hcnt, hends⟩
  · rw [heq, Option.map_some']
  · rw [htext]
    exact getText_restoreItems s.items

/-- The fit condition an edit needs for the pipeline to succeed. -/
def EdFits (ctx : Ctx) (W : ℚ) (f0 : FontProperties) : EditorEdit → Prop
  | .printable ch => measureTextWidth ctx f0 [ch] ≤ W
  | .enter => True
  | .backspace => True

theorem applyEdit_step (W : ℚ) (ctx : Ctx) (f0 : FontProperties)
    (e : CanvasEditor) (k : ℕ) (itemsX : List ChainItem) (ed : EditorEdit)
    (hch : e.chain = { Chain.mk0 W ctx f0 with items := itemsX })
    (h1 : TextFits ctx W itemsX) (h2 : countCursor itemsX = 1)
    (h3 : endsWithCursor itemsX = true)
    (hidx : e.historyIndex = (k : ℤ)) (hlen : e.history.length = k + 1)
    (hcap : k + 2 ≤ 100) (hfit : EdFits ctx W f0 ed) :
    ∃ items2, e.applyEdit ed = some
      { chain := { Chain.mk0 W ctx f0 with items := items2 }
        history := e.history ++ [snapshotOf e.chain]
        historyIndex := (k : ℤ) + 1 } ∧
      TextFits ctx W items2 ∧ countCursor items2 = 1 ∧
      endsWithCursor items2 = true := by
  cases ed with
  | printable ch =>
    obtain ⟨items', hop, htext, hfits', hcnt', hends'⟩ :=
      printableKeyPressed_step { Chain.mk0 W ctx f0 with items := itemsX } ch
        hfit h1 h2 h3
    refine ⟨items', ?_, hfits', hcnt', hends'⟩
    rw [show e.applyEdit (EditorEdit.printable ch) =
      (e.takeSnapshot.chain.printableKeyPressed ch).map
        (fun c2 => { e.takeSnapshot with chain := c2 }) from rfl]
    rw [takeSnapshot_spec e k hidx hlen hcap]
    have hch2 : ({ e with history := e.history ++ [snapshotOf e.chain], historyIndex := (k : ℤ) + 1 } : CanvasEditor).chain = { Chain.mk0 W ctx f0 with items := itemsX } := hch
    rw [hch2, hop, Option.map_some']
  | enter =>
    obtain ⟨items', hop, htext, hfits', hcnt', hends'⟩ :=
      enterPressed_step { Chain.mk0 W ctx f0 with items := itemsX } h1 h2 h3
    refine ⟨items', ?_, hfits', hcnt', hends'⟩
    rw [show e.applyEdit EditorEdit.enter =
      e.takeSnapshot.chain.enterPressed.map
        (fun c2 => { e.takeSnapshot with chain := c2 }) from rfl]
    rw [takeSnapshot_spec e k hidx hlen hcap]
    have hch2 : ({ e with history := e.history ++ [snapshotOf e.chain], historyIndex := (k : ℤ) + 1 } : CanvasEditor).chain = { Chain.mk0 W ctx f0 with items := itemsX } := hch
    rw [hch2, hop, Option.map_some']
  | backspace =>
    obtain ⟨items', hop, hfits', hcnt', hends'⟩ :=
      backspacePressed_step { Chain.mk0 W ctx f0 with items := itemsX } h1 h2 h3
    refine ⟨items', ?_, hfits', hcnt', hends'⟩
    rw [show e.applyEdit EditorEdit.backspace =
      e.takeSnapshot.chain.backspacePressed.map
        (fun c2 => { e.takeSnapshot with chain := c2 }) from rfl]
    rw [takeSnapshot_spec e k hidx hlen hcap]
    have hch2 : ({ e with history := e.history ++ [snapshotOf e.chain], historyIndex := (k : ℤ) + 1 } : CanvasEditor).chain = { Chain.mk0 W ctx f0 with items := itemsX } := hch
    rw [hch2, hop, Option.map_some']

/-- The editor invariant after `k` successful snapshotted edits. -/
def EditorInv (W : ℚ) (ctx : Ctx) (f0 : FontProperties)
    (e : CanvasEditor) (k : ℕ) : Prop :=
  (∃ items, e.chain = { Chain.mk0 W ctx f0 with items := items } ∧
    TextFits ctx W items ∧ countCursor items = 1 ∧
    endsWithCursor items = true) ∧
  e.historyIndex = (k : ℤ) ∧
  e.history.length = k + 1 ∧
  e.history[0]? = some (snapshotOf (Chain.mk0 W ctx f0)) ∧
  ∀ s ∈ e.history, SnapOk ctx W s

theorem applyEdits_inv (W : ℚ) (ctx : Ctx) (f0 : FontProperties) :
    ∀ (eds : List EditorEdit) (e : CanvasEditor) (k : ℕ),
      EditorInv W ctx f0 e k → k + eds.length + 1 ≤ 100 →
      (∀ ed ∈ eds, EdFits ctx W f0 ed) →
      ∃ e', e.applyEdits eds = some e' ∧
        EditorInv W ctx f0 e' (k + eds.length) := by
  intro eds
  induction eds with
  | nil =>
    intro e k hinv _ _
    exact ⟨e, rfl, by simpa using hinv⟩
  | cons ed rest ih =>
    intro e k hinv hcap hfit
    obtain ⟨⟨items, hch, hf, hc, he⟩, hidx, hlen, h0, hall⟩ := hinv
    obtain ⟨items2, happ, hf2, hc2, he2⟩ := applyEdit_step W ctx f0 e k items ed
      hch hf hc he hidx hlen (by simp at hcap ⊢; omega) (hfit ed (by simp))
    rw [CanvasEditor.applyEdits, List.foldlM_cons, happ]
    have hinv2 : EditorInv W ctx f0
        { chain := { Chain.mk0 W ctx f0 with items := items2 }
          history := e.history ++ [snapshotOf e.chain]
          historyIndex := (k : ℤ) + 1 } (k + 1) := by
      refine ⟨⟨items2, rfl, hf2, hc2, he2⟩, by push_cast; ring, ?_, ?_, ?_⟩
      · simp [hlen]
      · rw [List.getElem?_append_left (by omega)]
        exact h0
      · intro s hs
        rcases List.mem_append.mp hs with hs1 | hs1
        · exact hall s hs1
        · rw [List.mem_singleton] at hs1
          subst hs1
          rw [hch]
          exact SnapOk_snapshotOf ctx W _ rfl rfl hf hc he
    obtain ⟨e', hrest, hinv'⟩ := ih _ (k + 1) hinv2
      (by simp at hcap ⊢; omega) (fun d hd => hfit d (by simp [hd]))
    refine ⟨e', ?_, ?_⟩
    · exact hrest
    · have : k + 1 + rest.length = k + (rest.length + 1) := by omega
      rw [← List.length_cons ed rest] at this
      rw [show k + (ed :: rest).length = k + 1 + rest.length by simp; omega]
      exact hinv'

theorem undo_step (e : CanvasEditor) (k : ℕ) (s_k : Snapshot)
    (hidx : e.historyIndex = ((k + 1 : ℕ) : ℤ))
    (hk : e.history[k]? = some s_k) :
    e.undo = ({ e with historyIndex := (k : ℤ) } : CanvasEditor).restoreSnapshot s_k := by
  unfold CanvasEditor.undo
  simp only [hidx]
  rw [if_neg (by push_cast; omega)]
  rw [show ((k + 1 : ℕ) : ℤ) - 1 = (k : ℤ) from by push_cast; ring]
  rw [show ((k : ℤ)).toNat = k from Int.toNat_natCast k]
  rw [hk]

theorem redo_step (e : CanvasEditor) (j : ℕ) (s : Snapshot)
    (hidx : e.historyIndex = (j : ℤ))
    (hlt : j + 1 < e.history.length)
    (hj : e.history[j + 1]? = some s) :
    e.redo = ({ e with historyIndex := ((j + 1 : ℕ) : ℤ) } : CanvasEditor).restoreSnapshot s := by
  unfold CanvasEditor.redo
  simp only [hidx]
  rw [if_neg (by push_cast; omega)]
  rw [show (j : ℤ) + 1 = ((j + 1 : ℕ) : ℤ) from by push_cast; ring]
  rw [show (((j + 1 : ℕ) : ℤ)).toNat = j + 1 from Int.toNat_natCast _]
  rw [hj]

theorem undoTimes_spec (W : ℚ) (ctx : Ctx) (f0 : FontProperties) :
    ∀ (k : ℕ) (e : CanvasEditor) (items : List ChainItem),
      e.chain = { Chain.mk0 W ctx f0 with items := items } →
      e.historyIndex = (k : ℤ) →
      k < e.history.length →
      (∀ s ∈ e.history, SnapOk ctx W s) →
      ∃ e_u items_u, e.undoTimes k = some e_u ∧
        e_u.history = e.history ∧ e_u.historyIndex = 0 ∧
        e_u.chain = { Chain.mk0 W ctx f0 with items := items_u } ∧
        (k = 0 → items_u = items) ∧
        (0 < k → ∀ s0, e.history[0]? = some s0 →
          getText items_u = snapText s0.items) := by
  intro k
  induction k with
  | zero =>
    intro e items hch hidx _ _
    refine ⟨e, items, rfl, rfl, by rw [hidx]; rfl, hch, fun _ => rfl,
      fun h => absurd h (by omega)⟩
  | succ k2 ih =>
    intro e items hch hidx hlt hall
    have hk : e.history[k2]? = some e.history[k2] :=
      List.getElem?_eq_getElem (by omega)
    have hus := undo_step e k2 _ hidx hk
    obtain ⟨items', hres, htext', hf', hc', he'⟩ :=
      restoreSnapshot_spec W ctx f0 ({ e with historyIndex := (k2 : ℤ) })
        items hch _ (hall _ (List.getElem?_mem hk))
    rw [CanvasEditor.undoTimes, hus, hres]
    obtain ⟨e_u, items_u, hu, hh, hi, hcu, heq0, htext0⟩ := ih
      ({ { e with historyIndex := (k2 : ℤ) } with
        chain := { Chain.mk0 W ctx f0 with items := items' } }) items' rfl rfl
      (by show k2 < e.history.length; omega)
      (by intro s hs; exact hall s hs)
    refine ⟨e_u, items_u, hu, ?_, hi, hcu, fun h => absurd h (by omega), ?_⟩
    · exact hh
    · intro _ s0 h0
      by_cases hk2 : k2 = 0
      · subst hk2
        rw [heq0 rfl, htext']
        rw [hk] at h0
        injection h0 with h0e
        rw [h0e]
      · exact htext0 (by omega) s0 h0

theorem redoTimes_spec (W : ℚ) (ctx : Ctx) (f0 : FontProperties) :
    ∀ (k : ℕ) (j : ℕ) (e : CanvasEditor) (items : List ChainItem),
      e.chain = { Chain.mk0 W ctx f0 with items := items } →
      e.historyIndex = (j : ℤ) →
      j + k < e.history.length →
      (∀ s ∈ e.history, SnapOk ctx W s) →
      ∃ e_r items_r, e.redoTimes k = some e_r ∧
        e_r.history = e.history ∧
        e_r.chain = { Chain.mk0 W ctx f0 with items := items_r } ∧
        (k = 0 → items_r = items) ∧
        (0 < k → ∀ sk, e.history[j + k]? = some sk →
          getText items_r = snapText sk.items) := by
  intro k
  induction k with
  | zero =>
    intro j e items hch hidx _ _
    refine ⟨e, items, rfl, rfl, hch, fun _ => rfl,
      fun h => absurd h (by omega)⟩
  | succ k2 ih =>
    intro j e items hch hidx hlt hall
    have hj : e.history[j + 1]? = some e.history[j + 1] :=
      List.getElem?_eq_getElem (by omega)
    have hrs := redo_step e j _ hidx (by omega) hj
    obtain ⟨items', hres, htext', hf', hc', he'⟩ :=
      restoreSnapshot_spec W ctx f0
        ({ e with historyIndex := ((j + 1 : ℕ) : ℤ) }) items hch _
        (hall _ (List.getElem?_mem hj))
    rw [CanvasEditor.redoTimes, hrs, hres]
    obtain ⟨e_r, items_r, hr, hh, hcr, heq0, htext0⟩ := ih (j + 1)
      ({ { e with historyIndex := ((j + 1 : ℕ) : ℤ) } with
        chain := { Chain.mk0 W ctx f0 with items := items' } }) items' rfl rfl
      (by show j + 1 + k2 < e.history.length; omega)
      (by intro s hs; exact hall s hs)
    refine ⟨e_r, items_r, hr, ?_, hcr, fun h => absurd h (by omega), ?_⟩
    · exact hh
    · intro _ sk hsk
      by_cases hk2 : k2 = 0
      · subst hk2
        rw [heq0 rfl, htext']
        have h2 : e.history[j + 1]? = some sk := hsk
        rw [h2] at hj
        injection hj with h0e
        rw [h0e]
      · have := htext0 (by omega) sk (by
          show e.history[j + 1 + k2]? = some sk
          rw [show j + 1 + k2 = j + (k2 + 1) by omega]
          exact hsk)
        exact this

theorem applyEdits_append (e : CanvasEditor) (l1 l2 : List EditorEdit) :
    e.applyEdits (l1 ++ l2) = (e.applyEdits l1).bind (fun x => x.applyEdits l2) := by
  induction l1 generalizing e with
  | nil => rfl
  | cons a l1 ih =>
    rw [List.cons_append, CanvasEditor.applyEdits, List.foldlM_cons]
    rw [show e.applyEdits (a :: l1) = List.foldlM CanvasEditor.applyEdit e (a :: l1) from rfl,
      List.foldlM_cons]
    cases h : e.applyEdit a with
    | none => rfl
    | some e2 => exact ih e2

theorem editorInv_mk0 (W : ℚ) (ctx : Ctx) (f0 : FontProperties) :
    EditorInv W ctx f0 (CanvasEditor.mk0 W ctx f0) 0 := by
  have hmk : CanvasEditor.mk0 W ctx f0 =
      { chain := Chain.mk0 W ctx f0
        history := [snapshotOf (Chain.mk0 W ctx f0)]
        historyIndex := 0 } := rfl
  rw [hmk]
  refine ⟨⟨[ChainItem.cursorLink {}], rfl, TextFits_cursor _ _ _, rfl, rfl⟩,
    rfl, rfl, rfl, ?_⟩
  intro s hs
  rw [List.mem_singleton] at hs
  subst hs
  exact SnapOk_snapshotOf ctx W _ rfl rfl (TextFits_cursor _ _ _) rfl rfl

/-- Counterexample to C4 as stated: one snapshotted edit typing "a".
Undoing once does return the text to the empty string, but redoing once
restores the snapshot taken *before* the edit — also empty — because the
final text was never snapshotted, so redo does not restore the final text. -/
theorem C4_counterexample :
    ((CanvasEditor.mk0 800 ctx8 font16).applyEdits [EditorEdit.printable 'a']).map
      editorText = some ['a'] ∧
    (((CanvasEditor.mk0 800 ctx8 font16).applyEdits [EditorEdit.printable 'a']).bind
      (fun e1 => (e1.undoTimes 1).bind (fun e2 => e2.redoTimes 1))).map
      editorText = some [] ∧
    ([] : Str) ≠ ['a'] := by
  refine ⟨?_, ?_, ?_⟩ <;> decide

/-- C4 (amended): for a sequence of snapshotted edits of length N ≤ 99
(beyond that the oldest snapshot is evicted) whose typed characters fit the
wrap width, undoing N times does return `getText()` to the initial empty
string; but redoing N times restores the text the document had just before
the last edit, not the final text — the final state is never snapshotted. -/
theorem C4_undo_redo (W : ℚ) (ctx : Ctx) (f0 : FontProperties)
    (eds : List EditorEdit) (ed : EditorEdit)
    (hlen : eds.length + 1 ≤ 99)
    (hfit : ∀ d ∈ eds ++ [ed], EdFits ctx W f0 d) :
    ∃ e', (CanvasEditor.mk0 W ctx f0).applyEdits (eds ++ [ed]) = some e' ∧
    ∃ e_mid, (CanvasEditor.mk0 W ctx f0).applyEdits eds = some e_mid ∧
    ∃ e_u, e'.undoTimes (eds.length + 1) = some e_u ∧
      editorText e_u = [] ∧
    ∃ e_r, e_u.redoTimes (eds.length + 1) = some e_r ∧
      editorText e_r = editorText e_mid := by
  obtain ⟨e_mid, hmid, hinvmid⟩ := applyEdits_inv W ctx f0 eds
    (CanvasEditor.mk0 W ctx f0) 0 (editorInv_mk0 W ctx f0) (by omega)
    (fun d hd => hfit d (by simp [hd]))
  simp only [Nat.zero_add] at hinvmid
  obtain ⟨⟨itemsM, hchM, hfM, hcM, heM⟩, hidxM, hlenM, h0M, hallM⟩ := hinvmid
  obtain ⟨items2, happ, hf2, hc2, he2⟩ := applyEdit_step W ctx f0 e_mid
    eds.length itemsM ed hchM hfM hcM heM hidxM hlenM (by omega)
    (hfit ed (by simp))
  have happall : (CanvasEditor.mk0 W ctx f0).applyEdits (eds ++ [ed]) =
      some { chain := { Chain.mk0 W ctx f0 with items := items2 }
             history := e_mid.history ++ [snapshotOf e_mid.chain]
             historyIndex := (eds.length : ℤ) + 1 } := by
    rw [applyEdits_append, hmid]
    show CanvasEditor.applyEdits e_mid [ed] = some _
    rw [CanvasEditor.applyEdits, List.foldlM_cons, happ]
    rfl
  have hallE : ∀ s ∈ e_mid.history ++ [snapshotOf e_mid.chain],
      SnapOk ctx W s := by
    intro s hs
    rcases List.mem_append.mp hs with hs1 | hs1
    · exact hallM s hs1
    · rw [List.mem_singleton] at hs1
      subst hs1
      rw [hchM]
      exact SnapOk_snapshotOf ctx W _ rfl rfl hfM hcM heM
  obtain ⟨e_u, items_u, hundo, hhistU, hidxU, hchU, _, htextU⟩ :=
    undoTimes_spec W ctx f0 (eds.length + 1)
      { chain := { Chain.mk0 W ctx f0 with items := items2 }
        history := e_mid.history ++ [snapshotOf e_mid.chain]
        historyIndex := (eds.length : ℤ) + 1 }
      items2 rfl (by push_cast; ring)
      (by simp only [List.length_append, List.length_cons, List.length_nil, hlenM]; omega)
      hallE
  have htextU2 : getText items_u = [] := by
    have h0E : (e_mid.history ++ [snapshotOf e_mid.chain])[0]? =
        some (snapshotOf (Chain.mk0 W ctx f0)) := by
      rw [List.getElem?_append_left (by rw [hlenM]; omega)]
      exact h0M
    have := htextU (by omega) _ h0E
    rw [this, show (snapshotOf (Chain.mk0 W ctx f0)).items =
      takeSnapshotItems (Chain.mk0 W ctx f0).items from rfl,
      snapText_takeSnapshotItems]
    rfl
  obtain ⟨e_r, items_r, hredo, hhistR, hchR, _, htextR⟩ :=
    redoTimes_spec W ctx f0 (eds.length + 1) 0 e_u items_u hchU
      (by rw [hidxU]; rfl)
      (by rw [hhistU]
          simp only [List.length_append, List.length_cons, List.length_nil, hlenM]
          omega)
      (by rw [hhistU]; exact hallE)
  have htextR2 : getText items_r = getText e_mid.chain.items := by
    have hsE : e_u.history[0 + (eds.length + 1)]? =
        some (snapshotOf e_mid.chain) := by
      rw [Nat.zero_add, hhistU, show eds.length + 1 = e_mid.history.length by omega]
      exact List.getElem?_concat_length _ _
    have := htextR (by omega) _ hsE
    rw [this, show (snapshotOf e_mid.chain).items =
      takeSnapshotItems e_mid.chain.items from rfl, snapText_takeSnapshotItems]
  refine ⟨_, happall, e_mid, hmid, e_u, hundo, ?_, e_r, hredo, ?_⟩
  · show getText e_u.chain.items = []
    rw [hchU]
    exact htextU2
  · show getText e_r.chain.items = getText e_mid.chain.items
    rw [hchR]
    exact htextR2

/-- Witness for C4 at the 8-pixel measurer: type "h" then "i", undo twice
to the empty document, redo twice back to "h". -/
theorem C4_witness :
    ∃ e', (CanvasEditor.mk0 800 ctx8 font16).applyEdits
        ([EditorEdit.printable 'h'] ++ [EditorEdit.printable 'i']) = some e' ∧
    ∃ e_mid, (CanvasEditor.mk0 800 ctx8 font16).applyEdits
        [EditorEdit.printable 'h'] = some e_mid ∧
    ∃ e_u, e'.undoTimes ([EditorEdit.printable 'h'].length + 1) = some e_u ∧
      editorText e_u = [] ∧
    ∃ e_r, e_u.redoTimes ([EditorEdit.printable 'h'].length + 1) = some e_r ∧
      editorText e_r = editorText e_mid :=
  C4_undo_redo 800 ctx8 font16 [EditorEdit.printable 'h']
    (EditorEdit.printable 'i') (by decide)
    (by
      intro d hd
      simp only [List.cons_append, List.nil_append, List.mem_cons,
        List.mem_singleton, List.not_mem_nil, or_false] at hd
      rcases hd with h | h <;> subst h <;>
        (show measureTextWidth ctx8 font16 _ ≤ 800) <;> decide)

/-! ## Claim C7: the Y pass line heights -/

/-- The `lineHeight` fields assigned to an item list. -/
def lineHeightsOf (l : List ChainItem) : List (Option ℚ) :=
  l.map fun it => it.getComputed.lineHeight

/-- The line height the specification prescribes from a line's maxima:
`max(maxAscent+maxDescent, maxFontSize) * 1.5` over the line's TextRuns,
with the chain's current font size as the base for a line containing no
TextRuns. -/
def specHeight (cf : FontProperties) (hasText : Bool) (mA mD mS : ℚ) : ℚ :=
  (if hasText then max (mA + mD) mS else cf.size) * lineSpacingMult

/-- The per-item line heights the specification prescribes: walk the items
accumulating the current line's TextRun maxima; a newline of either kind
ends the line (the newline itself keeps no line height), and every other
item of the line receives the line's height. -/
def specYGo (ctx : Ctx) (cf : FontProperties) :
    ℕ → Bool → ℚ → ℚ → ℚ → List ChainItem → List (Option ℚ)
  | pending, hasText, mA, mD, mS, [] =>
    List.replicate pending (some (specHeight cf hasText mA mD mS))
  | pending, hasText, mA, mD, mS, .newlineLink _ :: rest =>
    List.replicate pending (some (specHeight cf hasText mA mD mS)) ++
      none :: specYGo ctx cf 0 false 0 0 0 rest
  | pending, hasText, mA, mD, mS, .virtualNewlineLink _ :: rest =>
    List.replicate pending (some (specHeight cf hasText mA mD mS)) ++
      none :: specYGo ctx cf 0 false 0 0 0 rest
  | pending, hasText, mA, mD, mS, .textLink s f _ :: rest =>
    specYGo ctx cf (pending + 1) true (max mA (measureTextAscent ctx f s))
      (max mD (measureTextDescent ctx f s)) (max mS f.size) rest
  | pending, hasText, mA, mD, mS, .cursorLink _ :: rest =>
    specYGo ctx cf (pending + 1) hasText mA mD mS rest

/-- A measurer with 30-pixel ascents and 10-pixel descents. -/
def ctx3010 : Ctx :=
  { widthFn := fun _ s => (s.length : ℚ) * 8
    ascentFn := fun _ _ => 30
    descentFn := fun _ _ => 10 }

/-- A 40px variant of the default font. -/
def font40 : FontProperties :=
  { font16 with size := 40 }

/-- Counterexample to C7 as stated: the cursor sits alone on a wrapped
(second) line, which contains no TextRuns, so per the claim its line height
should be the chain's font size 16 times 1.5 = 24.  But the cursor's
backwards height scan walks straight past the virtual newline into the
previous line's 40px text, importing its metrics into the empty line's
maxima, so the assigned line height is 60. -/
theorem C7_counterexample :
    (lineHeightsOf (recalcYPositions ctx3010 font16
      [ChainItem.textLink ['a', 'b', 'c'] font40 {},
       ChainItem.virtualNewlineLink {}, ChainItem.cursorLink {}])).getLast? =
      some (some 60) ∧
    font16.size * lineSpacingMult = 24 ∧ (60 : ℚ) ≠ 24 := by
  refine ⟨?_, ?_, ?_⟩ <;> decide

theorem lineHeightsOf_map_setLineHeight (lh : ℚ) (buf : List ChainItem) :
    lineHeightsOf (buf.map (setLineHeight lh)) =
      List.replicate buf.length (some lh) := by
  induction buf with
  | nil => rfl
  | cons it rest ih =>
    cases it <;>
      simp only [List.map_cons, lineHeightsOf, List.length_cons,
        List.replicate_succ] at ih ⊢ <;>
      rw [ih] <;> rfl

theorem lineHeightsOf_append (a b : List ChainItem) :
    lineHeightsOf (a ++ b) = lineHeightsOf a ++ lineHeightsOf b := by
  simp [lineHeightsOf]

theorem recalcYGo_lineHeights (ctx : Ctx) (cf : FontProperties) :
    ∀ (l prevRev buf : List ChainItem) (posY mA mD mS : ℚ) (hasText : Bool),
      countCursor l = 0 →
      (∀ it ∈ l, it.getComputed = {}) →
      (hasText = false → mA = 0 ∧ mD = 0 ∧ mS = 0) →
      (hasText = true → 0 < max (mA + mD) mS) →
      (∀ it ∈ l, (match it with
        | ChainItem.textLink _ f _ => 0 < f.size
        | _ => True)) →
      lineHeightsOf (recalcYGo ctx cf prevRev posY buf mA mD mS l) =
        specYGo ctx cf buf.length hasText mA mD mS l := by
  intro l
  induction l with
  | nil =>
    intro prevRev buf posY mA mD mS hasText _ _ hA hB _
    rw [recalcYGo, specYGo, lineHeightsOf_map_setLineHeight]
    cases hasText with
    | false =>
      obtain ⟨e1, e2, e3⟩ := hA rfl
      subst e1
      subst e2
      subst e3
      rw [show max ((0 : ℚ) + 0) 0 = 0 by simp, if_pos rfl]
      rfl
    | true =>
      have := hB rfl
      rw [if_neg (by intro h; rw [h] at this; exact lt_irrefl 0 this)]
      rfl
  | cons it rest ih =>
    intro prevRev buf posY mA mD mS hasText hnc hclear hA hB hsize
    cases it with
    | cursorLink c =>
      exfalso
      rw [countCursor_cons] at hnc
      simp [ChainItem.isCursor] at hnc
    | newlineLink c =>
      rw [recalcYGo, specYGo, lineHeightsOf_append,
        lineHeightsOf_map_setLineHeight]
      have hc : c.lineHeight = none := by
        have := hclear (ChainItem.newlineLink c) (by simp)
        rw [show (ChainItem.newlineLink c).getComputed = c from rfl] at this
        rw [this]
      have hrec := ih (ChainItem.newlineLink c :: prevRev)
        [] (posY + (if max (mA + mD) mS = 0 then cf.size else max (mA + mD) mS) *
          lineSpacingMult) 0 0 0 false
        (by rw [countCursor_cons] at hnc; simp [ChainItem.isCursor] at hnc; omega)
        (fun it2 h2 => hclear it2 (by simp [h2]))
        (fun _ => ⟨rfl, rfl, rfl⟩) (by intro h; cases h)
        (fun it2 h2 => hsize it2 (by simp [h2]))
      rw [show lineHeightsOf (ChainItem.newlineLink { c with
          posY := some (posY + (if max (mA + mD) mS = 0 then cf.size
            else max (mA + mD) mS) * lineSpacingMult) } ::
          recalcYGo ctx cf (ChainItem.newlineLink c :: prevRev)
            (posY + (if max (mA + mD) mS = 0 then cf.size
              else max (mA + mD) mS) * lineSpacingMult) [] 0 0 0 rest) =
        c.lineHeight :: lineHeightsOf (recalcYGo ctx cf
          (ChainItem.newlineLink c :: prevRev)
          (posY + (if max (mA + mD) mS = 0 then cf.size
            else max (mA + mD) mS) * lineSpacingMult) [] 0 0 0 rest) from rfl]
      rw [hc, hrec]
      cases hasText with
      | false =>
        obtain ⟨e1, e2, e3⟩ := hA rfl
        subst e1
        subst e2
        subst e3
        rw [show max ((0 : ℚ) + 0) 0 = 0 by simp, if_pos rfl]
        rfl
      | true =>
        have := hB rfl
        rw [if_neg (by intro h; rw [h] at this; exact lt_irrefl 0 this)]
        rfl
    | virtualNewlineLink c =>
      rw [recalcYGo, specYGo, lineHeightsOf_append,
        lineHeightsOf_map_setLineHeight]
      have hc : c.lineHeight = none := by
        have := hclear (ChainItem.virtualNewlineLink c) (by simp)
        rw [show (ChainItem.virtualNewlineLink c).getComputed = c from rfl] at this
        rw [this]
      have hrec := ih (ChainItem.virtualNewlineLink c :: prevRev)
        [] (posY + (if max (mA + mD) mS = 0 then cf.size else max (mA + mD) mS) *
          lineSpacingMult) 0 0 0 false
        (by rw [countCursor_cons] at hnc; simp [ChainItem.isCursor] at hnc; omega)
        (fun it2 h2 => hclear it2 (by simp [h2]))
        (fun _ => ⟨rfl, rfl, rfl⟩) (by intro h; cases h)
        (fun it2 h2 => hsize it2 (by simp [h2]))
      rw [show lineHeightsOf (ChainItem.virtualNewlineLink { c with
          posY := some (posY + (if max (mA + mD) mS = 0 then cf.size
            else max (mA + mD) mS) * lineSpacingMult) } ::
          recalcYGo ctx cf (ChainItem.virtualNewlineLink c :: prevRev)
            (posY + (if max (mA + mD) mS = 0 then cf.size
              else max (mA + mD) mS) * lineSpacingMult) [] 0 0 0 rest) =
        c.lineHeight :: lineHeightsOf (recalcYGo ctx cf
          (ChainItem.virtualNewlineLink c :: prevRev)
          (posY + (if max (mA + mD) mS = 0 then cf.size
            else max (mA + mD) mS) * lineSpacingMult) [] 0 0 0 rest) from rfl]
      rw [hc, hrec]
      cases hasText with
      | false =>
        obtain ⟨e1, e2, e3⟩ := hA rfl
        subst e1
        subst e2
        subst e3
        rw [show max ((0 : ℚ) + 0) 0 = 0 by simp, if_pos rfl]
        rfl
      | true =>
        have := hB rfl
        rw [if_neg (by intro h; rw [h] at this; exact lt_irrefl 0 this)]
        rfl
    | textLink s f c =>
      rw [recalcYGo, specYGo]
      have hsz : 0 < f.size := by
        have := hsize (ChainItem.textLink s f c) (by simp)
        simpa using this
      have hrec := ih (ChainItem.textLink s f c :: prevRev) (buf ++
          [ChainItem.textLink s f { c with
            posY := some posY
            ascent := some (measureTextAscent ctx f s)
            descent := some (measureTextDescent ctx f s) }]) posY
        (max mA (measureTextAscent ctx f s))
        (max mD (measureTextDescent ctx f s)) (max mS f.size) true
        (by rw [countCursor_cons] at hnc; simp [ChainItem.isCursor] at hnc; omega)
        (fun it2 h2 => hclear it2 (by simp [h2]))
        (by intro h; cases h)
        (by
          intro _
          have h1 : f.size ≤ max mS f.size := le_max_right _ _
          have h2 : max mS f.size ≤
              max (max mA (measureTextAscent ctx f s) +
                max mD (measureTextDescent ctx f s)) (max mS f.size) :=
            le_max_right _ _
          linarith)
        (fun it2 h2 => hsize it2 (by simp [h2]))
      rw [hrec]
      simp [List.length_append]

theorem specYGo_pos (ctx : Ctx) (cf : FontProperties) (h0 : 0 < cf.size) :
    ∀ (l : List ChainItem) (pending : ℕ) (hasText : Bool) (mA mD mS : ℚ),
      (hasText = true → 0 < max (mA + mD) mS) →
      (∀ it ∈ l, (match it with
        | ChainItem.textLink _ f _ => 0 < f.size
        | _ => True)) →
      ∀ o ∈ specYGo ctx cf pending hasText mA mD mS l, ∀ v, o = some v → 0 < v := by
  have hspec : ∀ (hasText : Bool) (mA mD mS : ℚ),
      (hasText = true → 0 < max (mA + mD) mS) →
      0 < specHeight cf hasText mA mD mS := by
    intro hasText mA mD mS hB
    cases hasText with
    | false =>
      unfold specHeight lineSpacingMult
      rw [if_neg (by simp)]
      positivity
    | true =>
      unfold specHeight lineSpacingMult
      rw [if_pos rfl]
      have := hB rfl
      positivity
  intro l
  induction l with
  | nil =>
    intro pending hasText mA mD mS hB _ o ho v hv
    rw [specYGo] at ho
    rw [List.eq_of_mem_replicate ho] at hv
    injection hv with hv
    rw [← hv]
    exact hspec hasText mA mD mS hB
  | cons it rest ih =>
    intro pending hasText mA mD mS hB hsize o ho v hv
    cases it with
    | newlineLink c =>
      rw [specYGo] at ho
      rcases List.mem_append.mp ho with h1 | h1
      · rw [List.eq_of_mem_replicate h1] at hv
        injection hv with hv
        rw [← hv]
        exact hspec hasText mA mD mS hB
      · rcases List.mem_cons.mp h1 with h2 | h2
        · rw [h2] at hv
          cases hv
        · exact ih 0 false 0 0 0 (by intro h; cases h)
            (fun it2 hit => hsize it2 (by simp [hit])) o h2 v hv
    | virtualNewlineLink c =>
      rw [specYGo] at ho
      rcases List.mem_append.mp ho with h1 | h1
      · rw [List.eq_of_mem_replicate h1] at hv
        injection hv with hv
        rw [← hv]
        exact hspec hasText mA mD mS hB
      · rcases List.mem_cons.mp h1 with h2 | h2
        · rw [h2] at hv
          cases hv
        · exact ih 0 false 0 0 0 (by intro h; cases h)
            (fun it2 hit => hsize it2 (by simp [hit])) o h2 v hv
    | textLink s f c =>
      rw [specYGo] at ho
      have hsz : 0 < f.size := by
        have := hsize (ChainItem.textLink s f c) (by simp)
        simpa using this
      refine ih (pending + 1) true _ _ _ ?_
        (fun it2 hit => hsize it2 (by simp [hit])) o ho v hv
      intro _
      have h1 : f.size ≤ max mS f.size := le_max_right _ _
      have h2 : max mS f.size ≤
          max (max mA (measureTextAscent ctx f s) +
            max mD (measureTextDescent ctx f s)) (max mS f.size) :=
        le_max_right _ _
      linarith
    | cursorLink c =>
      rw [specYGo] at ho
      exact ih (pending + 1) hasText mA mD mS hB
        (fun it2 hit => hsize it2 (by simp [hit])) o ho v hv

/-- C7 (amended): for a cursor-free item list with cleared layout fields
and positive font sizes, the Y pass assigns exactly the line heights the
specification prescribes — `max(maxAscent+maxDescent, maxFontSize) * 1.5`
over each line's TextRuns, the chain's current font size as the base for a
line with no TextRuns — and every assigned line height is positive.  (With
a cursor present the claim fails: the cursor's backwards height scan
crosses soft breaks and imports the previous line's metrics.) -/
theorem C7_line_heights (ctx : Ctx) (cf : FontProperties)
    (items : List ChainItem) (h0 : 0 < cf.size)
    (hnc : countCursor items = 0)
    (hclear : ∀ it ∈ items, it.getComputed = {})
    (hsize : ∀ it ∈ items, (match it with
      | ChainItem.textLink _ f _ => 0 < f.size
      | _ => True)) :
    lineHeightsOf (recalcYPositions ctx cf items) =
      specYGo ctx cf 0 false 0 0 0 items ∧
    ∀ o ∈ lineHeightsOf (recalcYPositions ctx cf items), ∀ v, o = some v → 0 < v := by
  have heq : lineHeightsOf (recalcYPositions ctx cf items) =
      specYGo ctx cf 0 false 0 0 0 items := by
    rw [show recalcYPositions ctx cf items =
      recalcYGo ctx cf [] 0 [] 0 0 0 items from rfl]
    exact recalcYGo_lineHeights ctx cf items [] [] 0 0 0 0 false hnc hclear
      (fun _ => ⟨rfl, rfl, rfl⟩) (by intro h; cases h) hsize
  refine ⟨heq, ?_⟩
  rw [heq]
  exact specYGo_pos ctx cf h0 items 0 false 0 0 0 (by intro h; cases h) hsize

/-- A two-line cursor-free document for the C7 witness. -/
def c7doc : List ChainItem :=
  [ChainItem.textLink ['h', 'i'] font16 {}, ChainItem.newlineLink {},
   ChainItem.textLink ['y', 'o'] font40 {}]

/-- Witness for C7 on a concrete two-line document. -/
theorem C7_witness :
    lineHeightsOf (recalcYPositions ctx8 font16 c7doc) =
      specYGo ctx8 font16 0 false 0 0 0 c7doc ∧
    ∀ o ∈ lineHeightsOf (recalcYPositions ctx8 font16 c7doc),
      ∀ v, o = some v → 0 < v :=
  C7_line_heights ctx8 font16 c7doc (by decide) (by decide)
    (by intro it hit; fin_cases hit <;> rfl)
    (by intro it hit; fin_cases hit <;> decide)

/-! ## Claim C5: idempotence of the layout pipeline -/

/-- Every item's computed record is cleared. -/
def AllCleared (l : List ChainItem) : Prop :=
  ∀ it ∈ l, it.getComputed = {}

/-- No `VirtualNewlineLink` is present. -/
def noVNL (l : List ChainItem) : Bool :=
  l.all fun it => !it.isVirtualNewline

theorem noEmpty_iff (l : List ChainItem) :
    noEmptyTextRun l = true ↔
      ∀ s f c, ChainItem.textLink s f c ∈ l → s ≠ [] := by
  unfold noEmptyTextRun
  rw [List.all_eq_true]
  constructor
  · intro h s f c hm he
    have := h _ hm
    subst he
    simp at this
  · intro h it hm
    cases it with
    | textLink s f c =>
      have hne := h s f c hm
      simp [List.isEmpty_iff]
      exact hne
    | cursorLink c => rfl
    | newlineLink c => rfl
    | virtualNewlineLink c => rfl

theorem AllCleared_clearComputed (l : List ChainItem) :
    AllCleared (clearComputed l) := by
  intro it hm
  unfold clearComputed at hm
  rw [List.mem_map] at hm
  obtain ⟨x, _, he⟩ := hm
  cases x <;> rw [← he] <;> rfl

theorem clearComputed_of_AllCleared (l : List ChainItem)
    (h : AllCleared l) : clearComputed l = l := by
  induction l with
  | nil => rfl
  | cons it rest ih =>
    have h1 := h it (by simp)
    have h2 := ih (fun x hx => h x (by simp [hx]))
    cases it <;>
      simp only [ChainItem.getComputed] at h1 <;>
      subst h1 <;>
      simp only [clearComputed, List.map_cons] at h2 ⊢ <;>
      rw [h2]

theorem AllCleared_of_mem_subset (l1 l2 : List ChainItem)
    (hsub : ∀ it ∈ l1, it ∈ l2) (h : AllCleared l2) : AllCleared l1 :=
  fun it hm => h it (hsub it hm)

theorem AllCleared_filter (p : ChainItem → Bool) (l : List ChainItem)
    (h : AllCleared l) : AllCleared (l.filter p) :=
  AllCleared_of_mem_subset _ l (fun it hm => List.mem_of_mem_filter hm) h

theorem AllCleared_joinAdjacentTextLinks (l : List ChainItem)
    (h : AllCleared l) : AllCleared (joinAdjacentTextLinks l) := by
  induction l with
  | nil => exact h
  | cons x rest ih =>
    intro it hm
    rw [joinAdjacentTextLinks] at hm
    rcases joinStep_mem x _ it hm with hm2 | ⟨a, fm, ca, b, cb, out2, hx, hout, hit⟩
    · rcases List.mem_cons.mp hm2 with he | hm3
      · subst he
        exact h it (by simp)
      · exact ih (fun y hy => h y (by simp [hy])) it hm3
    · subst hit
      have := h x (by simp)
      rw [hx] at this
      exact this

theorem AllCleared_ensureCursorExists (l : List ChainItem)
    (h : AllCleared l) : AllCleared (ensureCursorExists l) := by
  unfold ensureCursorExists
  split
  · exact h
  · intro it hm
    rcases List.mem_append.mp hm with h1 | h1
    · exact h it h1
    · rw [List.mem_singleton] at h1
      subst h1
      rfl

theorem AllCleared_chunkTextLinks (l : List ChainItem)
    (h : AllCleared l) : AllCleared (chunkTextLinks l) := by
  intro it hm
  unfold chunkTextLinks at hm
  rw [List.mem_flatMap] at hm
  obtain ⟨x, hx, hmem⟩ := hm
  have hxc := h x hx
  cases x with
  | textLink s f c =>
    simp only [chunkOne] at hmem
    split at hmem
    · split at hmem
      · rw [List.mem_singleton] at hmem
        subst hmem
        exact hxc
      · split at hmem
        · rcases List.mem_cons.mp hmem with he | hm2
          · subst he
            exact hxc
          · rw [List.mem_map] at hm2
            obtain ⟨q, _, he⟩ := hm2
            rw [← he]
            rfl
        · rw [List.mem_singleton] at hmem
          subst hmem
          exact hxc
    · rw [List.mem_singleton] at hmem
      subst hmem
      exact hxc
  | cursorLink c =>
    rw [show chunkOne (ChainItem.cursorLink c) = [ChainItem.cursorLink c] from rfl,
      List.mem_singleton] at hmem
    subst hmem
    exact hxc
  | newlineLink c =>
    rw [show chunkOne (ChainItem.newlineLink c) = [ChainItem.newlineLink c] from rfl,
      List.mem_singleton] at hmem
    subst hmem
    exact hxc
  | virtualNewlineLink c =>
    rw [show chunkOne (ChainItem.virtualNewlineLink c) =
      [ChainItem.virtualNewlineLink c] from rfl, List.mem_singleton] at hmem
    subst hmem
    exact hxc

theorem noVNL_iff (l : List ChainItem) :
    noVNL l = true ↔ ∀ it ∈ l, it.isVirtualNewline = false := by
  unfold noVNL
  rw [List.all_eq_true]
  constructor
  · intro h it hm
    simpa using h it hm
  · intro h it hm
    simpa using h it hm

theorem noVNL_removeVirtualNewlines (l : List ChainItem) :
    noVNL (removeVirtualNewlines l) = true := by
  rw [noVNL_iff]
  intro it hm
  simpa using List.of_mem_filter hm

theorem noVNL_of_subset (l1 l2 : List ChainItem) (hsub : ∀ it ∈ l1, it ∈ l2)
    (h : noVNL l2 = true) : noVNL l1 = true := by
  rw [noVNL_iff] at *
  exact fun it hm => h it (hsub it hm)

theorem noVNL_joinAdjacentTextLinks (l : List ChainItem) (h : noVNL l = true) :
    noVNL (joinAdjacentTextLinks l) = true := by
  induction l with
  | nil => exact h
  | cons x rest ih =>
    rw [noVNL_iff]
    intro it hm
    rw [joinAdjacentTextLinks] at hm
    rcases joinStep_mem x _ it hm with hm2 | ⟨a, fm, ca, b, cb, out2, hx, hout, hit⟩
    · rcases List.mem_cons.mp hm2 with he | hm3
      · subst he
        exact (noVNL_iff _).mp h it (by simp)
      · have hr : noVNL (joinAdjacentTextLinks rest) = true :=
          ih (noVNL_of_subset _ _ (fun y hy => by simp [hy]) h)
        exact (noVNL_iff _).mp hr it hm3
    · subst hit
      rfl

theorem mem_chunkOne (x it : ChainItem) (h : it ∈ chunkOne x) :
    it = x ∨ ∃ q f c, it = ChainItem.textLink q f c := by
  cases x with
  | textLink s f c =>
    simp only [chunkOne] at h
    split at h
    · split at h
      · rw [List.mem_singleton] at h
        subst h
        left
        rfl
      · split at h
        · rcases List.mem_cons.mp h with he | hm2
          · subst he
            right
            exact ⟨_, _, _, rfl⟩
          · rw [List.mem_map] at hm2
            obtain ⟨q, _, he⟩ := hm2
            right
            exact ⟨_, _, _, he.symm⟩
        · rw [List.mem_singleton] at h
          subst h
          left
          rfl
    · rw [List.mem_singleton] at h
      subst h
      left
      rfl
  | cursorLink c =>
    rw [show chunkOne (ChainItem.cursorLink c) = [ChainItem.cursorLink c] from rfl,
      List.mem_singleton] at h
    subst h
    left
    rfl
  | newlineLink c =>
    rw [show chunkOne (ChainItem.newlineLink c) = [ChainItem.newlineLink c] from rfl,
      List.mem_singleton] at h
    subst h
    left
    rfl
  | virtualNewlineLink c =>
    rw [show chunkOne (ChainItem.virtualNewlineLink c) =
      [ChainItem.virtualNewlineLink c] from rfl, List.mem_singleton] at h
    subst h
    left
    rfl

theorem noVNL_removeEmptyTextLinks (l : List ChainItem) (h : noVNL l = true) :
    noVNL (removeEmptyTextLinks l) = true :=
  noVNL_of_subset _ l (fun it hm => List.mem_of_mem_filter hm) h

theorem noVNL_ensureCursorExists (l : List ChainItem) (h : noVNL l = true) :
    noVNL (ensureCursorExists l) = true := by
  unfold ensureCursorExists
  split
  · exact h
  · rw [noVNL_iff] at *
    intro it hm
    rcases List.mem_append.mp hm with h1 | h1
    · exact h it h1
    · rw [List.mem_singleton] at h1
      subst h1
      rfl

theorem noVNL_chunkTextLinks (l : List ChainItem) (h : noVNL l = true) :
    noVNL (chunkTextLinks l) = true := by
  rw [noVNL_iff]
  intro it hm
  unfold chunkTextLinks at hm
  rw [List.mem_flatMap] at hm
  obtain ⟨x, hx, hmem⟩ := hm
  rcases mem_chunkOne x it hmem with he | ⟨q, f, c, he⟩
  · subst he
    exact (noVNL_iff _).mp h it hx
  · subst he
    rfl

theorem removeVirtualNewlines_of_noVNL (l : List ChainItem) (h : noVNL l = true) :
    removeVirtualNewlines l = l := by
  unfold removeVirtualNewlines
  rw [List.filter_eq_self]
  intro it hm
  rw [noVNL_iff] at h
  simp [h it hm]

theorem removeEmptyTextLinks_of_noEmpty (l : List ChainItem)
    (h : noEmptyTextRun l = true) : removeEmptyTextLinks l = l := by
  unfold removeEmptyTextLinks
  rw [List.filter_eq_self]
  intro it hm
  rw [noEmpty_iff] at h
  cases it with
  | textLink s f c => simpa [List.isEmpty_iff] using h s f c hm
  | cursorLink c => rfl
  | newlineLink c => rfl
  | virtualNewlineLink c => rfl

theorem noEmpty_of_subset (l1 l2 : List ChainItem) (hsub : ∀ it ∈ l1, it ∈ l2)
    (h : noEmptyTextRun l2 = true) : noEmptyTextRun l1 = true := by
  rw [noEmpty_iff] at *
  exact fun s f c hm => h s f c (hsub _ hm)

theorem noEmpty_clearComputed (l : List ChainItem) (h : noEmptyTextRun l = true) :
    noEmptyTextRun (clearComputed l) = true := by
  rw [noEmpty_iff] at *
  intro s f c hm
  unfold clearComputed at hm
  rw [List.mem_map] at hm
  obtain ⟨it, hit, heq⟩ := hm
  cases it with
  | textLink s2 f2 c2 =>
    injection heq with h1 h2 h3
    subst h1
    exact h _ _ _ hit
  | cursorLink c2 => exact absurd heq (by simp)
  | newlineLink c2 => exact absurd heq (by simp)
  | virtualNewlineLink c2 => exact absurd heq (by simp)

theorem noEmpty_joinAdjacentTextLinks (l : List ChainItem)
    (h : noEmptyTextRun l = true) :
    noEmptyTextRun (joinAdjacentTextLinks l) = true := by
  induction l with
  | nil => exact h
  | cons x rest ih =>
    rw [noEmpty_iff]
    intro s f c hm
    rw [joinAdjacentTextLinks] at hm
    rcases joinStep_mem x _ _ hm with hm2 | ⟨a, fm, ca, b, cb, out2, hx, hout, hit⟩
    · rcases List.mem_cons.mp hm2 with he | hm3
      · exact (noEmpty_iff _).mp h s f c
          (by rw [he]; exact List.mem_cons_self x rest)
      · have hr := ih (noEmpty_of_subset _ _ (fun y hy => by simp [hy]) h)
        exact (noEmpty_iff _).mp hr s f c hm3
    · injection hit with h1 h2 h3
      subst h1
      have ha : a ≠ [] := (noEmpty_iff _).mp h a fm ca
        (by rw [← hx]; exact List.mem_cons_self x rest)
      simp [ha]

theorem noEmpty_removeEmptyTextLinks (l : List ChainItem) :
    noEmptyTextRun (removeEmptyTextLinks l) = true := by
  rw [noEmpty_iff]
  intro s f c hm
  simpa [List.isEmpty_iff] using List.of_mem_filter hm

theorem noEmpty_ensureCursorExists (l : List ChainItem)
    (h : noEmptyTextRun l = true) :
    noEmptyTextRun (ensureCursorExists l) = true := by
  unfold ensureCursorExists
  split
  · exact h
  · rw [noEmpty_iff] at *
    intro s f c hm
    rcases List.mem_append.mp hm with h1 | h1
    · exact h s f c h1
    · rw [List.mem_singleton] at h1
      exact absurd h1 (by simp)

theorem splitWsRunsGo_ne_nil (cs : List Char) :
    ∀ (b : Bool) (curRev : List Char), curRev ≠ [] →
      ∀ q ∈ splitWsRunsGo b curRev cs, q ≠ [] := by
  induction cs with
  | nil =>
    intro b curRev hne q hq
    rw [splitWsRunsGo, List.mem_singleton] at hq
    subst hq
    simpa using hne
  | cons c cs2 ih =>
    intro b curRev hne q hq
    rw [splitWsRunsGo] at hq
    split at hq
    · exact ih b (c :: curRev) (by simp) q hq
    · rcases List.mem_cons.mp hq with he | hm
      · subst he
        simpa using hne
      · exact ih (jsWhitespace c) [c] (by simp) q hm

theorem splitWsRuns_ne_nil (s : List Char) : ∀ q ∈ splitWsRuns s, q ≠ [] := by
  cases s with
  | nil =>
    intro q hq
    simp [splitWsRuns] at hq
  | cons c cs =>
    intro q hq
    exact splitWsRunsGo_ne_nil cs (jsWhitespace c) [c] (by simp) q hq

theorem noEmpty_chunkTextLinks (l : List ChainItem)
    (h : noEmptyTextRun l = true) :
    noEmptyTextRun (chunkTextLinks l) = true := by
  rw [noEmpty_iff]
  intro s f c hm
  unfold chunkTextLinks at hm
  rw [List.mem_flatMap] at hm
  obtain ⟨x, hx, hmem⟩ := hm
  cases x with
  | textLink s0 f0 c0 =>
    have hs0 : s0 ≠ [] := (noEmpty_iff _).mp h s0 f0 c0 hx
    simp only [chunkOne] at hmem
    split at hmem
    · split at hmem
      · rw [List.mem_singleton] at hmem
        injection hmem with h1 h2 h3
        subst h1
        exact hs0
      · rename_i p ps hsplit
        split at hmem
        · rcases List.mem_cons.mp hmem with he | hm2
          · injection he with h1 h2 h3
            rw [h1]
            exact splitWsRuns_ne_nil s0 p
              (by rw [hsplit]; exact List.mem_cons_self p ps)
          · rw [List.mem_map] at hm2
            obtain ⟨q, hq, he⟩ := hm2
            injection he with h1 h2 h3
            rw [← h1]
            exact splitWsRuns_ne_nil s0 q
              (by rw [hsplit]; exact List.mem_cons_of_mem p hq)
        · rw [List.mem_singleton] at hmem
          injection hmem with h1 h2 h3
          subst h1
          exact hs0
    · rw [List.mem_singleton] at hmem
      injection hmem with h1 h2 h3
      subst h1
      exact hs0
  | cursorLink c0 =>
    rw [show chunkOne (ChainItem.cursorLink c0) = [ChainItem.cursorLink c0] from rfl,
      List.mem_singleton] at hmem
    exact absurd hmem (by simp)
  | newlineLink c0 =>
    rw [show chunkOne (ChainItem.newlineLink c0) = [ChainItem.newlineLink c0] from rfl,
      List.mem_singleton] at hmem
    exact absurd hmem (by simp)
  | virtualNewlineLink c0 =>
    rw [show chunkOne (ChainItem.virtualNewlineLink c0) =
      [ChainItem.virtualNewlineLink c0] from rfl, List.mem_singleton] at hmem
    exact absurd hmem (by simp)

theorem any_isCursor_ensureCursorExists (l : List ChainItem) :
    (ensureCursorExists l).any ChainItem.isCursor = true := by
  unfold ensureCursorExists
  split
  · assumption
  · rw [List.any_append]
    simp [ChainItem.isCursor]

theorem ensureCursorExists_of_any (l : List ChainItem)
    (h : l.any ChainItem.isCursor = true) : ensureCursorExists l = l := by
  unfold ensureCursorExists
  rw [if_pos h]

def pairOK : ChainItem → ChainItem → Bool
  | ChainItem.textLink _ f _, ChainItem.textLink _ g _ => !(f.doPropertiesMatch g)
  | _, _ => true

theorem noAdjacentSameFont_cons_cons (x y : ChainItem) (rest : List ChainItem) :
    noAdjacentSameFont (x :: y :: rest) =
      (pairOK x y && noAdjacentSameFont (y :: rest)) := by
  cases x <;> cases y <;> rfl

theorem noAdjacentSameFont_tail (x : ChainItem) (l : List ChainItem)
    (h : noAdjacentSameFont (x :: l) = true) : noAdjacentSameFont l = true := by
  cases l with
  | nil => rfl
  | cons y rest =>
    rw [noAdjacentSameFont_cons_cons, Bool.and_eq_true] at h
    exact h.2

theorem joinStep_of_not_text (x : ChainItem) (hx : x.isText = false)
    (out : List ChainItem) : joinStep x out = x :: out := by
  cases x with
  | textLink s f c => exact absurd hx (by simp [ChainItem.isText])
  | cursorLink c =>
    cases out with
    | nil => rfl
    | cons y out2 => cases y <;> rfl
  | newlineLink c =>
    cases out with
    | nil => rfl
    | cons y out2 => cases y <;> rfl
  | virtualNewlineLink c =>
    cases out with
    | nil => rfl
    | cons y out2 => cases y <;> rfl

theorem noAdjacentSameFont_joinStep (x : ChainItem) (out : List ChainItem)
    (h : noAdjacentSameFont out = true) :
    noAdjacentSameFont (joinStep x out) = true := by
  cases x with
  | textLink a f ca =>
    cases out with
    | nil => rfl
    | cons y out2 =>
      cases y with
      | textLink b g cb =>
        rw [joinStep]
        split
        · rename_i hmatch
          have hfg : f = g := (FontProperties.doPropertiesMatch_iff f g).mp hmatch
          subst hfg
          cases out2 with
          | nil => rfl
          | cons z rest =>
            rw [noAdjacentSameFont_cons_cons, Bool.and_eq_true] at h ⊢
            refine ⟨?_, h.2⟩
            have h1 := h.1
            cases z <;> simpa [pairOK] using h1
        · rename_i hnm
          rw [noAdjacentSameFont_cons_cons, Bool.and_eq_true]
          refine ⟨?_, h⟩
          simpa [pairOK] using hnm
      | cursorLink cb =>
        rw [show joinStep (ChainItem.textLink a f ca)
            (ChainItem.cursorLink cb :: out2) =
          ChainItem.textLink a f ca :: ChainItem.cursorLink cb :: out2 from rfl]
        rw [noAdjacentSameFont_cons_cons, Bool.and_eq_true]
        exact ⟨rfl, h⟩
      | newlineLink cb =>
        rw [show joinStep (ChainItem.textLink a f ca)
            (ChainItem.newlineLink cb :: out2) =
          ChainItem.textLink a f ca :: ChainItem.newlineLink cb :: out2 from rfl]
        rw [noAdjacentSameFont_cons_cons, Bool.and_eq_true]
        exact ⟨rfl, h⟩
      | virtualNewlineLink cb =>
        rw [show joinStep (ChainItem.textLink a f ca)
            (ChainItem.virtualNewlineLink cb :: out2) =
          ChainItem.textLink a f ca :: ChainItem.virtualNewlineLink cb :: out2 from rfl]
        rw [noAdjacentSameFont_cons_cons, Bool.and_eq_true]
        exact ⟨rfl, h⟩
  | cursorLink ca =>
    rw [joinStep_of_not_text (ChainItem.cursorLink ca) rfl]
    cases out with
    | nil => rfl
    | cons y out2 =>
      rw [noAdjacentSameFont_cons_cons, Bool.and_eq_true]
      refine ⟨?_, h⟩
      cases y <;> rfl
  | newlineLink ca =>
    rw [joinStep_of_not_text (ChainItem.newlineLink ca) rfl]
    cases out with
    | nil => rfl
    | cons y out2 =>
      rw [noAdjacentSameFont_cons_cons, Bool.and_eq_true]
      refine ⟨?_, h⟩
      cases y <;> rfl
  | virtualNewlineLink ca =>
    rw [joinStep_of_not_text (ChainItem.virtualNewlineLink ca) rfl]
    cases out with
    | nil => rfl
    | cons y out2 =>
      rw [noAdjacentSameFont_cons_cons, Bool.and_eq_true]
      refine ⟨?_, h⟩
      cases y <;> rfl

theorem noAdjacentSameFont_joinAdjacentTextLinks (l : List ChainItem) :
    noAdjacentSameFont (joinAdjacentTextLinks l) = true := by
  induction l with
  | nil => rfl
  | cons x rest ih =>
    rw [joinAdjacentTextLinks]
    exact noAdjacentSameFont_joinStep x _ ih

theorem joinAdjacentTextLinks_of_noAdjacent (l : List ChainItem)
    (h : noAdjacentSameFont l = true) : joinAdjacentTextLinks l = l := by
  induction l with
  | nil => rfl
  | cons x rest ih =>
    rw [joinAdjacentTextLinks, ih (noAdjacentSameFont_tail x rest h)]
    cases rest with
    | nil => cases x <;> rfl
    | cons y rest2 =>
      cases x with
      | textLink a f ca =>
        cases y with
        | textLink b g cb =>
          rw [noAdjacentSameFont_cons_cons, Bool.and_eq_true] at h
          have h2 : ¬ (f.doPropertiesMatch g = true) := by simpa [pairOK] using h.1
          rw [joinStep, if_neg h2]
        | cursorLink cb => rfl
        | newlineLink cb => rfl
        | virtualNewlineLink cb => rfl
      | cursorLink ca => exact joinStep_of_not_text (ChainItem.cursorLink ca) rfl _
      | newlineLink ca => exact joinStep_of_not_text (ChainItem.newlineLink ca) rfl _
      | virtualNewlineLink ca => exact joinStep_of_not_text (ChainItem.virtualNewlineLink ca) rfl _

theorem joinStep_append_cursor (x : ChainItem) (out : List ChainItem)
    (c : Computed) :
    joinStep x (out ++ [ChainItem.cursorLink c]) =
      joinStep x out ++ [ChainItem.cursorLink c] := by
  cases x with
  | textLink a f ca =>
    cases out with
    | nil => rfl
    | cons y out2 =>
      cases y with
      | textLink b g cb =>
        rw [List.cons_append, joinStep, joinStep]
        by_cases hm : f.doPropertiesMatch g = true
        · rw [if_pos hm, if_pos hm, List.cons_append]
        · rw [if_neg hm, if_neg hm]
          simp
      | cursorLink cb => rfl
      | newlineLink cb => rfl
      | virtualNewlineLink cb => rfl
  | cursorLink ca =>
    rw [joinStep_of_not_text (ChainItem.cursorLink ca) rfl,
      joinStep_of_not_text (ChainItem.cursorLink ca) rfl, List.cons_append]
  | newlineLink ca =>
    rw [joinStep_of_not_text (ChainItem.newlineLink ca) rfl,
      joinStep_of_not_text (ChainItem.newlineLink ca) rfl, List.cons_append]
  | virtualNewlineLink ca =>
    rw [joinStep_of_not_text (ChainItem.virtualNewlineLink ca) rfl,
      joinStep_of_not_text (ChainItem.virtualNewlineLink ca) rfl, List.cons_append]

theorem joinAdjacentTextLinks_append_cursor (l : List ChainItem) (c : Computed) :
    joinAdjacentTextLinks (l ++ [ChainItem.cursorLink c]) =
      joinAdjacentTextLinks l ++ [ChainItem.cursorLink c] := by
  induction l with
  | nil => rfl
  | cons x rest ih =>
    rw [List.cons_append, joinAdjacentTextLinks, ih, joinAdjacentTextLinks,
      joinStep_append_cursor]

theorem joinStep_merge (a b : Str) (f : FontProperties) (ca cb : Computed)
    (out : List ChainItem) :
    joinStep (ChainItem.textLink a f ca)
      (joinStep (ChainItem.textLink b f cb) out) =
    joinStep (ChainItem.textLink (a ++ b) f ca) out := by
  have hself : f.doPropertiesMatch f = true := by rw [FontProperties.doPropertiesMatch_iff]
  cases out with
  | nil =>
    rw [show joinStep (ChainItem.textLink b f cb) [] =
      [ChainItem.textLink b f cb] from rfl]
    rw [joinStep, if_pos hself]
    rfl
  | cons y out2 =>
    cases y with
    | textLink d g cd =>
      by_cases hm : f.doPropertiesMatch g = true
      · simp only [joinStep, if_pos hm, if_pos hself]
        rw [List.append_assoc]
      · simp only [joinStep, if_neg hm, if_pos hself]
    | cursorLink cd =>
      rw [show joinStep (ChainItem.textLink b f cb)
          (ChainItem.cursorLink cd :: out2) =
        ChainItem.textLink b f cb :: ChainItem.cursorLink cd :: out2 from rfl]
      rw [joinStep, if_pos hself]
      rfl
    | newlineLink cd =>
      rw [show joinStep (ChainItem.textLink b f cb)
          (ChainItem.newlineLink cd :: out2) =
        ChainItem.textLink b f cb :: ChainItem.newlineLink cd :: out2 from rfl]
      rw [joinStep, if_pos hself]
      rfl
    | virtualNewlineLink cd =>
      rw [show joinStep (ChainItem.textLink b f cb)
          (ChainItem.virtualNewlineLink cd :: out2) =
        ChainItem.textLink b f cb :: ChainItem.virtualNewlineLink cd :: out2 from rfl]
      rw [joinStep, if_pos hself]
      rfl

theorem join_textPieces (f : FontProperties) :
    ∀ (ps : List Str) (p : Str) (c : Computed) (L : List ChainItem),
      joinAdjacentTextLinks (ChainItem.textLink p f c ::
          ((ps.map fun q => ChainItem.textLink q f {}) ++ L)) =
        joinStep (ChainItem.textLink (p ++ ps.flatten) f c)
          (joinAdjacentTextLinks L) := by
  intro ps
  induction ps with
  | nil =>
    intro p c L
    simp only [List.map_nil, List.nil_append, List.flatten_nil, List.append_nil]
    rw [joinAdjacentTextLinks]
  | cons q ps2 ih =>
    intro p c L
    simp only [List.map_cons, List.cons_append, List.flatten_cons]
    rw [joinAdjacentTextLinks, ih q {} L, joinStep_merge]

theorem join_chunkOne (x : ChainItem) (L : List ChainItem) :
    joinAdjacentTextLinks (chunkOne x ++ L) =
      joinStep x (joinAdjacentTextLinks L) := by
  cases x with
  | textLink s f c =>
    simp only [chunkOne]
    split
    · split
      · simp only [List.cons_append, List.nil_append]
        rw [joinAdjacentTextLinks]
      · rename_i p ps hsplit
        split
        · simp only [FontProperties.clone, List.cons_append]
          rw [join_textPieces]
          have hps : p ++ ps.flatten = s := by
            have h2 := splitWsRuns_flatten s
            rw [hsplit] at h2
            simpa using h2
          rw [hps]
        · simp only [List.cons_append, List.nil_append]
          rw [joinAdjacentTextLinks]
    · simp only [List.cons_append, List.nil_append]
      rw [joinAdjacentTextLinks]
  | cursorLink c =>
    rw [show chunkOne (ChainItem.cursorLink c) = [ChainItem.cursorLink c] from rfl,
      List.singleton_append, joinAdjacentTextLinks]
  | newlineLink c =>
    rw [show chunkOne (ChainItem.newlineLink c) = [ChainItem.newlineLink c] from rfl,
      List.singleton_append, joinAdjacentTextLinks]
  | virtualNewlineLink c =>
    rw [show chunkOne (ChainItem.virtualNewlineLink c) =
      [ChainItem.virtualNewlineLink c] from rfl,
      List.singleton_append, joinAdjacentTextLinks]

theorem join_chunkTextLinks (l : List ChainItem) :
    joinAdjacentTextLinks (chunkTextLinks l) = joinAdjacentTextLinks l := by
  induction l with
  | nil => rfl
  | cons x rest ih =>
    rw [show chunkTextLinks (x :: rest) = chunkOne x ++ chunkTextLinks rest from rfl,
      join_chunkOne, ih, joinAdjacentTextLinks]

/-- The part of an item list that survives `clearComputed` followed by
`removeVirtualNewlines`: the text/font content with layout stripped. -/
def stripVC (l : List ChainItem) : List ChainItem :=
  removeVirtualNewlines (clearComputed l)

theorem stripVC_nil : stripVC [] = [] := rfl

theorem stripVC_append (l1 l2 : List ChainItem) :
    stripVC (l1 ++ l2) = stripVC l1 ++ stripVC l2 := by
  unfold stripVC removeVirtualNewlines
  rw [clearComputed_append, List.filter_append]

theorem stripVC_text (s : Str) (f : FontProperties) (c : Computed)
    (l : List ChainItem) :
    stripVC (ChainItem.textLink s f c :: l) =
      ChainItem.textLink s f {} :: stripVC l := rfl

theorem stripVC_cursor (c : Computed) (l : List ChainItem) :
    stripVC (ChainItem.cursorLink c :: l) =
      ChainItem.cursorLink {} :: stripVC l := rfl

theorem stripVC_newline (c : Computed) (l : List ChainItem) :
    stripVC (ChainItem.newlineLink c :: l) =
      ChainItem.newlineLink {} :: stripVC l := rfl

theorem stripVC_vnl (c : Computed) (l : List ChainItem) :
    stripVC (ChainItem.virtualNewlineLink c :: l) = stripVC l := rfl

theorem findSplitIdx_pos (w : Str → ℚ) (W : ℚ) (remaining : Str)
    (hlen : remaining.length ≠ 0) (hgt : W < w remaining)
    (hfits : ∀ ch ∈ remaining, w [ch] ≤ W) :
    ∃ k, findSplitIdx w W remaining = some k ∧ 1 ≤ k := by
  cases remaining with
  | nil => exact absurd rfl hlen
  | cons c0 cs =>
    cases cs with
    | nil => exact absurd (hfits c0 (by simp)) (not_le.mpr hgt)
    | cons c1 cs2 =>
      have h1 : w ((c0 :: c1 :: cs2).take 1) ≤ W := by
        simpa using hfits c0 (by simp)
      obtain ⟨k, hk, hk1⟩ :=
        findSplitIdxGo_pos w W (c0 :: c1 :: cs2) h1 (cs2.length + 1) (by omega)
      refine ⟨k, ?_, hk1⟩
      unfold findSplitIdx
      rw [if_neg (by simp)]
      rw [show (c0 :: c1 :: cs2).length - 1 = cs2.length + 1 by simp]
      exact hk

theorem consumeRun_pieces (w : Str → ℚ) (W : ℚ) (font : FontProperties) :
    ∀ (fuel : ℕ) (posX : ℚ) (remaining : Str) (acc : List ChainItem)
      (res : List ChainItem) (px : ℚ),
      (∀ ch ∈ remaining, w [ch] ≤ W) →
      consumeRun w W font fuel posX remaining acc = some (res, px) →
      ∃ ps : List Str,
        stripVC res = stripVC acc ++ (ps.map fun q => ChainItem.textLink q font {}) ∧
        ps.flatten = remaining ∧ (remaining ≠ [] → ps ≠ []) := by
  intro fuel
  induction fuel with
  | zero =>
    intro posX remaining acc res px hfits h
    rw [consumeRun] at h
    split at h
    · rename_i hlen
      rw [Option.some.injEq, Prod.mk.injEq] at h
      have hrem : remaining = [] := List.eq_nil_of_length_eq_zero hlen
      refine ⟨[], ?_, ?_, ?_⟩
      · rw [← h.1]
        simp
      · rw [List.flatten_nil, hrem]
      · intro hne2
        exact absurd hrem hne2
    · exact absurd h (by simp)
  | succ n ih =>
    intro posX remaining acc res px hfits h
    rw [consumeRun] at h
    split at h
    · rename_i hlen
      rw [Option.some.injEq, Prod.mk.injEq] at h
      have hrem : remaining = [] := List.eq_nil_of_length_eq_zero hlen
      refine ⟨[], ?_, ?_, ?_⟩
      · rw [← h.1]
        simp
      · rw [List.flatten_nil, hrem]
      · intro hne2
        exact absurd hrem hne2
    · rename_i hlen
      simp only at h
      split at h
      · rename_i hgt
        split at h
        · rename_i k hsplitIdx
          obtain ⟨k2, hk2, hk21⟩ := findSplitIdx_pos w W remaining hlen hgt hfits
          rw [hsplitIdx, Option.some.injEq] at hk2
          subst hk2
          have hk0 : ¬ (k = 0) := by omega
          rw [if_neg hk0] at h
          obtain ⟨ps2, hps2, hfl2, hpne2⟩ := ih posX (remaining.drop k)
            ((acc ++ [ChainItem.textLink (remaining.take k) font.clone
              { posX := some posX }]) ++ [ChainItem.virtualNewlineLink {}]) res px
            (fun ch hch => hfits ch (List.drop_subset k remaining hch)) h
          refine ⟨remaining.take k :: ps2, ?_, ?_, ?_⟩
          · rw [hps2, stripVC_append, stripVC_append]
            simp only [FontProperties.clone, stripVC_text, stripVC_vnl,
              stripVC_nil, List.map_cons]
            simp
          · rw [List.flatten_cons, hfl2, List.take_append_drop]
          · intro _
            simp
        · rename_i hNone
          obtain ⟨k2, hk2, _⟩ := findSplitIdx_pos w W remaining hlen hgt hfits
          rw [hNone] at hk2
          exact absurd hk2 (by simp)
      · rename_i hle
        rw [Option.some.injEq, Prod.mk.injEq] at h
        refine ⟨[remaining], ?_, by simp, fun _ => by simp⟩
        rw [← h.1, stripVC_append]
        simp only [stripVC_text, stripVC_nil, List.map_cons, List.map_nil]

theorem join_stripVC_recalcXGo (ctx : Ctx) (W : ℚ) :
    ∀ (l : List ChainItem) (posX : ℚ) (flag : Bool) (out : List ChainItem),
      recalcXGo ctx W posX flag l = some out →
      TextFits ctx W l → noEmptyTextRun l = true →
      joinAdjacentTextLinks (stripVC out) =
        joinAdjacentTextLinks (stripVC l) := by
  intro l
  induction l with
  | nil =>
    intro posX flag out h _ _
    rw [recalcXGo] at h
    cases h
    rfl
  | cons it rest ih =>
    intro posX flag out h hfit hne
    have hnerest : noEmptyTextRun rest = true :=
      noEmpty_of_subset _ _ (fun y hy => by simp [hy]) hne
    cases it with
    | textLink s f c =>
      have hs : ∀ ch ∈ s, measureTextWidth ctx f [ch] ≤ W :=
        hfit s f c (by simp)
      have hsne : s ≠ [] := (noEmpty_iff _).mp hne s f c (by simp)
      rw [recalcXGo] at h
      split at h
      · split at h
        · rename_i newItems posX1 hcons
          rw [Option.map_eq_some'] at h
          obtain ⟨out1, hrec, hout⟩ := h
          subst hout
          obtain ⟨ps, hps, hfl, hpne⟩ := consumeRun_pieces
            (measureTextWidth ctx f) W f (s.length + 1)
            (if flag then 0 else posX) s [] newItems posX1 hs hcons
          rcases ps with _ | ⟨p, ps2⟩
          · exact absurd rfl (hpne hsne)
          · rw [stripVC_append, stripVC_append]
            have hpre :
                stripVC (if flag then [ChainItem.virtualNewlineLink {}] else []) =
                  [] := by
              cases flag <;> rfl
            rw [hpre, List.nil_append, hps, stripVC_nil, List.nil_append,
              List.map_cons, List.cons_append, join_textPieces]
            rw [show p ++ ps2.flatten = s from by
              rw [← List.flatten_cons]; exact hfl]
            rw [ih _ _ _ hrec (TextFits_of_cons _ _ _ _ hfit) hnerest]
            rw [stripVC_text, joinAdjacentTextLinks]
        · exact absurd h (by simp)
      · split at h
        · rw [Option.map_eq_some'] at h
          obtain ⟨out1, hrec, hout⟩ := h
          subst hout
          rw [stripVC_vnl, stripVC_text, stripVC_text,
            joinAdjacentTextLinks, joinAdjacentTextLinks,
            ih _ _ _ hrec (TextFits_of_cons _ _ _ _ hfit) hnerest]
        · rw [Option.map_eq_some'] at h
          obtain ⟨out1, hrec, hout⟩ := h
          subst hout
          rw [stripVC_text, stripVC_text,
            joinAdjacentTextLinks, joinAdjacentTextLinks,
            ih _ _ _ hrec (TextFits_of_cons _ _ _ _ hfit) hnerest]
    | cursorLink c =>
      rw [recalcXGo, Option.map_eq_some'] at h
      obtain ⟨out1, hrec, hout⟩ := h
      subst hout
      rw [stripVC_cursor, stripVC_cursor,
        joinAdjacentTextLinks, joinAdjacentTextLinks,
        ih _ _ _ hrec (TextFits_of_cons _ _ _ _ hfit) hnerest]
    | newlineLink c =>
      rw [recalcXGo, Option.map_eq_some'] at h
      obtain ⟨out1, hrec, hout⟩ := h
      subst hout
      rw [stripVC_newline, stripVC_newline,
        joinAdjacentTextLinks, joinAdjacentTextLinks,
        ih _ _ _ hrec (TextFits_of_cons _ _ _ _ hfit) hnerest]
    | virtualNewlineLink c =>
      rw [recalcXGo, Option.map_eq_some'] at h
      obtain ⟨out1, hrec, hout⟩ := h
      subst hout
      rw [stripVC_vnl, stripVC_vnl,
        ih _ _ _ hrec (TextFits_of_cons _ _ _ _ hfit) hnerest]

theorem recalc_idempotent_aux (c : Chain)
    (hne : noEmptyTextRun c.items = true)
    (hfit : TextFits c.ctx c.widthPixels c.items) :
    ∀ c1, c.recalc = some c1 → c1.recalc = some c1 := by
  intro c1 h
  unfold Chain.recalc at h
  simp only at h
  split at h
  · exact absurd h (by simp)
  · rename_i i6 hX
    rw [Option.some.injEq] at h
    subst h
    have hA5 : AllCleared (chunkTextLinks (ensureCursorExists (removeEmptyTextLinks
        (joinAdjacentTextLinks (removeVirtualNewlines (clearComputed c.items)))))) :=
      AllCleared_chunkTextLinks _ (AllCleared_ensureCursorExists _
        (AllCleared_filter _ _ (AllCleared_joinAdjacentTextLinks _
          (AllCleared_filter _ _ (AllCleared_clearComputed c.items)))))
    have hV5 : noVNL (chunkTextLinks (ensureCursorExists (removeEmptyTextLinks
        (joinAdjacentTextLinks (removeVirtualNewlines (clearComputed c.items)))))) =
        true :=
      noVNL_chunkTextLinks _ (noVNL_ensureCursorExists _
        (noVNL_removeEmptyTextLinks _ (noVNL_joinAdjacentTextLinks _
          (noVNL_removeVirtualNewlines _))))
    have hE5 : noEmptyTextRun (chunkTextLinks (ensureCursorExists
        (removeEmptyTextLinks (joinAdjacentTextLinks (removeVirtualNewlines
          (clearComputed c.items)))))) = true :=
      noEmpty_chunkTextLinks _ (noEmpty_ensureCursorExists _
        (noEmpty_removeEmptyTextLinks _))
    have hF5 : TextFits c.ctx c.widthPixels
        (chunkTextLinks (ensureCursorExists (removeEmptyTextLinks
          (joinAdjacentTextLinks (removeVirtualNewlines (clearComputed c.items)))))) :=
      TextFits_chunkTextLinks _ _ _ (TextFits_ensureCursorExists _ _ _
        (TextFits_removeEmptyTextLinks _ _ _ (TextFits_joinAdjacentTextLinks _ _ _
          (TextFits_removeVirtualNewlines _ _ _ (TextFits_clearComputed _ _ _ hfit)))))
    have hL1 : joinAdjacentTextLinks (stripVC i6) =
        joinAdjacentTextLinks (stripVC (chunkTextLinks (ensureCursorExists
          (removeEmptyTextLinks (joinAdjacentTextLinks (removeVirtualNewlines
            (clearComputed c.items))))))) :=
      join_stripVC_recalcXGo c.ctx c.widthPixels _ 0 false i6 hX hF5 hE5
    have hstrip5 : stripVC (chunkTextLinks (ensureCursorExists (removeEmptyTextLinks
        (joinAdjacentTextLinks (removeVirtualNewlines (clearComputed c.items)))))) =
        chunkTextLinks (ensureCursorExists (removeEmptyTextLinks
          (joinAdjacentTextLinks (removeVirtualNewlines (clearComputed c.items))))) := by
      unfold stripVC
      rw [clearComputed_of_AllCleared _ hA5, removeVirtualNewlines_of_noVNL _ hV5]
    have hne2 : noEmptyTextRun (joinAdjacentTextLinks (removeVirtualNewlines
        (clearComputed c.items))) = true :=
      noEmpty_joinAdjacentTextLinks _ (noEmpty_of_subset _ _
        (fun it hm => List.mem_of_mem_filter hm) (noEmpty_clearComputed _ hne))
    have hnorm2 : noAdjacentSameFont (joinAdjacentTextLinks (removeVirtualNewlines
        (clearComputed c.items))) = true :=
      noAdjacentSameFont_joinAdjacentTextLinks _
    have hi3 : removeEmptyTextLinks (joinAdjacentTextLinks (removeVirtualNewlines
        (clearComputed c.items))) =
        joinAdjacentTextLinks (removeVirtualNewlines (clearComputed c.items)) :=
      removeEmptyTextLinks_of_noEmpty _ hne2
    have hjoin4 : joinAdjacentTextLinks (ensureCursorExists (removeEmptyTextLinks
        (joinAdjacentTextLinks (removeVirtualNewlines (clearComputed c.items))))) =
        ensureCursorExists (removeEmptyTextLinks (joinAdjacentTextLinks
          (removeVirtualNewlines (clearComputed c.items)))) := by
      rw [hi3]
      unfold ensureCursorExists
      split
      · exact joinAdjacentTextLinks_of_noAdjacent _ hnorm2
      · rw [joinAdjacentTextLinks_append_cursor,
          joinAdjacentTextLinks_of_noAdjacent _ hnorm2]
    have hne4 : noEmptyTextRun (ensureCursorExists (removeEmptyTextLinks
        (joinAdjacentTextLinks (removeVirtualNewlines (clearComputed c.items))))) =
        true :=
      noEmpty_ensureCursorExists _ (noEmpty_removeEmptyTextLinks _)
    have hcur4 : (ensureCursorExists (removeEmptyTextLinks (joinAdjacentTextLinks
        (removeVirtualNewlines (clearComputed c.items))))).any ChainItem.isCursor =
        true :=
      any_isCursor_ensureCursorExists _
    have hclearY : clearComputed (recalcYPositions c.ctx c.currentFontProperties i6) =
        clearComputed i6 := by
      rw [show recalcYPositions c.ctx c.currentFontProperties i6 =
        recalcYGo c.ctx c.currentFontProperties [] 0 [] 0 0 0 i6 from rfl,
        clearComputed_recalcYGo, List.nil_append]
    have hjoinY : joinAdjacentTextLinks (stripVC
        (recalcYPositions c.ctx c.currentFontProperties i6)) =
        ensureCursorExists (removeEmptyTextLinks (joinAdjacentTextLinks
          (removeVirtualNewlines (clearComputed c.items)))) := by
      unfold stripVC
      rw [hclearY]
      rw [show removeVirtualNewlines (clearComputed i6) = stripVC i6 from rfl]
      rw [hL1, hstrip5, join_chunkTextLinks]
      exact hjoin4
    unfold Chain.recalc
    simp only
    rw [show removeVirtualNewlines (clearComputed
        (recalcYPositions c.ctx c.currentFontProperties i6)) =
      stripVC (recalcYPositions c.ctx c.currentFontProperties i6) from rfl]
    rw [hjoinY]
    rw [removeEmptyTextLinks_of_noEmpty _ hne4, ensureCursorExists_of_any _ hcur4]
    rw [hX]

/-- A chain on which normalization is not idempotent: an empty `TextLink`
with a different font separates two runs of equal font.  The first `recalc`
joins before removing empty runs, so the two equal-font runs only become
adjacent after the empty run is dropped; the second `recalc` then merges
them, shrinking the item list. -/
def c5chain : Chain :=
  { chain800 with items :=
      [ChainItem.textLink ['a'] font16 {},
       ChainItem.textLink [] font40 {},
       ChainItem.textLink ['a'] font16 {},
       ChainItem.cursorLink {}] }

/-- Counterexample to C5 as stated: running `recalc` once on `c5chain`
yields three items, running it twice yields two, so the item sequences (and
their layout fields) differ between the first and second run. -/
theorem C5_counterexample :
    (c5chain.recalc.map fun c1 => c1.items.length) = some 3 ∧
    ((c5chain.recalc.bind Chain.recalc).map fun c2 => c2.items.length) =
      some 2 := by
  constructor
  · decide
  · decide

/-- C5: for a chain state with no empty text run whose every character fits
the wrap width, `recalc` is idempotent: a second run with no intervening
mutation returns exactly the state produced by the first run, item sequence
and computed layout fields included.  (Without the no-empty-run proviso the
claim fails, see the counterexample: the pipeline removes empty runs only
after joining, so a font-changing empty run shields two equal-font
neighbours from the first join but not from the second.) -/
theorem C5_recalc_idempotent (c : Chain)
    (hne : noEmptyTextRun c.items = true)
    (hfit : TextFits c.ctx c.widthPixels c.items)
    (c1 : Chain) (h : c.recalc = some c1) : c1.recalc = some c1 :=
  recalc_idempotent_aux c hne hfit c1 h

/-- A well-formed two-item chain for the idempotence witness. -/
def c5wit : Chain :=
  { chain800 with items :=
      [ChainItem.textLink ['h', 'i'] font16 {}, ChainItem.cursorLink {}] }

/-- Witness for C5: the hypotheses hold for `c5wit` and `recalc` on its
first result is a fixed point. -/
theorem C5_witness :
    ∃ c1, c5wit.recalc = some c1 ∧ c1.recalc = some c1 := by
  have hs : c5wit.recalc.isSome = true := by decide
  refine ⟨Option.get _ hs, (Option.some_get hs).symm, ?_⟩
  refine C5_recalc_idempotent c5wit (by decide) ?_ _ (Option.some_get hs).symm
  intro s f c hm
  simp only [c5wit, chain800, Chain.mk0] at hm
  rcases List.mem_cons.mp hm with h1 | hm2
  · injection h1 with e1 e2 e3
    subst e1
    subst e2
    intro ch hch
    simp only [List.mem_cons] at hch
    rcases hch with h2 | h2 | h2
    · subst h2
      decide
    · subst h2
      decide
    · exact absurd h2 (List.not_mem_nil ch)
  · rcases List.mem_cons.mp hm2 with h1 | hm3
    · exact absurd h1 (by simp)
    · simp at hm3
